import Mathlib

/-!
# Verification of the moma_simulation_engine core

A shallow embedding of the core components of the repository, with proofs of
the behavioural properties stated in its specification:

* `MomaSim.Ctrl`  — the feedback controller of `examples/moma_gower/src/main.rs`
  (the `dynamic_pathfinding` per-step penalty-weight update);
* `MomaSim.Gower` — the spectral Gowers-U2 norm machinery of
  `examples/moma_gower/src/main.rs` (`calculate_u2_norm_fft`,
  `path_to_complex_sequence_fft`), with `f64` idealized as `ℝ` and complex
  samples as `ℂ`; the forward FFT is embedded as the forward discrete Fourier
  transform it computes;
* `MomaSim.Net`   — the flow network of `src/network_graph.rs` (`add_edge`,
  `find_cheapest_path_dijkstra`, `edmonds_karp`, `route_cheapest_path`), with
  `f64` costs idealized as `ℚ` so that concrete runs evaluate; unbounded
  `while` loops are embedded with an explicit fuel parameter and all invariant
  theorems hold for every fuel;
* `MomaSim.AStar` — the grid and A* search of `src/grid.rs` and
  `src/pathfinding.rs`.
-/

set_option maxHeartbeats 1000000

namespace MomaSim

/-! ## The feedback controller

Embedding of the per-step controller logic inlined in `dynamic_pathfinding`
(`examples/moma_gower/src/main.rs`, lines 242-269).  The code first resets the
weight to `0.0` when the measured norm is below `0.0001`, then always applies
the proportional/decay update with the constants `target_norm = 0.25`,
`proportional_gain = 5.0`, `decay_rate = 0.01`, and finally clamps at `0`. -/

namespace Ctrl

/-- One simulation step of the penalty-weight controller: given the current
`structure_penalty_weight` and the measured `u2_norm_fft`, produce the new
weight exactly as the Rust code does. -/
noncomputable def controllerStep (w : ℝ) (u2NormFft : ℝ) : ℝ :=
  let w0 : ℝ := if u2NormFft < 0.0001 then 0 else w
  let targetNorm : ℝ := 0.25
  let error : ℝ := u2NormFft - targetNorm
  let proportionalGain : ℝ := 5.0
  let decayRate : ℝ := 0.01
  let adjustment : ℝ := error * proportionalGain
  max (w0 * (1 - decayRate) + adjustment) 0

theorem controllerStep_nonneg (w m : ℝ) : 0 ≤ controllerStep w m :=
  le_max_right _ _

theorem controllerStep_small (w m : ℝ) (h : m < 0.0001) : controllerStep w m = 0 := by
  unfold controllerStep
  simp only [if_pos h]
  rw [max_eq_right]
  nlinarith

theorem controllerStep_normal (w m : ℝ) (h : ¬ m < 0.0001) :
    controllerStep w m = max (w * (1 - 0.01) + (m - 0.25) * 5) 0 := by
  unfold controllerStep
  simp only [if_neg h]
  norm_num

end Ctrl

end MomaSim

/-! ## Claim theorems (controller) -/

open MomaSim

/-- **C9**: at every step the controller, given the measured and target norms,
sets the new penalty weight to
`max (penalty_weight * (1 - decay_rate) + (measured - target) * gain) 0`
(with the code's constants `target = 0.25`, `gain = 5`, `decay = 0.01`);
whenever the measured norm is below `1e-4` the resulting weight is `0`; and for
any sequence of measured values the weight stays nonnegative. -/
theorem C9_controller_spec :
    (∀ w m : ℝ, m < 0.0001 → Ctrl.controllerStep w m = 0) ∧
    (∀ w m : ℝ, ¬ m < 0.0001 →
      Ctrl.controllerStep w m = max (w * (1 - 0.01) + (m - 0.25) * 5) 0) ∧
    (∀ w m : ℝ, 0 ≤ Ctrl.controllerStep w m) ∧
    (∀ (ms : List ℝ) (w : ℝ), 0 ≤ w → 0 ≤ ms.foldl Ctrl.controllerStep w) := by
  refine ⟨Ctrl.controllerStep_small, Ctrl.controllerStep_normal,
    Ctrl.controllerStep_nonneg, ?_⟩
  intro ms
  induction ms with
  | nil => intro w hw; simpa using hw
  | cons m rest ih =>
      intro w _
      simpa using ih (Ctrl.controllerStep w m) (Ctrl.controllerStep_nonneg w m)

/-- Witness for C9 at concrete inputs. -/
theorem C9_controller_spec_witness :
    ((0.00005 : ℝ) < 0.0001 ∧ Ctrl.controllerStep 1 0.00005 = 0) ∧
    (¬ (1 : ℝ) < 0.0001 ∧
      Ctrl.controllerStep 2 1 = max (2 * (1 - 0.01) + (1 - 0.25) * 5) 0) ∧
    (0 : ℝ) ≤ Ctrl.controllerStep (-3) 7 ∧
    ((0 : ℝ) ≤ 0 ∧ 0 ≤ ([0.3, 0.1] : List ℝ).foldl Ctrl.controllerStep 0) :=
  ⟨⟨by norm_num, C9_controller_spec.1 1 0.00005 (by norm_num)⟩,
   ⟨by norm_num, C9_controller_spec.2.1 2 1 (by norm_num)⟩,
   C9_controller_spec.2.2.1 (-3) 7,
   ⟨le_refl 0, C9_controller_spec.2.2.2 [0.3, 0.1] 0 (le_refl 0)⟩⟩

namespace MomaSim

/-! ## The spectral Gowers-U2 norm

Embedding of `calculate_u2_norm_fft` and `path_to_complex_sequence_fft` from
`examples/moma_gower/src/main.rs`.  The `rustfft` forward transform of a buffer
`s` of length `n` computes, in place, the unnormalized forward DFT
`X_r = sum_x s[x] * exp (-2 pi i r x / n)`; `f64` values are idealized as real
numbers and `Complex<f64>` samples as `ℂ`. -/

namespace Gower

open Complex

/-- The root of unity `exp (2 π i m / n)` for an integer exponent `m`. -/
noncomputable def eInt (n : ℕ) (m : ℤ) : ℂ :=
  Complex.exp (2 * Real.pi * Complex.I * m / n)

theorem eInt_add (n : ℕ) (a b : ℤ) : eInt n (a + b) = eInt n a * eInt n b := by
  unfold eInt
  rw [← Complex.exp_add]
  congr 1
  push_cast
  ring

theorem eInt_zero (n : ℕ) : eInt n 0 = 1 := by
  unfold eInt
  norm_num [Complex.exp_zero]

theorem eInt_neg (n : ℕ) (m : ℤ) : eInt n (-m) = (eInt n m)⁻¹ := by
  unfold eInt
  rw [← Complex.exp_neg]
  congr 1
  push_cast
  ring

theorem eInt_dvd (n : ℕ) (hn : 0 < n) {m : ℤ} (h : (n : ℤ) ∣ m) : eInt n m = 1 := by
  obtain ⟨k, rfl⟩ := h
  unfold eInt
  have hn' : (n : ℂ) ≠ 0 := Nat.cast_ne_zero.mpr hn.ne'
  rw [show 2 * (Real.pi : ℂ) * Complex.I * ((n : ℤ) * k : ℤ) / n
      = (k : ℂ) * (2 * Real.pi * Complex.I) by
    push_cast
    field_simp
    ring]
  exact_mod_cast Complex.exp_int_mul_two_pi_mul_I k

theorem eInt_ne_one (n : ℕ) (hn : 0 < n) {m : ℤ} (h : ¬ (n : ℤ) ∣ m) :
    eInt n m ≠ 1 := by
  unfold eInt
  intro hone
  rw [Complex.exp_eq_one_iff] at hone
  obtain ⟨k, hk⟩ := hone
  apply h
  have hn' : (n : ℂ) ≠ 0 := Nat.cast_ne_zero.mpr hn.ne'
  have h2 : (2 * (Real.pi : ℂ) * Complex.I) ≠ 0 := by
    have hπ : (Real.pi : ℂ) ≠ 0 := Complex.ofReal_ne_zero.mpr Real.pi_ne_zero
    exact mul_ne_zero (mul_ne_zero two_ne_zero hπ) Complex.I_ne_zero
  have hm : (m : ℂ) = (k : ℂ) * n := by
    have h1 : 2 * (Real.pi : ℂ) * Complex.I * m
        = 2 * (Real.pi : ℂ) * Complex.I * ((k : ℂ) * n) := by
      field_simp at hk
      linear_combination hk
    exact mul_left_cancel₀ h2 h1
  have hmz : m = k * n := by exact_mod_cast hm
  exact ⟨k, by rw [hmz]; ring⟩

theorem eInt_pow (n : ℕ) (m : ℤ) (j : ℕ) : eInt n m ^ j = eInt n (m * j) := by
  unfold eInt
  rw [← Complex.exp_nat_mul]
  congr 1
  push_cast
  ring

theorem conj_eInt (n : ℕ) (m : ℤ) :
    (starRingEnd ℂ) (eInt n m) = eInt n (-m) := by
  unfold eInt
  rw [← Complex.exp_conj]
  congr 1
  rw [map_div₀]
  push_cast
  simp only [map_mul, Complex.conj_I, Complex.conj_ofReal, map_ofNat, map_natCast,
    map_intCast]
  ring

/-- Orthogonality of the characters: `sum_{j<n} exp (2 π i m j / n)` is `n`
when `n ∣ m` and `0` otherwise. -/
theorem eInt_orth (n : ℕ) (hn : 0 < n) (m : ℤ) :
    ∑ j ∈ Finset.range n, eInt n (m * j) = if (n : ℤ) ∣ m then (n : ℂ) else 0 := by
  by_cases h : (n : ℤ) ∣ m
  · rw [if_pos h]
    have h1 : ∑ j ∈ Finset.range n, eInt n (m * j) = ∑ _j ∈ Finset.range n, (1 : ℂ) :=
      Finset.sum_congr rfl fun j _ => eInt_dvd n hn (h.mul_right (j : ℤ))
    rw [h1]
    simp
  · rw [if_neg h]
    have h1 : ∑ j ∈ Finset.range n, eInt n (m * j)
        = ∑ j ∈ Finset.range n, eInt n m ^ j :=
      Finset.sum_congr rfl fun j _ => (eInt_pow n m j).symm
    rw [h1]
    rw [geom_sum_eq (eInt_ne_one n hn h)]
    have hone : eInt n m ^ n = 1 := by
      rw [eInt_pow]
      exact eInt_dvd n hn ⟨m, by ring⟩
    rw [hone]
    simp

/-- One coefficient of the forward DFT that `rustfft`'s forward `process`
computes on a buffer of length `n`: `X_r = Σ_x s[x] · exp (-2 π i r x / n)`. -/
noncomputable def dftCoeff (s : List ℂ) (r : ℕ) : ℂ :=
  ∑ x ∈ Finset.range s.length, s.getD x 0 * eInt s.length (-((r : ℤ) * (x : ℤ)))

/-- The in-place result of `rustfft`'s forward `process` on the buffer `s`. -/
noncomputable def dft (s : List ℂ) : List ℂ :=
  (List.range s.length).map fun r => dftCoeff s r

/-- Embedding of `calculate_u2_norm_fft` (`examples/moma_gower/src/main.rs`,
lines 29-51; the other examples contain textually identical copies).  The Rust
function mutates the caller's vector in place, so the embedding returns the
pair (returned norm, final contents of the caller's vector). -/
noncomputable def calculate_u2_norm_fft (s : List ℂ) : ℝ × List ℂ :=
  if s.length = 0 then (0, s)
  else
    let transformed := dft s
    let sumOfMagnitudesPow4 : ℝ :=
      (transformed.map fun c => Complex.normSq c ^ 2).sum
    ((sumOfMagnitudesPow4 / (s.length : ℝ) ^ 4) ^ ((1 : ℝ) / 4), transformed)

/-- Embedding of `path_to_complex_sequence_fft` (`examples/moma_gower/src/main.rs`,
lines 313-326): each step of the path is turned into the unit-circle sample
`(cos θ, sin θ)` with `θ = atan2 dy dx`; `atan2 dy dx` is `Complex.arg ⟨dx, dy⟩`. -/
noncomputable def path_to_complex_sequence_fft (path : List (ℤ × ℤ)) : List ℂ :=
  if path.length < 2 then []
  else
    (List.range (path.length - 1)).map fun p =>
      let dx : ℤ := (path.getD (p + 1) (0, 0)).1 - (path.getD p (0, 0)).1
      let dy : ℤ := (path.getD (p + 1) (0, 0)).2 - (path.getD p (0, 0)).2
      let angle : ℝ := Complex.arg ⟨(dx : ℝ), (dy : ℝ)⟩
      ⟨Real.cos angle, Real.sin angle⟩

theorem dft_length (s : List ℂ) : (dft s).length = s.length := by
  simp [dft]

/-- Sum of a mapped `List.range` as a `Finset.range` sum. -/
theorem sum_range_map {M : Type*} [AddCommMonoid M] (f : ℕ → M) (n : ℕ) :
    ((List.range n).map f).sum = ∑ r ∈ Finset.range n, f r := by
  induction n with
  | zero => simp
  | succ k ih => simp [List.range_succ, Finset.sum_range_succ, ih]

theorem rpow_quarter_pow4 {x : ℝ} (hx : 0 ≤ x) :
    (x ^ ((1 : ℝ) / 4)) ^ (4 : ℕ) = x := by
  rw [← Real.rpow_natCast (x ^ ((1 : ℝ) / 4)) 4, ← Real.rpow_mul hx]
  norm_num

theorem pow4_rpow_quarter {t : ℝ} (ht : 0 ≤ t) :
    ((t ^ (4 : ℕ) : ℝ)) ^ ((1 : ℝ) / 4) = t := by
  rw [← Real.rpow_natCast t 4, ← Real.rpow_mul ht]
  norm_num

/-- For naturals below `n`, divisibility of the difference means equality. -/
theorem dvd_sub_iff_eq {n x y : ℕ} (hx : x < n) (hy : y < n) :
    (n : ℤ) ∣ ((y : ℤ) - (x : ℤ)) ↔ x = y := by
  constructor
  · intro h
    have habs : |(y : ℤ) - (x : ℤ)| < (n : ℤ) := by
      rw [abs_lt]
      omega
    have h0 := Int.eq_zero_of_abs_lt_dvd h habs
    omega
  · rintro rfl
    simp

theorem conj_dftCoeff (s : List ℂ) (r : ℕ) :
    (starRingEnd ℂ) (dftCoeff s r) =
      ∑ y ∈ Finset.range s.length,
        (starRingEnd ℂ) (s.getD y 0) * eInt s.length ((r : ℤ) * (y : ℤ)) := by
  unfold dftCoeff
  rw [map_sum]
  refine Finset.sum_congr rfl fun y _ => ?_
  rw [map_mul, conj_eInt, neg_neg]

/-- Parseval's identity for the unnormalized forward DFT, complex form. -/
theorem parseval_complex (s : List ℂ) (hn : 0 < s.length) :
    ∑ r ∈ Finset.range s.length, dftCoeff s r * (starRingEnd ℂ) (dftCoeff s r) =
      (s.length : ℂ) *
        ∑ x ∈ Finset.range s.length, s.getD x 0 * (starRingEnd ℂ) (s.getD x 0) := by
  set n := s.length with hnn
  have step1 : ∀ r : ℕ, dftCoeff s r * (starRingEnd ℂ) (dftCoeff s r)
      = ∑ x ∈ Finset.range n, ∑ y ∈ Finset.range n,
          s.getD x 0 * (starRingEnd ℂ) (s.getD y 0) * eInt n (((y : ℤ) - x) * r) := by
    intro r
    rw [conj_dftCoeff]
    unfold dftCoeff
    rw [Finset.sum_mul_sum]
    refine Finset.sum_congr rfl fun x _ => Finset.sum_congr rfl fun y _ => ?_
    rw [show s.getD x 0 * eInt n (-((r : ℤ) * x)) *
          ((starRingEnd ℂ) (s.getD y 0) * eInt n ((r : ℤ) * y))
        = s.getD x 0 * (starRingEnd ℂ) (s.getD y 0) *
          (eInt n (-((r : ℤ) * x)) * eInt n ((r : ℤ) * y)) by ring]
    rw [← eInt_add]
    congr 2
    ring
  have step2 : ∀ x ∈ Finset.range n, ∀ y ∈ Finset.range n,
      ∑ r ∈ Finset.range n,
          s.getD x 0 * (starRingEnd ℂ) (s.getD y 0) * eInt n (((y : ℤ) - x) * r)
        = s.getD x 0 * (starRingEnd ℂ) (s.getD y 0) *
            (if x = y then (n : ℂ) else 0) := by
    intro x hx y hy
    rw [← Finset.mul_sum, eInt_orth n hn]
    have hiff := dvd_sub_iff_eq (Finset.mem_range.mp hx) (Finset.mem_range.mp hy)
    rw [if_congr hiff rfl rfl]
  have step3 : ∀ x ∈ Finset.range n,
      ∑ y ∈ Finset.range n,
          ∑ r ∈ Finset.range n,
            s.getD x 0 * (starRingEnd ℂ) (s.getD y 0) * eInt n (((y : ℤ) - x) * r)
        = (n : ℂ) * (s.getD x 0 * (starRingEnd ℂ) (s.getD x 0)) := by
    intro x hx
    rw [Finset.sum_congr rfl fun y hy => step2 x hx y hy]
    have hmove : ∀ y ∈ Finset.range n,
        s.getD x 0 * (starRingEnd ℂ) (s.getD y 0) * (if x = y then (n : ℂ) else 0)
          = if x = y then s.getD x 0 * (starRingEnd ℂ) (s.getD y 0) * n else 0 := by
      intro y _
      split_ifs <;> simp
    rw [Finset.sum_congr rfl hmove, Finset.sum_ite_eq]
    rw [if_pos hx]
    ring
  calc ∑ r ∈ Finset.range n, dftCoeff s r * (starRingEnd ℂ) (dftCoeff s r)
      = ∑ r ∈ Finset.range n, ∑ x ∈ Finset.range n, ∑ y ∈ Finset.range n,
          s.getD x 0 * (starRingEnd ℂ) (s.getD y 0) * eInt n (((y : ℤ) - x) * r) :=
        Finset.sum_congr rfl fun r _ => step1 r
    _ = ∑ x ∈ Finset.range n, ∑ r ∈ Finset.range n, ∑ y ∈ Finset.range n,
          s.getD x 0 * (starRingEnd ℂ) (s.getD y 0) * eInt n (((y : ℤ) - x) * r) :=
        Finset.sum_comm
    _ = ∑ x ∈ Finset.range n, ∑ y ∈ Finset.range n, ∑ r ∈ Finset.range n,
          s.getD x 0 * (starRingEnd ℂ) (s.getD y 0) * eInt n (((y : ℤ) - x) * r) :=
        Finset.sum_congr rfl fun x _ => Finset.sum_comm
    _ = ∑ x ∈ Finset.range n, (n : ℂ) * (s.getD x 0 * (starRingEnd ℂ) (s.getD x 0)) :=
        Finset.sum_congr rfl step3
    _ = (n : ℂ) * ∑ x ∈ Finset.range n, s.getD x 0 * (starRingEnd ℂ) (s.getD x 0) :=
        (Finset.mul_sum _ _ _).symm

/-- Parseval's identity, real form. -/
theorem parseval (s : List ℂ) :
    ∑ r ∈ Finset.range s.length, Complex.normSq (dftCoeff s r) =
      (s.length : ℝ) * ∑ x ∈ Finset.range s.length, Complex.normSq (s.getD x 0) := by
  rcases Nat.eq_zero_or_pos s.length with h0 | hn
  · simp [h0]
  · have hc := parseval_complex s hn
    simp only [Complex.mul_conj] at hc
    exact_mod_cast hc

/-- A sum of squares of nonnegative reals is at most the square of the sum. -/
theorem sum_sq_le_sq_sum {ι : Type*} (t : Finset ι) (f : ι → ℝ)
    (hf : ∀ i ∈ t, 0 ≤ f i) :
    ∑ i ∈ t, f i ^ 2 ≤ (∑ i ∈ t, f i) ^ 2 := by
  have h1 : ∀ i ∈ t, f i ^ 2 ≤ f i * ∑ j ∈ t, f j := by
    intro i hi
    have hle : f i ≤ ∑ j ∈ t, f j := Finset.single_le_sum hf hi
    calc f i ^ 2 = f i * f i := sq (f i)
      _ ≤ f i * ∑ j ∈ t, f j := mul_le_mul_of_nonneg_left hle (hf i hi)
  calc ∑ i ∈ t, f i ^ 2 ≤ ∑ i ∈ t, f i * ∑ j ∈ t, f j := Finset.sum_le_sum h1
    _ = (∑ i ∈ t, f i) ^ 2 := by rw [← Finset.sum_mul]; ring

theorem u2fft_nil : calculate_u2_norm_fft ([] : List ℂ) = (0, []) := by
  simp [calculate_u2_norm_fft]

theorem u2fft_pos (s : List ℂ) (hs : s.length ≠ 0) :
    calculate_u2_norm_fft s =
      (((∑ r ∈ Finset.range s.length, Complex.normSq (dftCoeff s r) ^ 2) /
          (s.length : ℝ) ^ 4) ^ ((1 : ℝ) / 4), dft s) := by
  unfold calculate_u2_norm_fft
  rw [if_neg hs]
  have hmap : (dft s).map (fun c => Complex.normSq c ^ 2)
      = (List.range s.length).map fun r => Complex.normSq (dftCoeff s r) ^ 2 := by
    unfold dft
    rw [List.map_map]
    rfl
  dsimp only
  rw [hmap, sum_range_map]

theorem normSq_getD_one {s : List ℂ} (h : ∀ c ∈ s, Complex.abs c = 1)
    {x : ℕ} (hx : x < s.length) : Complex.normSq (s.getD x 0) = 1 := by
  have hmem : s.getD x 0 ∈ s := by
    rw [List.getD_eq_getElem _ _ hx]
    exact List.getElem_mem hx
  rw [Complex.normSq_eq_abs, h _ hmem]
  norm_num

theorem sum_normSq_unit {s : List ℂ} (h : ∀ c ∈ s, Complex.abs c = 1) :
    ∑ x ∈ Finset.range s.length, Complex.normSq (s.getD x 0) = (s.length : ℝ) := by
  rw [Finset.sum_congr rfl fun x hx => normSq_getD_one h (Finset.mem_range.mp hx)]
  simp

/-- The value of the spectral norm on a unit-circle sequence lies in `[0, 1]`. -/
theorem u2fft_mem_Icc (s : List ℂ) (h : ∀ c ∈ s, Complex.abs c = 1) :
    (calculate_u2_norm_fft s).1 ∈ Set.Icc (0 : ℝ) 1 := by
  rcases Nat.eq_zero_or_pos s.length with h0 | hn
  · obtain rfl : s = [] := List.length_eq_zero.mp h0
    rw [u2fft_nil]
    norm_num
  · rw [u2fft_pos s hn.ne']
    have hS0 : 0 ≤ ∑ r ∈ Finset.range s.length, Complex.normSq (dftCoeff s r) ^ 2 :=
      Finset.sum_nonneg fun r _ => sq_nonneg _
    have hnpos : (0 : ℝ) < (s.length : ℝ) := by exact_mod_cast hn
    have h4pos : (0 : ℝ) < (s.length : ℝ) ^ 4 := by positivity
    have hSle : ∑ r ∈ Finset.range s.length, Complex.normSq (dftCoeff s r) ^ 2
        ≤ (s.length : ℝ) ^ 4 := by
      calc ∑ r ∈ Finset.range s.length, Complex.normSq (dftCoeff s r) ^ 2
          ≤ (∑ r ∈ Finset.range s.length, Complex.normSq (dftCoeff s r)) ^ 2 :=
            sum_sq_le_sq_sum _ _ fun r _ => Complex.normSq_nonneg _
        _ = ((s.length : ℝ) * ∑ x ∈ Finset.range s.length,
              Complex.normSq (s.getD x 0)) ^ 2 := by rw [parseval]
        _ = ((s.length : ℝ) * (s.length : ℝ)) ^ 2 := by rw [sum_normSq_unit h]
        _ = (s.length : ℝ) ^ 4 := by ring
    constructor
    · exact Real.rpow_nonneg (div_nonneg hS0 h4pos.le) _
    · exact Real.rpow_le_one (div_nonneg hS0 h4pos.le)
        ((div_le_one h4pos).mpr hSle) (by norm_num)

theorem dftCoeff_singleton (a : ℂ) : dftCoeff [a] 0 = a := by
  unfold dftCoeff
  simp [eInt_zero]

theorem dft_singleton (a : ℂ) : dft [a] = [a] := by
  unfold dft
  rw [show ([a] : List ℂ).length = 1 from rfl,
    show List.range 1 = [0] from rfl]
  simp [dftCoeff_singleton]

/-- On a one-element buffer the FFT is the identity, so the returned spectral
norm is the magnitude of the sample. -/
theorem u2fft_singleton (a : ℂ) :
    (calculate_u2_norm_fft [a]).1 = Complex.abs a := by
  rw [u2fft_pos [a] (by norm_num)]
  have h1 : (∑ r ∈ Finset.range ([a] : List ℂ).length,
      Complex.normSq (dftCoeff [a] r) ^ 2) = Complex.abs a ^ (4 : ℕ) := by
    have : ([a] : List ℂ).length = 1 := rfl
    rw [this, Finset.sum_range_one, dftCoeff_singleton, Complex.normSq_eq_abs]
    ring
  rw [h1]
  have : ((Complex.abs a ^ (4 : ℕ) : ℝ) / ((([a] : List ℂ).length : ℝ)) ^ 4)
      = Complex.abs a ^ (4 : ℕ) := by norm_num
  rw [this]
  exact pow4_rpow_quarter (Complex.abs.nonneg a)

theorem dftCoeff_replicate (k : ℕ) (hk : 0 < k) (c : ℂ) (r : ℕ) :
    dftCoeff (List.replicate k c) r
      = if (k : ℤ) ∣ (r : ℤ) then (k : ℂ) * c else 0 := by
  unfold dftCoeff
  rw [List.length_replicate]
  have hget : ∀ x ∈ Finset.range k, (List.replicate k c).getD x 0 = c := by
    intro x hx
    rw [List.getD_eq_getElem _ _ (by simpa using Finset.mem_range.mp hx)]
    simp
  have h1 : ∑ x ∈ Finset.range k, (List.replicate k c).getD x 0 *
        eInt k (-((r : ℤ) * x))
      = c * ∑ x ∈ Finset.range k, eInt k ((-(r : ℤ)) * x) := by
    rw [Finset.mul_sum]
    refine Finset.sum_congr rfl fun x hx => ?_
    rw [hget x hx]
    congr 2
    ring
  rw [h1, eInt_orth k hk]
  have hiff : ((k : ℤ) ∣ -(r : ℤ)) ↔ ((k : ℤ) ∣ (r : ℤ)) := dvd_neg
  rw [if_congr hiff rfl rfl]
  split_ifs <;> ring

/-- The spectral norm of the constant-1 sequence of length 3 is exactly 1. -/
theorem u2fft_replicate3_one :
    (calculate_u2_norm_fft (List.replicate 3 (1 : ℂ))).1 = 1 := by
  rw [u2fft_pos _ (by norm_num)]
  have hlen : (List.replicate 3 (1 : ℂ)).length = 3 := by simp
  rw [hlen]
  have h0 : dftCoeff (List.replicate 3 (1 : ℂ)) 0 = 3 := by
    rw [dftCoeff_replicate 3 (by norm_num) 1 0]
    norm_num
  have h1 : dftCoeff (List.replicate 3 (1 : ℂ)) 1 = 0 := by
    rw [dftCoeff_replicate 3 (by norm_num) 1 1]
    norm_num
  have h2 : dftCoeff (List.replicate 3 (1 : ℂ)) 2 = 0 := by
    rw [dftCoeff_replicate 3 (by norm_num) 1 2]
    rw [if_neg (by decide)]
  rw [show (3 : ℕ) = 2 + 1 by rfl, Finset.sum_range_succ, Finset.sum_range_succ,
    Finset.sum_range_one]
  rw [h0, h1, h2]
  have : Complex.normSq 3 = 9 := by
    simp [Complex.normSq_apply]
    norm_num
  rw [this]
  norm_num [Real.one_rpow]

/-- The straight-line test path of the spec scenario. -/
def straightPath : List (ℤ × ℤ) := [(0, 0), (1, 0), (2, 0), (3, 0)]

theorem complex_mk_one : (⟨(1 : ℝ), (0 : ℝ)⟩ : ℂ) = 1 := by
  apply Complex.ext <;> simp

theorem straight_sample :
    (⟨Real.cos (Complex.arg ⟨(1 : ℝ), (0 : ℝ)⟩),
      Real.sin (Complex.arg ⟨(1 : ℝ), (0 : ℝ)⟩)⟩ : ℂ) = 1 := by
  rw [complex_mk_one, Complex.arg_one, Real.cos_zero, Real.sin_zero]
  exact complex_mk_one

theorem pathseq_straight :
    path_to_complex_sequence_fft straightPath = List.replicate 3 1 := by
  unfold path_to_complex_sequence_fft
  rw [if_neg (by norm_num [straightPath])]
  rw [show straightPath.length - 1 = 3 from rfl]
  rw [show List.range 3 = [0, 1, 2] from rfl]
  rw [show (List.replicate 3 (1 : ℂ)) = [1, 1, 1] from rfl]
  simp only [List.map_cons, List.map_nil, List.cons.injEq, and_true]
  norm_num [straightPath, List.getD_cons_zero, List.getD_cons_succ]
  exact straight_sample

theorem arg_mk_one_zero : Complex.arg ⟨(1 : ℝ), (0 : ℝ)⟩ = 0 := by
  rw [complex_mk_one, Complex.arg_one]

theorem u2fft_snd (s : List ℂ) (hs : s ≠ []) :
    (calculate_u2_norm_fft s).2 = dft s := by
  rw [u2fft_pos s fun h => hs (List.length_eq_zero.mp h)]

theorem dft_getD (s : List ℂ) {r : ℕ} (hr : r < s.length) :
    (dft s).getD r 0 = dftCoeff s r := by
  unfold dft
  rw [List.getD_eq_getElem _ _ (by simpa using hr)]
  simp

/-- For sequences of two or more unit samples the forward DFT never fixes the
buffer: Parseval forces the energy to grow by a factor of the length. -/
theorem dft_ne_self (s : List ℂ) (h2 : 2 ≤ s.length)
    (h : ∀ c ∈ s, Complex.abs c = 1) : dft s ≠ s := by
  intro heq
  have hsum : ∑ r ∈ Finset.range s.length, Complex.normSq (dftCoeff s r)
      = ∑ r ∈ Finset.range s.length, Complex.normSq (s.getD r 0) := by
    refine Finset.sum_congr rfl fun r hr => ?_
    rw [← dft_getD s (Finset.mem_range.mp hr), heq]
  have hP := parseval s
  rw [hsum, sum_normSq_unit h] at hP
  have hcast : (2 : ℝ) ≤ (s.length : ℝ) := by exact_mod_cast h2
  nlinarith

/-- The index triples of the spec's direct combinatorial U2 form for a
sequence of length `n`: all `(x, h1, h2)` with integer shifts `h1, h2` such
that the four indices `x`, `x+h1`, `x+h2`, `x+h1+h2` are all in `[0, n)`.
Any valid shift satisfies `-n ≤ h ≤ n`, so the finite enumeration below is
exhaustive. -/
def u2Triples (n : ℕ) : Finset (ℕ × ℤ × ℤ) :=
  (Finset.range n ×ˢ
      Finset.Icc (-(n : ℤ)) (n : ℤ) ×ˢ Finset.Icc (-(n : ℤ)) (n : ℤ)).filter
    fun q =>
      0 ≤ (q.1 : ℤ) + q.2.1 ∧ (q.1 : ℤ) + q.2.1 < (n : ℤ) ∧
      0 ≤ (q.1 : ℤ) + q.2.2 ∧ (q.1 : ℤ) + q.2.2 < (n : ℤ) ∧
      0 ≤ (q.1 : ℤ) + q.2.1 + q.2.2 ∧ (q.1 : ℤ) + q.2.1 + q.2.2 < (n : ℤ)

/-- Modelled from the spec: the repository implements only the spectral form
(`calculate_u2_norm_fft`); no direct combinatorial U2-norm implementation
exists in the code.  Following §4.4 of the spec word for word: the average of
the 4-fold complex product `s[x]·s[x+h1]·s[x+h2]·s[x+h1+h2]` over all valid
index triples `(x, h1, h2)` with all four indices in bounds; the norm is the
4th root of the magnitude of that average. -/
noncomputable def u2_norm_direct (s : List ℂ) : ℝ :=
  Complex.abs
    ((∑ q ∈ u2Triples s.length,
        s.getD q.1 0 * s.getD ((q.1 : ℤ) + q.2.1).toNat 0 *
          s.getD ((q.1 : ℤ) + q.2.2).toNat 0 *
          s.getD ((q.1 : ℤ) + q.2.1 + q.2.2).toNat 0) /
      ((u2Triples s.length).card : ℂ)) ^ ((1 : ℝ) / 4)

theorem u2Triples_two :
    u2Triples 2 =
      {(0, 0, 0), (0, 0, 1), (0, 1, 0), (1, 0, 0), (1, -1, 0), (1, 0, -1)} := by
  decide

/-- Direct-form value on the concrete sequence `[1, i]`. -/
theorem u2_direct_one_I :
    u2_norm_direct [1, Complex.I] = ((1 : ℝ) / 3) ^ ((1 : ℝ) / 4) := by
  unfold u2_norm_direct
  rw [show ([1, Complex.I] : List ℂ).length = 2 from rfl, u2Triples_two]
  rw [show ({(0, 0, 0), (0, 0, 1), (0, 1, 0), (1, 0, 0), (1, -1, 0), (1, 0, -1)} :
      Finset (ℕ × ℤ × ℤ)).card = 6 from by decide]
  rw [Finset.sum_insert (by decide), Finset.sum_insert (by decide),
    Finset.sum_insert (by decide), Finset.sum_insert (by decide),
    Finset.sum_insert (by decide), Finset.sum_singleton]
  norm_num [List.getD_cons_zero, List.getD_cons_succ, Complex.I_mul_I]

theorem eInt_two_one : eInt 2 1 = -1 := by
  unfold eInt
  rw [show (2 * (Real.pi : ℂ) * Complex.I * ((1 : ℤ) : ℂ) / ((2 : ℕ) : ℂ) : ℂ)
      = (Real.pi : ℂ) * Complex.I by push_cast; ring]
  exact Complex.exp_pi_mul_I

theorem eInt_two_neg_one : eInt 2 (-1) = -1 := by
  rw [show (-1 : ℤ) = -(1 : ℤ) from rfl, eInt_neg, eInt_two_one]
  norm_num

theorem dftCoeff_one_I_zero : dftCoeff [1, Complex.I] 0 = 1 + Complex.I := by
  unfold dftCoeff
  rw [show ([1, Complex.I] : List ℂ).length = 2 from rfl]
  rw [Finset.sum_range_succ, Finset.sum_range_one]
  norm_num [List.getD_cons_zero, List.getD_cons_succ, eInt_zero]

theorem dftCoeff_one_I_one : dftCoeff [1, Complex.I] 1 = 1 - Complex.I := by
  unfold dftCoeff
  rw [show ([1, Complex.I] : List ℂ).length = 2 from rfl]
  rw [Finset.sum_range_succ, Finset.sum_range_one]
  norm_num [List.getD_cons_zero, List.getD_cons_succ, eInt_zero]
  rw [show (-(1 : ℤ) : ℤ) = (-1 : ℤ) from rfl, eInt_two_neg_one]
  ring

/-- Spectral-form value on the concrete sequence `[1, i]`. -/
theorem u2fft_one_I :
    (calculate_u2_norm_fft [1, Complex.I]).1 = ((1 : ℝ) / 2) ^ ((1 : ℝ) / 4) := by
  rw [u2fft_pos _ (by norm_num)]
  rw [show ([1, Complex.I] : List ℂ).length = 2 from rfl]
  rw [Finset.sum_range_succ, Finset.sum_range_one]
  rw [dftCoeff_one_I_zero, dftCoeff_one_I_one]
  have h1 : Complex.normSq (1 + Complex.I) = 2 := by
    simp [Complex.normSq_apply]
    norm_num
  have h2 : Complex.normSq (1 - Complex.I) = 2 := by
    simp [Complex.normSq_apply]
    norm_num
  rw [h1, h2]
  norm_num

/-- The two norms are far apart on `[1, i]`: the gap exceeds `1e-9` times the
spectral value. -/
theorem direct_fft_gap :
    (1e-9 : ℝ) * (((1 : ℝ) / 2) ^ ((1 : ℝ) / 4))
      < ((1 : ℝ) / 2) ^ ((1 : ℝ) / 4) - ((1 : ℝ) / 3) ^ ((1 : ℝ) / 4) := by
  have ha4 : (((1 : ℝ) / 3) ^ ((1 : ℝ) / 4)) ^ (4 : ℕ) = 1 / 3 :=
    rpow_quarter_pow4 (by norm_num)
  have hb4 : (((1 : ℝ) / 2) ^ ((1 : ℝ) / 4)) ^ (4 : ℕ) = 1 / 2 :=
    rpow_quarter_pow4 (by norm_num)
  have ha0 : 0 ≤ ((1 : ℝ) / 3) ^ ((1 : ℝ) / 4) := Real.rpow_nonneg (by norm_num) _
  have hb0 : 0 ≤ ((1 : ℝ) / 2) ^ ((1 : ℝ) / 4) := Real.rpow_nonneg (by norm_num) _
  have key : ((1 : ℝ) / 3) ^ ((1 : ℝ) / 4)
      < (1 - 1e-9) * (((1 : ℝ) / 2) ^ ((1 : ℝ) / 4)) := by
    apply lt_of_pow_lt_pow_left₀ 4 (mul_nonneg (by norm_num) hb0)
    rw [mul_pow, ha4, hb4]
    norm_num
  nlinarith [key, hb0]

/-- The 4-fold pattern of the U2 norm: `s[a] · conj s[c] · conj s[d] · s[b]`. -/
noncomputable def quadTerm (s : List ℂ) (a c d b : ℕ) : ℂ :=
  s.getD a 0 * (starRingEnd ℂ) (s.getD c 0) * (starRingEnd ℂ) (s.getD d 0) *
    s.getD b 0

/-- The cyclic, conjugated combinatorial U2 average: the standard Gowers-U2
form to which the spectral computation is actually equivalent.  Indices are
taken modulo the length and the two middle factors are conjugated. -/
noncomputable def u2_norm_cyclic (s : List ℂ) : ℝ :=
  if s.length = 0 then 0
  else
    Complex.abs
      ((∑ x ∈ Finset.range s.length, ∑ h1 ∈ Finset.range s.length,
          ∑ h2 ∈ Finset.range s.length,
            quadTerm s x ((x + h1) % s.length) ((x + h2) % s.length)
              ((x + h1 + h2) % s.length)) /
        (s.length : ℂ) ^ 3) ^ ((1 : ℝ) / 4)

/-- Product of four sums as a quadruple sum. -/
theorem prod4_sum (t1 t2 t3 t4 : Finset ℕ) (f1 f2 f3 f4 : ℕ → ℂ) :
    (∑ a ∈ t1, f1 a) * (∑ c ∈ t2, f2 c) * (∑ d ∈ t3, f3 d) * (∑ b ∈ t4, f4 b)
      = ∑ a ∈ t1, ∑ c ∈ t2, ∑ d ∈ t3, ∑ b ∈ t4, f1 a * f2 c * f3 d * f4 b := by
  rw [Finset.sum_mul_sum, Finset.sum_mul, Finset.sum_mul]
  refine Finset.sum_congr rfl fun a _ => ?_
  rw [Finset.sum_mul, Finset.sum_mul]
  refine Finset.sum_congr rfl fun c _ => ?_
  rw [mul_assoc, Finset.sum_mul_sum, Finset.mul_sum]
  refine Finset.sum_congr rfl fun d _ => ?_
  rw [Finset.mul_sum]
  refine Finset.sum_congr rfl fun b _ => ?_
  ring

theorem sum_range_zmod {M : Type*} [AddCommMonoid M] (n : ℕ) [NeZero n]
    (f : ℕ → M) : ∑ c ∈ Finset.range n, f c = ∑ z : ZMod n, f z.val := by
  refine Finset.sum_nbij' (fun c => (c : ZMod n)) (fun z => z.val)
    (fun a _ => Finset.mem_univ _)
    (fun z _ => Finset.mem_range.mpr (ZMod.val_lt z))
    (fun a ha => ZMod.val_cast_of_lt (Finset.mem_range.mp ha))
    (fun z _ => ZMod.natCast_rightInverse z)
    (fun a ha => ?_)
  rw [ZMod.val_cast_of_lt (Finset.mem_range.mp ha)]

theorem zmod_cast_val {n : ℕ} [NeZero n] (z : ZMod n) :
    ((z.val : ℕ) : ZMod n) = z :=
  ZMod.natCast_rightInverse z

theorem mod_eq_zmod_val {n : ℕ} [NeZero n] (x h : ℕ) :
    (x + h) % n = ((x : ZMod n) + (h : ZMod n)).val := by
  rw [← Nat.cast_add, ZMod.val_natCast]

theorem mod3_eq_zmod_val {n : ℕ} [NeZero n] (x h1 h2 : ℕ) :
    (x + h1 + h2) % n = ((x : ZMod n) + (h1 : ZMod n) + (h2 : ZMod n)).val := by
  rw [← Nat.cast_add, ← Nat.cast_add, ZMod.val_natCast]

/-- Reindexing `c = (a+h1) mod n`, `d = (a+h2) mod n` of the collapsed
quadruple sum into the cyclic triple sum. -/
theorem reindex_inner (s : List ℂ) (n : ℕ) [NeZero n] (a : ℕ) :
    ∑ c ∈ Finset.range n, ∑ d ∈ Finset.range n,
        quadTerm s a c d (((c : ZMod n) + d - a).val)
      = ∑ h1 ∈ Finset.range n, ∑ h2 ∈ Finset.range n,
          quadTerm s a ((a + h1) % n) ((a + h2) % n) ((a + h1 + h2) % n) := by
  calc ∑ c ∈ Finset.range n, ∑ d ∈ Finset.range n,
        quadTerm s a c d (((c : ZMod n) + d - a).val)
      = ∑ zc : ZMod n, ∑ d ∈ Finset.range n,
          quadTerm s a zc.val d (((zc.val : ZMod n) + d - a).val) :=
        sum_range_zmod n _
    _ = ∑ zc : ZMod n, ∑ zd : ZMod n,
          quadTerm s a zc.val zd.val
            (((zc.val : ZMod n) + zd.val - a).val) :=
        Finset.sum_congr rfl fun zc _ => sum_range_zmod n _
    _ = ∑ zc : ZMod n, ∑ zd : ZMod n,
          quadTerm s a zc.val zd.val ((zc + zd - (a : ZMod n)).val) := by
        refine Finset.sum_congr rfl fun zc _ =>
          Finset.sum_congr rfl fun zd _ => ?_
        rw [zmod_cast_val, zmod_cast_val]
    _ = ∑ w1 : ZMod n, ∑ zd : ZMod n,
          quadTerm s a (((a : ZMod n) + w1).val) zd.val
            ((((a : ZMod n) + w1) + zd - (a : ZMod n)).val) :=
        (Fintype.sum_equiv (Equiv.addLeft ((a : ZMod n))) _ _ fun w1 => rfl).symm
    _ = ∑ w1 : ZMod n, ∑ w2 : ZMod n,
          quadTerm s a (((a : ZMod n) + w1).val) (((a : ZMod n) + w2).val)
            ((((a : ZMod n) + w1) + ((a : ZMod n) + w2) - (a : ZMod n)).val) :=
        Finset.sum_congr rfl fun w1 _ =>
          (Fintype.sum_equiv (Equiv.addLeft ((a : ZMod n))) _ _ fun w2 => rfl).symm
    _ = ∑ w1 : ZMod n, ∑ w2 : ZMod n,
          quadTerm s a (((a : ZMod n) + w1).val) (((a : ZMod n) + w2).val)
            (((a : ZMod n) + w1 + w2).val) := by
        refine Finset.sum_congr rfl fun w1 _ =>
          Finset.sum_congr rfl fun w2 _ => ?_
        rw [show ((a : ZMod n) + w1) + ((a : ZMod n) + w2) - (a : ZMod n)
            = (a : ZMod n) + w1 + w2 from by ring]
    _ = ∑ h1 ∈ Finset.range n, ∑ h2 ∈ Finset.range n,
          quadTerm s a ((a + h1) % n) ((a + h2) % n) ((a + h1 + h2) % n) := by
        rw [sum_range_zmod n fun h1 => ∑ h2 ∈ Finset.range n,
          quadTerm s a ((a + h1) % n) ((a + h2) % n) ((a + h1 + h2) % n)]
        refine Finset.sum_congr rfl fun w1 _ => ?_
        rw [sum_range_zmod n fun h2 =>
          quadTerm s a ((a + w1.val) % n) ((a + h2) % n) ((a + w1.val + h2) % n)]
        refine Finset.sum_congr rfl fun w2 _ => ?_
        rw [mod_eq_zmod_val a w1.val, mod_eq_zmod_val a w2.val,
          mod3_eq_zmod_val a w1.val w2.val, zmod_cast_val, zmod_cast_val]

/-- For `b` below `n`, divisibility of `c + d - a - b` by `n` picks out the
single residue `b = (c + d - a).val` in `ZMod n`. -/
theorem dvd_iff_residue {n : ℕ} [NeZero n] (a c d b : ℕ) (hb : b < n) :
    ((n : ℤ) ∣ ((c : ℤ) + d - a - b)) ↔
      b = ((c : ZMod n) + (d : ZMod n) - (a : ZMod n)).val := by
  rw [← ZMod.intCast_zmod_eq_zero_iff_dvd]
  have hcast : (((c : ℤ) + d - a - b : ℤ) : ZMod n)
      = (c : ZMod n) + d - a - b := by push_cast; ring
  rw [hcast, sub_eq_zero]
  constructor
  · intro h
    have := congrArg ZMod.val h.symm
    rwa [ZMod.val_cast_of_lt hb] at this
  · intro h
    rw [h, zmod_cast_val]

/-- The U2 identity: the sum over `r` of `(F_r · conj F_r)^2` equals `n` times
the cyclic conjugated combinatorial sum. -/
theorem u2_identity (s : List ℂ) (hn : 0 < s.length) :
    ∑ r ∈ Finset.range s.length,
        (dftCoeff s r * (starRingEnd ℂ) (dftCoeff s r)) ^ 2 =
      (s.length : ℂ) *
        ∑ x ∈ Finset.range s.length, ∑ h1 ∈ Finset.range s.length,
          ∑ h2 ∈ Finset.range s.length,
            quadTerm s x ((x + h1) % s.length) ((x + h2) % s.length)
              ((x + h1 + h2) % s.length) := by
  haveI : NeZero s.length := ⟨hn.ne'⟩
  set n := s.length with hnn
  have hexpand : ∀ r : ℕ,
      (dftCoeff s r * (starRingEnd ℂ) (dftCoeff s r)) ^ 2
        = ∑ a ∈ Finset.range n, ∑ c ∈ Finset.range n, ∑ d ∈ Finset.range n,
            ∑ b ∈ Finset.range n,
              quadTerm s a c d b * eInt n (((c : ℤ) + d - a - b) * r) := by
    intro r
    have h0 : (dftCoeff s r * (starRingEnd ℂ) (dftCoeff s r)) ^ 2
        = dftCoeff s r * (starRingEnd ℂ) (dftCoeff s r) *
            (starRingEnd ℂ) (dftCoeff s r) * dftCoeff s r := by ring
    rw [h0, conj_dftCoeff]
    unfold dftCoeff
    rw [prod4_sum]
    refine Finset.sum_congr rfl fun a _ => Finset.sum_congr rfl fun c _ =>
      Finset.sum_congr rfl fun d _ => Finset.sum_congr rfl fun b _ => ?_
    unfold quadTerm
    rw [show s.getD a 0 * eInt n (-((r : ℤ) * a)) *
          ((starRingEnd ℂ) (s.getD c 0) * eInt n ((r : ℤ) * c)) *
          ((starRingEnd ℂ) (s.getD d 0) * eInt n ((r : ℤ) * d)) *
          (s.getD b 0 * eInt n (-((r : ℤ) * b)))
        = s.getD a 0 * (starRingEnd ℂ) (s.getD c 0) *
            (starRingEnd ℂ) (s.getD d 0) * s.getD b 0 *
            (eInt n (-((r : ℤ) * a)) * eInt n ((r : ℤ) * c) *
              eInt n ((r : ℤ) * d) * eInt n (-((r : ℤ) * b))) from by ring]
    congr 1
    rw [← eInt_add, ← eInt_add, ← eInt_add]
    congr 1
    ring
  calc ∑ r ∈ Finset.range n,
        (dftCoeff s r * (starRingEnd ℂ) (dftCoeff s r)) ^ 2
      = ∑ r ∈ Finset.range n, ∑ a ∈ Finset.range n, ∑ c ∈ Finset.range n,
          ∑ d ∈ Finset.range n, ∑ b ∈ Finset.range n,
            quadTerm s a c d b * eInt n (((c : ℤ) + d - a - b) * r) :=
        Finset.sum_congr rfl fun r _ => hexpand r
    _ = ∑ a ∈ Finset.range n, ∑ r ∈ Finset.range n, ∑ c ∈ Finset.range n,
          ∑ d ∈ Finset.range n, ∑ b ∈ Finset.range n,
            quadTerm s a c d b * eInt n (((c : ℤ) + d - a - b) * r) :=
        Finset.sum_comm
    _ = ∑ a ∈ Finset.range n, ∑ c ∈ Finset.range n, ∑ r ∈ Finset.range n,
          ∑ d ∈ Finset.range n, ∑ b ∈ Finset.range n,
            quadTerm s a c d b * eInt n (((c : ℤ) + d - a - b) * r) :=
        Finset.sum_congr rfl fun a _ => Finset.sum_comm
    _ = ∑ a ∈ Finset.range n, ∑ c ∈ Finset.range n, ∑ d ∈ Finset.range n,
          ∑ r ∈ Finset.range n, ∑ b ∈ Finset.range n,
            quadTerm s a c d b * eInt n (((c : ℤ) + d - a - b) * r) :=
        Finset.sum_congr rfl fun a _ => Finset.sum_congr rfl fun c _ =>
          Finset.sum_comm
    _ = ∑ a ∈ Finset.range n, ∑ c ∈ Finset.range n, ∑ d ∈ Finset.range n,
          ∑ b ∈ Finset.range n, ∑ r ∈ Finset.range n,
            quadTerm s a c d b * eInt n (((c : ℤ) + d - a - b) * r) :=
        Finset.sum_congr rfl fun a _ => Finset.sum_congr rfl fun c _ =>
          Finset.sum_congr rfl fun d _ => Finset.sum_comm
    _ = ∑ a ∈ Finset.range n, ∑ c ∈ Finset.range n, ∑ d ∈ Finset.range n,
          ∑ b ∈ Finset.range n,
            quadTerm s a c d b *
              (if (n : ℤ) ∣ ((c : ℤ) + d - a - b) then (n : ℂ) else 0) := by
        refine Finset.sum_congr rfl fun a _ => Finset.sum_congr rfl fun c _ =>
          Finset.sum_congr rfl fun d _ => Finset.sum_congr rfl fun b _ => ?_
        rw [← Finset.mul_sum, eInt_orth n hn]
    _ = ∑ a ∈ Finset.range n, ∑ c ∈ Finset.range n, ∑ d ∈ Finset.range n,
          quadTerm s a c d (((c : ZMod n) + d - a).val) * n := by
        refine Finset.sum_congr rfl fun a _ => Finset.sum_congr rfl fun c _ =>
          Finset.sum_congr rfl fun d _ => ?_
        have hrw : ∀ b ∈ Finset.range n,
            quadTerm s a c d b *
                (if (n : ℤ) ∣ ((c : ℤ) + d - a - b) then (n : ℂ) else 0)
              = if b = ((c : ZMod n) + d - a).val
                  then quadTerm s a c d b * n else 0 := by
          intro b hb
          rw [if_congr (dvd_iff_residue a c d b (Finset.mem_range.mp hb)) rfl rfl]
          split_ifs <;> simp
        rw [Finset.sum_congr rfl hrw, Finset.sum_ite_eq']
        rw [if_pos (Finset.mem_range.mpr (ZMod.val_lt _))]
    _ = (∑ a ∈ Finset.range n, ∑ c ∈ Finset.range n, ∑ d ∈ Finset.range n,
          quadTerm s a c d (((c : ZMod n) + d - a).val)) * (n : ℂ) := by
        rw [Finset.sum_mul]
        refine Finset.sum_congr rfl fun a _ => ?_
        rw [Finset.sum_mul]
        refine Finset.sum_congr rfl fun c _ => ?_
        rw [Finset.sum_mul]
    _ = (∑ x ∈ Finset.range n, ∑ h1 ∈ Finset.range n, ∑ h2 ∈ Finset.range n,
          quadTerm s x ((x + h1) % n) ((x + h2) % n) ((x + h1 + h2) % n)) *
          (n : ℂ) := by
        congr 1
        exact Finset.sum_congr rfl fun a _ => reindex_inner s n a
    _ = (n : ℂ) * ∑ x ∈ Finset.range n, ∑ h1 ∈ Finset.range n,
          ∑ h2 ∈ Finset.range n,
            quadTerm s x ((x + h1) % n) ((x + h2) % n) ((x + h1 + h2) % n) :=
        mul_comm _ _

/-- The cyclic conjugated combinatorial U2 norm agrees exactly with the
spectral form computed by `calculate_u2_norm_fft`. -/
theorem u2_cyclic_eq_fft (s : List ℂ) :
    u2_norm_cyclic s = (calculate_u2_norm_fft s).1 := by
  rcases Nat.eq_zero_or_pos s.length with h0 | hn
  · obtain rfl : s = [] := List.length_eq_zero.mp h0
    rw [u2fft_nil]
    unfold u2_norm_cyclic
    simp
  · haveI : NeZero s.length := ⟨hn.ne'⟩
    unfold u2_norm_cyclic
    rw [if_neg hn.ne', u2fft_pos s hn.ne']
    have hid := u2_identity s hn
    have hofreal : ∑ r ∈ Finset.range s.length,
        (dftCoeff s r * (starRingEnd ℂ) (dftCoeff s r)) ^ 2
        = ((∑ r ∈ Finset.range s.length,
            Complex.normSq (dftCoeff s r) ^ 2 : ℝ) : ℂ) := by
      push_cast
      refine Finset.sum_congr rfl fun r _ => ?_
      rw [Complex.mul_conj]
    rw [hofreal] at hid
    have hnC : ((s.length : ℕ) : ℂ) ≠ 0 := Nat.cast_ne_zero.mpr hn.ne'
    have hT : ∑ x ∈ Finset.range s.length, ∑ h1 ∈ Finset.range s.length,
          ∑ h2 ∈ Finset.range s.length,
            quadTerm s x ((x + h1) % s.length) ((x + h2) % s.length)
              ((x + h1 + h2) % s.length)
        = ((∑ r ∈ Finset.range s.length,
            Complex.normSq (dftCoeff s r) ^ 2 : ℝ) : ℂ) / (s.length : ℂ) := by
      rw [eq_div_iff hnC, hid]
      ring
    rw [hT]
    have hS0 : (0 : ℝ) ≤ ∑ r ∈ Finset.range s.length,
        Complex.normSq (dftCoeff s r) ^ 2 :=
      Finset.sum_nonneg fun r _ => sq_nonneg _
    have hnR : (0 : ℝ) < (s.length : ℝ) := by exact_mod_cast hn
    have hbase : (((∑ r ∈ Finset.range s.length,
          Complex.normSq (dftCoeff s r) ^ 2 : ℝ) : ℂ) / (s.length : ℂ)) /
            ((s.length : ℕ) : ℂ) ^ 3
        = (((∑ r ∈ Finset.range s.length, Complex.normSq (dftCoeff s r) ^ 2) /
            (s.length : ℝ) ^ 4 : ℝ) : ℂ) := by
      push_cast
      rw [div_div]
      congr 1
      ring
    rw [hbase, Complex.abs_of_nonneg (div_nonneg hS0 (by positivity))]

end Gower

end MomaSim

/-! ## Claim theorems (spectral norm) -/

/-- **C5 counterexample**: on the length-2 unit sequence `[1, i]` the direct
combinatorial U2 norm of the spec (no conjugation, truncated indices) is
`(1/3)^(1/4)` while the spectral value is `(1/2)^(1/4)`; they differ by far
more than 1e-9 relative tolerance (measured against either value). -/
theorem C5_counterexample :
    ([1, Complex.I] : List ℂ).length ≤ 30 ∧
    ¬ (|Gower.u2_norm_direct [1, Complex.I]
          - (Gower.calculate_u2_norm_fft [1, Complex.I]).1|
        ≤ 1e-9 * |(Gower.calculate_u2_norm_fft [1, Complex.I]).1|) ∧
    ¬ (|Gower.u2_norm_direct [1, Complex.I]
          - (Gower.calculate_u2_norm_fft [1, Complex.I]).1|
        ≤ 1e-9 * |Gower.u2_norm_direct [1, Complex.I]|) := by
  rw [Gower.u2_direct_one_I, Gower.u2fft_one_I]
  have hb0 : (0 : ℝ) ≤ ((1 : ℝ) / 2) ^ ((1 : ℝ) / 4) :=
    Real.rpow_nonneg (by norm_num) _
  have ha0 : (0 : ℝ) ≤ ((1 : ℝ) / 3) ^ ((1 : ℝ) / 4) :=
    Real.rpow_nonneg (by norm_num) _
  have hab : ((1 : ℝ) / 3) ^ ((1 : ℝ) / 4) < ((1 : ℝ) / 2) ^ ((1 : ℝ) / 4) :=
    Real.rpow_lt_rpow (by norm_num) (by norm_num) (by norm_num)
  have hgap := Gower.direct_fft_gap
  have habs : |((1 : ℝ) / 3) ^ ((1 : ℝ) / 4) - ((1 : ℝ) / 2) ^ ((1 : ℝ) / 4)|
      = ((1 : ℝ) / 2) ^ ((1 : ℝ) / 4) - ((1 : ℝ) / 3) ^ ((1 : ℝ) / 4) := by
    rw [abs_sub_comm, abs_of_nonneg (by linarith)]
  have hmul : (1e-9 : ℝ) * (((1 : ℝ) / 3) ^ ((1 : ℝ) / 4))
      ≤ 1e-9 * (((1 : ℝ) / 2) ^ ((1 : ℝ) / 4)) :=
    mul_le_mul_of_nonneg_left hab.le (by norm_num)
  refine ⟨by norm_num, ?_, ?_⟩
  · rw [habs, abs_of_nonneg hb0]
    linarith
  · rw [habs, abs_of_nonneg ha0]
    linarith

/-- **C5 (amended)**: the spectral form agrees exactly (not merely within
1e-9) with the *cyclic, conjugated* direct combinatorial U2 norm - the average
of `s[x]·conj s[x+h1]·conj s[x+h2]·s[x+h1+h2]` with indices mod n - for
sequences of every length.  The spec's direct form (no conjugation, indices
truncated at the boundary) is not equivalent to the spectral form. -/
theorem C5_norm_equivalence_amended (s : List ℂ) :
    Gower.u2_norm_cyclic s = (Gower.calculate_u2_norm_fft s).1 :=
  Gower.u2_cyclic_eq_fft s

/-- **C6**: for every sequence of unit-magnitude complex samples, the value
returned by `calculate_u2_norm_fft` lies in the closed interval `[0, 1]`. -/
theorem C6_norm_bounds (s : List ℂ) (h : ∀ c ∈ s, Complex.abs c = 1) :
    (Gower.calculate_u2_norm_fft s).1 ∈ Set.Icc (0 : ℝ) 1 :=
  Gower.u2fft_mem_Icc s h

/-- Witness for C6 on the concrete unit sequence `[1, I]`. -/
theorem C6_norm_bounds_witness :
    (∀ c ∈ ([1, Complex.I] : List ℂ), Complex.abs c = 1) ∧
    (Gower.calculate_u2_norm_fft [1, Complex.I]).1 ∈ Set.Icc (0 : ℝ) 1 :=
  ⟨by intro c hc; fin_cases hc <;> simp,
   C6_norm_bounds [1, Complex.I] (by intro c hc; fin_cases hc <;> simp)⟩

/-- **C7 counterexample**: the code has no special case for one-element
sequences; on `[1]` the returned norm is `1`, not `0` as the claim states. -/
theorem C7_counterexample :
    (Gower.calculate_u2_norm_fft [(1 : ℂ)]).1 = 1 ∧
    (Gower.calculate_u2_norm_fft [(1 : ℂ)]).1 ≠ 0 := by
  have h : (Gower.calculate_u2_norm_fft [(1 : ℂ)]).1 = 1 := by
    rw [Gower.u2fft_singleton 1]
    simp
  exact ⟨h, by rw [h]; norm_num⟩

/-- **C7 (amended)**: `calculate_u2_norm_fft` returns `0` on the empty
sequence, and on a one-element sequence `[a]` it returns the magnitude of `a`
(so `1`, not `0`, for a unit-circle sample). -/
theorem C7_degenerate_amended :
    (Gower.calculate_u2_norm_fft ([] : List ℂ)).1 = 0 ∧
    ∀ a : ℂ, (Gower.calculate_u2_norm_fft [a]).1 = Complex.abs a :=
  ⟨by rw [Gower.u2fft_nil], Gower.u2fft_singleton⟩

/-- **C8 counterexample**: on the straight-line path the spectral norm is `1`,
not `0` as the claim states. -/
theorem C8_counterexample :
    (Gower.calculate_u2_norm_fft
        (Gower.path_to_complex_sequence_fft Gower.straightPath)).1 = 1 ∧
    (Gower.calculate_u2_norm_fft
        (Gower.path_to_complex_sequence_fft Gower.straightPath)).1 ≠ 0 := by
  have h : (Gower.calculate_u2_norm_fft
      (Gower.path_to_complex_sequence_fft Gower.straightPath)).1 = 1 := by
    rw [Gower.pathseq_straight]
    exact Gower.u2fft_replicate3_one
  exact ⟨h, by rw [h]; norm_num⟩

/-- **C8 (amended)**: on the straight-line path `[(0,0),(1,0),(2,0),(3,0)]`
all directional angles are `0`, the complex sequence is the constant-1
sequence, and the spectral norm is `1` (maximal structure), not `0`. -/
theorem C8_straight_line_amended :
    ((List.range 3).map fun p => Complex.arg
        ⟨(((Gower.straightPath.getD (p + 1) (0, 0)).1
            - (Gower.straightPath.getD p (0, 0)).1 : ℤ) : ℝ),
         (((Gower.straightPath.getD (p + 1) (0, 0)).2
            - (Gower.straightPath.getD p (0, 0)).2 : ℤ) : ℝ)⟩)
      = List.replicate 3 0 ∧
    Gower.path_to_complex_sequence_fft Gower.straightPath = List.replicate 3 1 ∧
    (Gower.calculate_u2_norm_fft
        (Gower.path_to_complex_sequence_fft Gower.straightPath)).1 = 1 := by
  refine ⟨?_, Gower.pathseq_straight, ?_⟩
  · rw [show List.range 3 = [0, 1, 2] from rfl]
    simp only [List.map_cons, List.map_nil]
    norm_num [Gower.straightPath, List.getD_cons_zero, List.getD_cons_succ,
      Gower.arg_mk_one_zero]
    rfl
  · rw [Gower.pathseq_straight]
    exact Gower.u2fft_replicate3_one

/-- **C10 counterexample**: on the one-element (unit-circle) input `[1]` the
buffer after the call is the forward DFT, which equals the original input, so
the input sequence is preserved, contradicting the claim for that input. -/
theorem C10_counterexample :
    ([(1 : ℂ)] ≠ ([] : List ℂ)) ∧
    (Gower.calculate_u2_norm_fft [(1 : ℂ)]).2 = [(1 : ℂ)] := by
  refine ⟨by simp, ?_⟩
  rw [Gower.u2fft_snd _ (by simp), Gower.dft_singleton]

/-- **C10 (amended)**: for every non-empty input the caller's vector afterwards
holds the forward DFT of the original samples; for every input of length at
least 2 whose samples are unit-magnitude, that DFT differs from the original
samples, so the input is not preserved. -/
theorem C10_frame_amended :
    (∀ s : List ℂ, s ≠ [] → (Gower.calculate_u2_norm_fft s).2 = Gower.dft s) ∧
    (∀ s : List ℂ, 2 ≤ s.length → (∀ c ∈ s, Complex.abs c = 1) →
      (Gower.calculate_u2_norm_fft s).2 ≠ s) := by
  refine ⟨Gower.u2fft_snd, ?_⟩
  intro s h2 h
  rw [Gower.u2fft_snd s (by intro h0; rw [h0] at h2; simp at h2)]
  exact Gower.dft_ne_self s h2 h

namespace MomaSim

/-! ## The flow network

Embedding of `src/network_graph.rs`.  `HashMap<Point, Vec<Edge>>` is modelled
as an association list in insertion order (`lookupA` finds the first entry for
a key, `insertA` overwrites it, `updateA` updates it in place); `f64` costs
are idealized as `ℚ` so that concrete runs evaluate by `decide`.  The
`BinaryHeap<(OrderedFloat<f64>, Point)>` pops a maximal pair — minimum
distance (the stored component is the negated distance), ties broken by the
derived lexicographic `Ord` on `Point`.  The unbounded `while` loops carry an
explicit fuel parameter; every invariant theorem below holds for every fuel. -/

/-- 2-D coordinate, `grid::Point` (`usize` fields). -/
structure Point where
  x : ℕ
  y : ℕ
deriving DecidableEq, Repr

/-- The derived lexicographic `Ord` on `Point` (field order: `x`, then `y`). -/
def pointLtb (p q : Point) : Bool := p.x < q.x || (p.x = q.x && p.y < q.y)

namespace Net

/-- `network_graph::Edge`. -/
structure Edge where
  to' : Point
  capacity : ℕ
  cost : ℚ
  flow : ℕ
deriving DecidableEq, Repr

/-- `network_graph::Graph`. -/
structure Graph where
  adj : List (Point × List Edge)
  source : Point
  sink : Point
deriving DecidableEq, Repr

/-- First value stored under a key (HashMap lookup). -/
def lookupA {α : Type*} : List (Point × α) → Point → Option α
  | [], _ => none
  | (q, v) :: rest, p => if q = p then some v else lookupA rest p

/-- Overwrite-or-append (HashMap insert). -/
def insertA {α : Type*} : List (Point × α) → Point → α → List (Point × α)
  | [], p, v => [(p, v)]
  | (q, w) :: rest, p, v =>
      if q = p then (p, v) :: rest else (q, w) :: insertA rest p v

/-- In-place update of the entry for a key (no-op when absent). -/
def updateA {α : Type*} : List (Point × α) → Point → (α → α) → List (Point × α)
  | [], _, _ => []
  | (q, w) :: rest, p, f =>
      if q = p then (q, f w) :: rest else (q, w) :: updateA rest p f

/-- `Graph::new`. -/
def Graph.new (source sink : Point) : Graph := ⟨[], source, sink⟩

/-- `Graph::add_node`: ensure the node has an adjacency entry. -/
def Graph.add_node (g : Graph) (node : Point) : Graph :=
  if (lookupA g.adj node).isSome then g
  else { g with adj := g.adj ++ [(node, [])] }

/-- `Graph::add_edge`: insert both endpoints then append a fresh edge with
`flow = 0`. -/
def Graph.add_edge (g : Graph) (fr to' : Point) (capacity : ℕ) (cost : ℚ) :
    Graph :=
  let g1 := (g.add_node fr).add_node to'
  { g1 with
    adj := updateA g1.adj fr fun es => es ++ [Edge.mk to' capacity cost 0] }

/-- `Graph::get_edges` (empty list for an unknown node). -/
def Graph.get_edges (g : Graph) (node : Point) : List Edge :=
  (lookupA g.adj node).getD []

/-- State of a Dijkstra run. -/
structure DState where
  distances : List (Point × ℚ)
  parentMap : List (Point × Point)
  pq : List (ℚ × Point)

/-- Heap order on the pushed pairs `(negated distance, node)`. -/
def pairLtb (a b : ℚ × Point) : Bool :=
  a.1 < b.1 || (a.1 = b.1 && pointLtb a.2 b.2)

/-- A maximal element of the heap contents (first among equals). -/
def maxEntry : List (ℚ × Point) → Option (ℚ × Point)
  | [] => none
  | e :: rest =>
      match maxEntry rest with
      | none => some e
      | some m => if pairLtb e m then some m else some e

/-- Pop a maximal element, as `BinaryHeap::pop` does. -/
def popMax (l : List (ℚ × Point)) : Option ((ℚ × Point) × List (ℚ × Point)) :=
  (maxEntry l).map fun m => (m, l.erase m)

/-- One relaxation step of `find_cheapest_path_dijkstra`'s inner `for` loop. -/
def relaxOne (u : Point) (cost : ℚ) (st : DState) (e : Edge) : DState :=
  if e.capacity > e.flow then
    let newDist := cost + e.cost
    if (match lookupA st.distances e.to' with
        | some d => decide (newDist < d)
        | none => true) then
      { distances := insertA st.distances e.to' newDist,
        parentMap := insertA st.parentMap e.to' u,
        pq := st.pq ++ [(-newDist, e.to')] }
    else st
  else st

/-- The `while let Some(..) = pq.pop()` loop of
`find_cheapest_path_dijkstra`, fuelled. -/
def dijkstraLoop (g : Graph) : ℕ → DState → List (Point × Point) × Bool
  | 0, st => (st.parentMap, (lookupA st.distances g.sink).isSome)
  | fuel + 1, st =>
      match popMax st.pq with
      | none => (st.parentMap, (lookupA st.distances g.sink).isSome)
      | some ((negCost, u), rest) =>
          let cost := -negCost
          if (match lookupA st.distances u with
              | some d => decide (d < cost)
              | none => false) then
            dijkstraLoop g fuel { st with pq := rest }
          else if u = g.sink then (st.parentMap, true)
          else
            dijkstraLoop g fuel
              ((g.get_edges u).foldl (relaxOne u cost) { st with pq := rest })

/-- `Graph::find_cheapest_path_dijkstra`. -/
def Graph.find_cheapest_path_dijkstra (g : Graph) (fuel : ℕ) :
    List (Point × Point) × Bool :=
  dijkstraLoop g fuel
    { distances := [(g.source, 0)], parentMap := [], pq := [(0, g.source)] }

/-- The `while current != source` parent walk, fuelled; returns the node list
from the start of the walk down to `source`. -/
def walkToSource (parent : List (Point × Point)) (src : Point) :
    ℕ → Point → Option (List Point)
  | 0, cur => if cur = src then some [cur] else none
  | fuel + 1, cur =>
      if cur = src then some [cur]
      else
        match lookupA parent cur with
        | none => none
        | some p => (walkToSource parent src fuel p).map fun w => cur :: w

/-- Consecutive pairs `(vs[i], vs[i+1])` of a node list. -/
def consecutivePairs : List Point → List (Point × Point)
  | [] => []
  | [_] => []
  | a :: b :: rest => (a, b) :: consecutivePairs (b :: rest)

/-- The augmented hops of `edmonds_karp`'s two walk loops: the walk list is
`[sink, …, source]` and each step uses the edge `parent → current`. -/
def backHops (w : List Point) : List (Point × Point) :=
  (consecutivePairs w).map fun h => (h.2, h.1)

/-- First edge `u → v`, as both walk loops find it. -/
def findEdge (g : Graph) (u v : Point) : Option Edge :=
  (g.get_edges u).find? fun e => e.to' = v

/-- Bottleneck over a hop list, starting from `u64::MAX`. -/
def bottleneckH (g : Graph) (hs : List (Point × Point)) : ℕ :=
  hs.foldl
    (fun acc h =>
      match findEdge g h.1 h.2 with
      | some e => min acc (e.capacity - e.flow)
      | none => acc)
    (2 ^ 64 - 1)

/-- Add `pf` to the flow of the first edge `u → v` (silently skipped when the
edge is missing, as the `if let Some(edge) = … find(…)` does). -/
def updateFirst : List Edge → Point → ℕ → List Edge
  | [], _, _ => []
  | e :: rest, v, pf =>
      if e.to' = v then { e with flow := e.flow + pf } :: rest
      else e :: updateFirst rest v pf

def augmentEdge (g : Graph) (u v : Point) (pf : ℕ) : Graph :=
  { g with adj := updateA g.adj u fun es => updateFirst es v pf }

def augmentH (g : Graph) (hs : List (Point × Point)) (pf : ℕ) : Graph :=
  hs.foldl (fun g2 h => augmentEdge g2 h.1 h.2 pf) g

/-- The `loop` of `Graph::edmonds_karp`, fuelled. -/
def edmondsKarpLoop : ℕ → Graph → ℕ → ℕ × Graph
  | 0, g, acc => (acc, g)
  | fuel + 1, g, acc =>
      let r := g.find_cheapest_path_dijkstra (fuel + 1)
      if r.2 then
        match walkToSource r.1 g.source (fuel + 1) g.sink with
        | none => (acc, g)
        | some w =>
            let pf := bottleneckH g (backHops w)
            edmondsKarpLoop fuel (augmentH g (backHops w) pf) (acc + pf)
      else (acc, g)

/-- `Graph::edmonds_karp`. -/
def Graph.edmonds_karp (g : Graph) (fuel : ℕ) : ℕ × Graph :=
  edmondsKarpLoop fuel g 0

/-- `Graph::route_cheapest_path`. -/
def Graph.route_cheapest_path (g : Graph) (fuel : ℕ) :
    (ℕ × Option (List Point)) × Graph :=
  let r := g.find_cheapest_path_dijkstra fuel
  if r.2 then
    match walkToSource r.1 g.source fuel g.sink with
    | none => ((0, none), g)
    | some w =>
        let path := w.reverse
        let pf := bottleneckH g (consecutivePairs path)
        ((pf, some path), augmentH g (consecutivePairs path) pf)
  else ((0, none), g)

/-- Total flow out of a node (its adjacency entry). -/
def outflow (g : Graph) (p : Point) : ℕ :=
  ((g.get_edges p).map Edge.flow).sum

/-- Total flow into a node over all edges of the graph. -/
def inflow (g : Graph) (p : Point) : ℕ :=
  (g.adj.map fun pr => ((pr.2.filter fun e => e.to' = p).map Edge.flow).sum).sum

/-- Every edge respects its capacity. -/
def FlowLeCap (g : Graph) : Prop :=
  ∀ pr ∈ g.adj, ∀ e ∈ pr.2, e.flow ≤ e.capacity

/-- Flow conservation at every internal node. -/
def Conserv (g : Graph) : Prop :=
  ∀ p : Point, p ≠ g.source → p ≠ g.sink → inflow g p = outflow g p

/-- Net flow out of the source. -/
def netOut (g : Graph) : ℤ :=
  (outflow g g.source : ℤ) - (inflow g g.source : ℤ)

/-- The graph with all flows reset to `0`: the capacity/cost/topology
skeleton. -/
def eraseFlows (g : Graph) : Graph :=
  { g with
    adj := g.adj.map fun pr => (pr.1, pr.2.map fun e => { e with flow := 0 }) }

/-- `M` bounds the value of every feasible flow on `g`'s skeleton: it is an
upper bound for the true maximum flow. -/
def IsFlowUB (g : Graph) (M : ℤ) : Prop :=
  ∀ g' : Graph, eraseFlows g' = eraseFlows g → FlowLeCap g' → Conserv g' →
    netOut g' ≤ M

end Net

end MomaSim

/-- Witness for the amended C10 at concrete inputs. -/
theorem C10_frame_amended_witness :
    (([Complex.I] ≠ ([] : List ℂ)) ∧
      (Gower.calculate_u2_norm_fft [Complex.I]).2 = Gower.dft [Complex.I]) ∧
    (2 ≤ ([1, Complex.I] : List ℂ).length ∧
      (∀ c ∈ ([1, Complex.I] : List ℂ), Complex.abs c = 1) ∧
      (Gower.calculate_u2_norm_fft [1, Complex.I]).2 ≠ [1, Complex.I]) :=
  ⟨⟨by simp, C10_frame_amended.1 [Complex.I] (by simp)⟩,
   ⟨by norm_num, by intro c hc; fin_cases hc <;> simp,
    C10_frame_amended.2 [1, Complex.I] (by norm_num)
      (by intro c hc; fin_cases hc <;> simp)⟩⟩

namespace MomaSim

namespace Net

/-! ### Association-list and augmentation lemmas -/

theorem lookupA_mem {α : Type*} {l : List (Point × α)} {p : Point} {v : α}
    (h : lookupA l p = some v) : (p, v) ∈ l := by
  induction l with
  | nil => simp [lookupA] at h
  | cons pr rest ih =>
      obtain ⟨q, w⟩ := pr
      rw [lookupA] at h
      by_cases hq : q = p
      · rw [if_pos hq] at h
        subst hq
        obtain rfl : w = v := by simpa using h
        exact List.mem_cons_self _ _
      · rw [if_neg hq] at h
        exact List.mem_cons_of_mem _ (ih h)

theorem lookupA_insertA {α : Type*} (l : List (Point × α)) (k : Point) (v : α)
    (p : Point) :
    lookupA (insertA l k v) p = if k = p then some v else lookupA l p := by
  induction l with
  | nil => simp [insertA, lookupA]
  | cons pr rest ih =>
      obtain ⟨q, w⟩ := pr
      by_cases hq : q = k
      · subst hq
        rw [insertA, if_pos rfl, lookupA]
        by_cases hp : q = p
        · rw [if_pos hp, if_pos hp]
        · rw [if_neg hp, if_neg hp, lookupA, if_neg hp]
      · rw [insertA, if_neg hq]
        by_cases hp : q = p
        · subst hp
          have hk : ¬ (k = q) := fun h => hq h.symm
          rw [lookupA, if_pos rfl, if_neg hk, lookupA, if_pos rfl]
        · rw [lookupA, if_neg hp, ih, lookupA, if_neg hp]

theorem lookupA_updateA_self {α : Type*} (l : List (Point × α)) (p : Point)
    (f : α → α) : lookupA (updateA l p f) p = (lookupA l p).map f := by
  induction l with
  | nil => simp [updateA, lookupA]
  | cons pr rest ih =>
      obtain ⟨q, w⟩ := pr
      by_cases hq : q = p
      · subst hq
        rw [updateA, if_pos rfl, lookupA, if_pos rfl, lookupA, if_pos rfl]
        rfl
      · rw [updateA, if_neg hq, lookupA, if_neg hq, lookupA, if_neg hq, ih]

theorem lookupA_updateA_ne {α : Type*} (l : List (Point × α)) (p : Point)
    (f : α → α) (q : Point) (hq : q ≠ p) :
    lookupA (updateA l p f) q = lookupA l q := by
  induction l with
  | nil => simp [updateA]
  | cons pr rest ih =>
      obtain ⟨r, w⟩ := pr
      by_cases hr : r = p
      · subst hr
        rw [updateA, if_pos rfl, lookupA, lookupA,
          if_neg (by intro h; exact hq h.symm),
          if_neg (by intro h; exact hq h.symm)]
      · rw [updateA, if_neg hr, lookupA, lookupA, ih]

theorem find?_updateFirst_self (es : List Edge) (v : Point) (pf : ℕ) :
    ((updateFirst es v pf).find? fun e => e.to' = v)
      = (es.find? fun e => e.to' = v).map
          fun e => { e with flow := e.flow + pf } := by
  induction es with
  | nil => simp [updateFirst]
  | cons e rest ih =>
      by_cases he : e.to' = v
      · rw [updateFirst, if_pos he]
        rw [List.find?_cons_of_pos _ (by simpa using he),
          List.find?_cons_of_pos _ (by simpa using he)]
        rfl
      · rw [updateFirst, if_neg he]
        rw [List.find?_cons_of_neg _ (by simpa using he),
          List.find?_cons_of_neg _ (by simpa using he), ih]

theorem find?_updateFirst_ne (es : List Edge) (v : Point) (pf : ℕ)
    (v' : Point) (hv : v' ≠ v) :
    ((updateFirst es v pf).find? fun e => e.to' = v')
      = es.find? fun e => e.to' = v' := by
  induction es with
  | nil => simp [updateFirst]
  | cons e rest ih =>
      by_cases he : e.to' = v
      · rw [updateFirst, if_pos he]
        have hne : ¬ e.to' = v' := by rw [he]; intro h; exact hv h.symm
        rw [List.find?_cons_of_neg _ (by simpa using hne),
          List.find?_cons_of_neg _ (by simpa using hne)]
      · rw [updateFirst, if_neg he]
        by_cases he' : e.to' = v'
        · rw [List.find?_cons_of_pos _ (by simpa using he'),
            List.find?_cons_of_pos _ (by simpa using he')]
        · rw [List.find?_cons_of_neg _ (by simpa using he'),
            List.find?_cons_of_neg _ (by simpa using he'), ih]

theorem mem_updateFirst {es : List Edge} {v : Point} {pf : ℕ} {e' : Edge}
    (h : e' ∈ updateFirst es v pf) :
    e' ∈ es ∨ ∃ e0, (es.find? fun e => e.to' = v) = some e0 ∧
      e' = { e0 with flow := e0.flow + pf } := by
  induction es with
  | nil => simp [updateFirst] at h
  | cons e rest ih =>
      by_cases he : e.to' = v
      · rw [updateFirst, if_pos he] at h
        rcases List.mem_cons.mp h with h1 | h1
        · right
          exact ⟨e, by rw [List.find?_cons_of_pos _ (by simpa using he)], h1⟩
        · exact Or.inl (List.mem_cons_of_mem _ h1)
      · rw [updateFirst, if_neg he] at h
        rcases List.mem_cons.mp h with h1 | h1
        · exact Or.inl (h1 ▸ List.mem_cons_self _ _)
        · rcases ih h1 with h2 | ⟨e0, h2, h3⟩
          · exact Or.inl (List.mem_cons_of_mem _ h2)
          · right
            refine ⟨e0, ?_, h3⟩
            rw [List.find?_cons_of_neg _ (by simpa using he)]
            exact h2

theorem mem_updateA {α : Type*} {l : List (Point × α)} {p : Point} {f : α → α}
    {pr : Point × α} (h : pr ∈ updateA l p f) :
    pr ∈ l ∨ ∃ es, (p, es) ∈ l ∧ pr = (p, f es) := by
  induction l with
  | nil => simp [updateA] at h
  | cons qr rest ih =>
      obtain ⟨q, w⟩ := qr
      by_cases hq : q = p
      · subst hq
        rw [updateA, if_pos rfl] at h
        rcases List.mem_cons.mp h with h1 | h1
        · exact Or.inr ⟨w, List.mem_cons_self _ _, h1⟩
        · exact Or.inl (List.mem_cons_of_mem _ h1)
      · rw [updateA, if_neg hq] at h
        rcases List.mem_cons.mp h with h1 | h1
        · exact Or.inl (h1 ▸ List.mem_cons_self _ _)
        · rcases ih h1 with h2 | ⟨es, h2, h3⟩
          · exact Or.inl (List.mem_cons_of_mem _ h2)
          · exact Or.inr ⟨es, List.mem_cons_of_mem _ h2, h3⟩

end Net

end MomaSim

namespace MomaSim

namespace Net

theorem lookupA_of_mem_updateA {α : Type*} {l : List (Point × α)} {p : Point}
    {f : α → α} {pr : Point × α} (h : pr ∈ updateA l p f) :
    pr ∈ l ∨ ∃ es, lookupA l p = some es ∧ pr = (p, f es) := by
  induction l with
  | nil => simp [updateA] at h
  | cons qr rest ih =>
      obtain ⟨q, w⟩ := qr
      by_cases hq : q = p
      · subst hq
        rw [updateA, if_pos rfl] at h
        rcases List.mem_cons.mp h with h1 | h1
        · exact Or.inr ⟨w, by rw [lookupA, if_pos rfl], h1⟩
        · exact Or.inl (List.mem_cons_of_mem _ h1)
      · rw [updateA, if_neg hq] at h
        rcases List.mem_cons.mp h with h1 | h1
        · exact Or.inl (h1 ▸ List.mem_cons_self _ _)
        · rcases ih h1 with h2 | ⟨es, h2, h3⟩
          · exact Or.inl (List.mem_cons_of_mem _ h2)
          · refine Or.inr ⟨es, ?_, h3⟩
            rw [lookupA, if_neg hq]
            exact h2

theorem get_edges_augmentEdge_self (g : Graph) (u v : Point) (pf : ℕ) :
    (augmentEdge g u v pf).get_edges u = updateFirst (g.get_edges u) v pf := by
  unfold augmentEdge Graph.get_edges
  rw [lookupA_updateA_self]
  cases h : lookupA g.adj u <;> simp [updateFirst]

theorem get_edges_augmentEdge_ne (g : Graph) (u v : Point) (pf : ℕ)
    (u' : Point) (h : u' ≠ u) :
    (augmentEdge g u v pf).get_edges u' = g.get_edges u' := by
  unfold augmentEdge Graph.get_edges
  rw [lookupA_updateA_ne _ _ _ _ h]

theorem findEdge_augment_self (g : Graph) (u v : Point) (pf : ℕ) :
    findEdge (augmentEdge g u v pf) u v
      = (findEdge g u v).map fun e => { e with flow := e.flow + pf } := by
  unfold findEdge
  rw [get_edges_augmentEdge_self, find?_updateFirst_self]

theorem findEdge_augment_ne (g : Graph) (u v : Point) (pf : ℕ)
    (u' v' : Point) (h : ¬ (u' = u ∧ v' = v)) :
    findEdge (augmentEdge g u v pf) u' v' = findEdge g u' v' := by
  by_cases hu : u' = u
  · subst hu
    have hv : v' ≠ v := fun hv => h ⟨rfl, hv⟩
    unfold findEdge
    rw [get_edges_augmentEdge_self, find?_updateFirst_ne _ _ _ _ hv]
  · unfold findEdge
    rw [get_edges_augmentEdge_ne _ _ _ _ _ hu]

theorem findEdge_augment_isSome (g : Graph) (u v : Point) (pf : ℕ)
    (u' v' : Point) :
    (findEdge (augmentEdge g u v pf) u' v').isSome
      = (findEdge g u' v').isSome := by
  by_cases h : u' = u ∧ v' = v
  · obtain ⟨rfl, rfl⟩ := h
    rw [findEdge_augment_self]
    cases findEdge g u' v' <;> rfl
  · rw [findEdge_augment_ne _ _ _ _ _ _ h]

theorem sum_updateFirst (es : List Edge) (v : Point) (pf : ℕ) :
    ((updateFirst es v pf).map Edge.flow).sum
      = (es.map Edge.flow).sum
        + (if (es.find? fun e => e.to' = v).isSome then pf else 0) := by
  induction es with
  | nil => simp [updateFirst]
  | cons e rest ih =>
      by_cases he : e.to' = v
      · rw [updateFirst, if_pos he, List.find?_cons_of_pos _ (by simpa using he)]
        simp only [List.map_cons, List.sum_cons, Option.isSome_some, if_pos]
        show e.flow + pf + (rest.map Edge.flow).sum
          = e.flow + (rest.map Edge.flow).sum + pf
        omega
      · rw [updateFirst, if_neg he, List.find?_cons_of_neg _ (by simpa using he)]
        simp only [List.map_cons, List.sum_cons, ih]
        omega

theorem filterSum_updateFirst (es : List Edge) (v : Point) (pf : ℕ)
    (p : Point) :
    (((updateFirst es v pf).filter fun e => e.to' = p).map Edge.flow).sum
      = ((es.filter fun e => e.to' = p).map Edge.flow).sum
        + (if (es.find? fun e => e.to' = v).isSome ∧ v = p then pf
            else 0) := by
  induction es with
  | nil => simp [updateFirst]
  | cons e rest ih =>
      by_cases he : e.to' = v
      · rw [updateFirst, if_pos he, List.find?_cons_of_pos _ (by simpa using he)]
        by_cases hp : v = p
        · subst hp
          rw [List.filter_cons_of_pos (by simpa using he),
            List.filter_cons_of_pos (by simpa using he)]
          simp only [List.map_cons, List.sum_cons, Option.isSome_some,
            eq_self_iff_true, and_self, if_true]
          show e.flow + pf + _ = e.flow + _ + pf
          omega
        · have hep : ¬ e.to' = p := by rw [he]; exact hp
          rw [List.filter_cons_of_neg (by simpa using hep),
            List.filter_cons_of_neg (by simpa using hep)]
          rw [if_neg fun hc => hp hc.2]
          omega
      · rw [updateFirst, if_neg he, List.find?_cons_of_neg _ (by simpa using he)]
        by_cases hep : e.to' = p
        · rw [List.filter_cons_of_pos (by simpa using hep),
            List.filter_cons_of_pos (by simpa using hep)]
          simp only [List.map_cons, List.sum_cons, ih]
          omega
        · rw [List.filter_cons_of_neg (by simpa using hep),
            List.filter_cons_of_neg (by simpa using hep), ih]

theorem outflow_augmentEdge (g : Graph) (u v : Point) (pf : ℕ) (p : Point) :
    outflow (augmentEdge g u v pf) p
      = outflow g p + (if (findEdge g u v).isSome ∧ u = p then pf else 0) := by
  by_cases hu : u = p
  · subst hu
    unfold outflow
    rw [get_edges_augmentEdge_self, sum_updateFirst]
    congr 1
    simp [findEdge]
  · unfold outflow
    rw [get_edges_augmentEdge_ne _ _ _ _ _ fun h => hu h.symm]
    rw [if_neg (show ¬ ((findEdge g u v).isSome ∧ u = p) from fun h => hu h.2)]
    omega

theorem inflow_augmentEdge (g : Graph) (u v : Point) (pf : ℕ) (p : Point) :
    inflow (augmentEdge g u v pf) p
      = inflow g p + (if (findEdge g u v).isSome ∧ v = p then pf else 0) := by
  show (((updateA g.adj u fun es => updateFirst es v pf)).map
      (fun pr => ((pr.2.filter fun e => e.to' = p).map Edge.flow).sum)).sum
    = _ + _
  have hgen : ∀ l : List (Point × List Edge),
      (((updateA l u fun es => updateFirst es v pf)).map
          (fun pr => ((pr.2.filter fun e => e.to' = p).map Edge.flow).sum)).sum
        = ((l.map fun pr =>
              ((pr.2.filter fun e => e.to' = p).map Edge.flow).sum).sum)
          + (if (((lookupA l u).getD []).find? fun e => e.to' = v).isSome ∧
                v = p then pf else 0) := by
    intro l
    induction l with
    | nil => simp [updateA, lookupA]
    | cons pr rest ih =>
        obtain ⟨q, es⟩ := pr
        by_cases hq : q = u
        · subst hq
          rw [updateA, if_pos rfl]
          simp only [List.map_cons, List.sum_cons, lookupA, eq_self_iff_true,
            if_true, Option.getD_some]
          rw [filterSum_updateFirst]
          omega
        · rw [updateA, if_neg hq]
          simp only [List.map_cons, List.sum_cons, lookupA, hq, if_false]
          rw [ih]
          omega
  exact hgen g.adj

theorem eraseFlows_augmentEdge (g : Graph) (u v : Point) (pf : ℕ) :
    eraseFlows (augmentEdge g u v pf) = eraseFlows g := by
  unfold eraseFlows augmentEdge
  simp only [Graph.mk.injEq, and_true, true_and]
  have hz : ∀ es : List Edge, (updateFirst es v pf).map
      (fun e => { e with flow := 0 }) = es.map fun e => { e with flow := 0 } := by
    intro es
    induction es with
    | nil => simp [updateFirst]
    | cons e rest ih =>
        by_cases he : e.to' = v
        · rw [updateFirst, if_pos he]
          simp
        · rw [updateFirst, if_neg he]
          simp [ih]
  have hgen : ∀ l : List (Point × List Edge),
      (updateA l u fun es => updateFirst es v pf).map
          (fun pr => (pr.1, pr.2.map fun e => { e with flow := 0 }))
        = l.map fun pr => (pr.1, pr.2.map fun e => { e with flow := 0 }) := by
    intro l
    induction l with
    | nil => simp [updateA]
    | cons pr rest ih =>
        obtain ⟨q, es⟩ := pr
        by_cases hq : q = u
        · subst hq
          rw [updateA, if_pos rfl]
          simp [hz]
        · rw [updateA, if_neg hq]
          simp [ih]
  exact hgen g.adj

theorem flowLeCap_augmentEdge (g : Graph) (u v : Point) (pf : ℕ)
    (hcap : FlowLeCap g)
    (hslack : ∀ e, findEdge g u v = some e → e.flow + pf ≤ e.capacity) :
    FlowLeCap (augmentEdge g u v pf) := by
  intro pr hpr e' he'
  rcases lookupA_of_mem_updateA hpr with h1 | ⟨es, h2, h3⟩
  · exact hcap pr h1 e' he'
  · subst h3
    rcases mem_updateFirst he' with h4 | ⟨e0, h5, h6⟩
    · exact hcap (u, es) (lookupA_mem h2) e' h4
    · subst h6
      have hfe : findEdge g u v = some e0 := by
        unfold findEdge Graph.get_edges
        rw [h2]
        exact h5
      exact hslack e0 hfe

end Net

end MomaSim

namespace MomaSim

namespace Net

theorem inflow_augmentH (g : Graph) (hs : List (Point × Point)) (pf : ℕ)
    (p : Point) (hex : ∀ h ∈ hs, (findEdge g h.1 h.2).isSome) :
    inflow (augmentH g hs pf) p
      = inflow g p + pf * ((hs.map Prod.snd).count p) := by
  induction hs generalizing g with
  | nil => simp [augmentH]
  | cons h rest ih =>
      have hh : (findEdge g h.1 h.2).isSome = true :=
        hex h (List.mem_cons_self _ _)
      have hrest : ∀ h' ∈ rest,
          (findEdge (augmentEdge g h.1 h.2 pf) h'.1 h'.2).isSome := by
        intro h' hm
        rw [findEdge_augment_isSome]
        exact hex h' (List.mem_cons_of_mem _ hm)
      show inflow (augmentH (augmentEdge g h.1 h.2 pf) rest pf) p = _
      rw [ih _ hrest, inflow_augmentEdge, List.map_cons, List.count_cons]
      by_cases hp : h.2 = p
      · rw [if_pos ⟨hh, hp⟩]
        simp only [hp, beq_self_eq_true, if_true]
        ring
      · rw [if_neg fun hc => hp hc.2]
        have : ((h.2 == p) = true) = False := by
          simp [hp]
        simp only [this, if_false]
        ring

theorem outflow_augmentH (g : Graph) (hs : List (Point × Point)) (pf : ℕ)
    (p : Point) (hex : ∀ h ∈ hs, (findEdge g h.1 h.2).isSome) :
    outflow (augmentH g hs pf) p
      = outflow g p + pf * ((hs.map Prod.fst).count p) := by
  induction hs generalizing g with
  | nil => simp [augmentH]
  | cons h rest ih =>
      have hh : (findEdge g h.1 h.2).isSome = true :=
        hex h (List.mem_cons_self _ _)
      have hrest : ∀ h' ∈ rest,
          (findEdge (augmentEdge g h.1 h.2 pf) h'.1 h'.2).isSome := by
        intro h' hm
        rw [findEdge_augment_isSome]
        exact hex h' (List.mem_cons_of_mem _ hm)
      show outflow (augmentH (augmentEdge g h.1 h.2 pf) rest pf) p = _
      rw [ih _ hrest, outflow_augmentEdge, List.map_cons, List.count_cons]
      by_cases hp : h.1 = p
      · rw [if_pos ⟨hh, hp⟩]
        simp only [hp, beq_self_eq_true, if_true]
        ring
      · rw [if_neg fun hc => hp hc.2]
        have : ((h.1 == p) = true) = False := by
          simp [hp]
        simp only [this, if_false]
        ring

theorem flowLeCap_augmentH (g : Graph) (hs : List (Point × Point)) (pf : ℕ)
    (hnd : hs.Nodup)
    (hslack : ∀ h ∈ hs, ∀ e, findEdge g h.1 h.2 = some e →
      e.flow + pf ≤ e.capacity)
    (hcap : FlowLeCap g) : FlowLeCap (augmentH g hs pf) := by
  induction hs generalizing g with
  | nil => exact hcap
  | cons h rest ih =>
      show FlowLeCap (augmentH (augmentEdge g h.1 h.2 pf) rest pf)
      have h1 : FlowLeCap (augmentEdge g h.1 h.2 pf) :=
        flowLeCap_augmentEdge _ _ _ _ hcap
          (hslack h (List.mem_cons_self _ _))
      refine ih _ (List.nodup_cons.mp hnd).2 ?_ h1
      intro h' hm e he
      have hne : ¬ (h'.1 = h.1 ∧ h'.2 = h.2) := by
        intro hc
        have heq : h' = h := Prod.ext hc.1 hc.2
        exact (List.nodup_cons.mp hnd).1 (heq ▸ hm)
      rw [findEdge_augment_ne _ _ _ _ _ _ hne] at he
      exact hslack h' (List.mem_cons_of_mem _ hm) e he

theorem eraseFlows_augmentH (g : Graph) (hs : List (Point × Point)) (pf : ℕ) :
    eraseFlows (augmentH g hs pf) = eraseFlows g := by
  induction hs generalizing g with
  | nil => rfl
  | cons h rest ih =>
      show eraseFlows (augmentH (augmentEdge g h.1 h.2 pf) rest pf) = _
      rw [ih, eraseFlows_augmentEdge]

/-- One step of the bottleneck fold. -/
def bStep (g : Graph) (acc : ℕ) (h : Point × Point) : ℕ :=
  match findEdge g h.1 h.2 with
  | some e => min acc (e.capacity - e.flow)
  | none => acc

theorem bottleneckH_eq_foldl (g : Graph) (hs : List (Point × Point)) :
    bottleneckH g hs = hs.foldl (bStep g) (2 ^ 64 - 1) := rfl

theorem bottleneck_aux (g : Graph) (hs : List (Point × Point)) :
    ∀ init : ℕ, hs.foldl (bStep g) init ≤ init ∧
      ∀ h ∈ hs, ∀ e, findEdge g h.1 h.2 = some e →
        hs.foldl (bStep g) init ≤ e.capacity - e.flow := by
  induction hs with
  | nil => exact fun init => ⟨le_refl _, by simp⟩
  | cons h rest ih =>
      intro init
      constructor
      · refine le_trans (ih (bStep g init h)).1 ?_
        unfold bStep
        cases hfe : findEdge g h.1 h.2 with
        | none => exact le_refl _
        | some e => exact min_le_left _ _
      · intro h' hm e he
        rcases List.mem_cons.mp hm with rfl | hm'
        · refine le_trans (ih (bStep g init h')).1 ?_
          unfold bStep
          rw [he]
          exact min_le_right _ _
        · exact (ih (bStep g init h)).2 h' hm' e he

theorem bottleneckH_le (g : Graph) (hs : List (Point × Point)) :
    ∀ h ∈ hs, ∀ e, findEdge g h.1 h.2 = some e →
      bottleneckH g hs ≤ e.capacity - e.flow := by
  rw [bottleneckH_eq_foldl]
  exact (bottleneck_aux g hs _).2

end Net

end MomaSim

namespace MomaSim

namespace Net

theorem walk_src_eq (parent : List (Point × Point)) (src : Point) (fuel : ℕ) :
    walkToSource parent src fuel src = some [src] := by
  cases fuel <;> simp [walkToSource]

theorem walk_head {parent : List (Point × Point)} {src : Point} :
    ∀ {fuel : ℕ} {cur : Point} {w : List Point},
      walkToSource parent src fuel cur = some w → ∃ t, w = cur :: t := by
  intro fuel cur w h
  cases fuel with
  | zero =>
      unfold walkToSource at h
      by_cases hc : cur = src
      · rw [if_pos hc] at h
        exact ⟨[], (Option.some.inj h).symm⟩
      · rw [if_neg hc] at h
        exact absurd h (by simp)
  | succ f =>
      unfold walkToSource at h
      by_cases hc : cur = src
      · rw [if_pos hc] at h
        exact ⟨[], (Option.some.inj h).symm⟩
      · rw [if_neg hc] at h
        cases hl : lookupA parent cur with
        | none =>
            rw [hl] at h
            exact absurd h (by simp)
        | some p =>
            rw [hl] at h
            rcases Option.map_eq_some'.mp h with ⟨w', _, hweq⟩
            exact ⟨w', hweq.symm⟩

theorem walk_unique {parent : List (Point × Point)} {src : Point} :
    ∀ {f1 f2 : ℕ} {cur : Point} {w1 w2 : List Point},
      walkToSource parent src f1 cur = some w1 →
      walkToSource parent src f2 cur = some w2 → w1 = w2 := by
  intro f1
  induction f1 with
  | zero =>
      intro f2 cur w1 w2 h1 h2
      unfold walkToSource at h1
      by_cases hc : cur = src
      · rw [if_pos hc] at h1
        subst hc
        rw [walk_src_eq] at h2
        rw [← Option.some.inj h1, Option.some.inj h2]
      · rw [if_neg hc] at h1
        exact absurd h1 (by simp)
  | succ f ih =>
      intro f2 cur w1 w2 h1 h2
      by_cases hc : cur = src
      · subst hc
        rw [walk_src_eq] at h1 h2
        rw [← Option.some.inj h1, ← Option.some.inj h2]
      · unfold walkToSource at h1
        rw [if_neg hc] at h1
        cases f2 with
        | zero =>
            unfold walkToSource at h2
            rw [if_neg hc] at h2
            exact absurd h2 (by simp)
        | succ f2' =>
            unfold walkToSource at h2
            rw [if_neg hc] at h2
            cases hl : lookupA parent cur with
            | none =>
                rw [hl] at h1
                exact absurd h1 (by simp)
            | some p =>
                rw [hl] at h1 h2
                rcases Option.map_eq_some'.mp h1 with ⟨u1, hu1, hw1⟩
                rcases Option.map_eq_some'.mp h2 with ⟨u2, hu2, hw2⟩
                rw [← hw1, ← hw2, ih hu1 hu2]

theorem walk_last {parent : List (Point × Point)} {src : Point} :
    ∀ {fuel : ℕ} {cur : Point} {w : List Point},
      walkToSource parent src fuel cur = some w → w.getLast? = some src := by
  intro fuel
  induction fuel with
  | zero =>
      intro cur w h
      unfold walkToSource at h
      by_cases hc : cur = src
      · rw [if_pos hc] at h
        rw [← Option.some.inj h, hc]
        rfl
      · rw [if_neg hc] at h
        exact absurd h (by simp)
  | succ f ih =>
      intro cur w h
      unfold walkToSource at h
      by_cases hc : cur = src
      · rw [if_pos hc] at h
        rw [← Option.some.inj h, hc]
        rfl
      · rw [if_neg hc] at h
        cases hl : lookupA parent cur with
        | none =>
            rw [hl] at h
            exact absurd h (by simp)
        | some p =>
            rw [hl] at h
            rcases Option.map_eq_some'.mp h with ⟨w', hw', hweq⟩
            rcases walk_head hw' with ⟨t, ht⟩
            rw [← hweq, ht, List.getLast?_cons_cons]
            rw [← ht]
            exact ih hw'

theorem walk_cp {parent : List (Point × Point)} {src : Point} :
    ∀ {fuel : ℕ} {cur : Point} {w : List Point},
      walkToSource parent src fuel cur = some w →
      ∀ q ∈ consecutivePairs w, lookupA parent q.1 = some q.2 ∧ q.1 ≠ src := by
  intro fuel
  induction fuel with
  | zero =>
      intro cur w h q hq
      unfold walkToSource at h
      by_cases hc : cur = src
      · rw [if_pos hc] at h
        rw [← Option.some.inj h] at hq
        exact absurd hq (by simp [consecutivePairs])
      · rw [if_neg hc] at h
        exact absurd h (by simp)
  | succ f ih =>
      intro cur w h q hq
      unfold walkToSource at h
      by_cases hc : cur = src
      · rw [if_pos hc] at h
        rw [← Option.some.inj h] at hq
        exact absurd hq (by simp [consecutivePairs])
      · rw [if_neg hc] at h
        cases hl : lookupA parent cur with
        | none =>
            rw [hl] at h
            exact absurd h (by simp)
        | some p =>
            rw [hl] at h
            rcases Option.map_eq_some'.mp h with ⟨w', hw', hweq⟩
            rcases walk_head hw' with ⟨t, ht⟩
            rw [← hweq, ht] at hq
            rcases List.mem_cons.mp hq with rfl | hq'
            · exact ⟨hl, hc⟩
            · rw [← ht] at hq'
              exact ih hw' q hq'

theorem walk_suffix {parent : List (Point × Point)} {src : Point} :
    ∀ {fuel : ℕ} {cur : Point} {w : List Point},
      walkToSource parent src fuel cur = some w →
      ∀ pre x post, w = pre ++ x :: post →
      ∃ f2, walkToSource parent src f2 x = some (x :: post) := by
  intro fuel
  induction fuel with
  | zero =>
      intro cur w h pre x post hw
      unfold walkToSource at h
      by_cases hc : cur = src
      · rw [if_pos hc] at h
        rw [← Option.some.inj h] at hw
        cases pre with
        | nil =>
            rw [List.nil_append, List.cons.injEq] at hw
            refine ⟨0, ?_⟩
            rw [← hw.1, hw.2.symm]
            unfold walkToSource
            rw [if_pos hc]
        | cons a t =>
            rw [List.cons_append, List.cons.injEq] at hw
            exact absurd hw.2.symm (List.append_ne_nil_of_right_ne_nil t (by simp))
      · rw [if_neg hc] at h
        exact absurd h (by simp)
  | succ f ih =>
      intro cur w h pre x post hw
      have h0 := h
      unfold walkToSource at h
      by_cases hc : cur = src
      · rw [if_pos hc] at h
        rw [← Option.some.inj h] at hw
        cases pre with
        | nil =>
            rw [List.nil_append, List.cons.injEq] at hw
            refine ⟨0, ?_⟩
            rw [← hw.1, hw.2.symm]
            unfold walkToSource
            rw [if_pos hc]
        | cons a t =>
            rw [List.cons_append, List.cons.injEq] at hw
            exact absurd hw.2.symm (List.append_ne_nil_of_right_ne_nil t (by simp))
      · rw [if_neg hc] at h
        cases hl : lookupA parent cur with
        | none =>
            rw [hl] at h
            exact absurd h (by simp)
        | some p =>
            rw [hl] at h
            rcases Option.map_eq_some'.mp h with ⟨w', hw', hweq⟩
            cases pre with
            | nil =>
                rw [← hweq, List.nil_append, List.cons.injEq] at hw
                refine ⟨f + 1, ?_⟩
                rw [← hw.1, ← hw.2]
                rw [← hweq] at h0
                exact h0
            | cons a t =>
                rw [← hweq, List.cons_append, List.cons.injEq] at hw
                exact ih hw' t x post hw.2

theorem walk_nodup {parent : List (Point × Point)} {src : Point} :
    ∀ {fuel : ℕ} {cur : Point} {w : List Point},
      walkToSource parent src fuel cur = some w → w.Nodup := by
  intro fuel
  induction fuel with
  | zero =>
      intro cur w h
      unfold walkToSource at h
      by_cases hc : cur = src
      · rw [if_pos hc] at h
        rw [← Option.some.inj h]
        exact List.nodup_singleton _
      · rw [if_neg hc] at h
        exact absurd h (by simp)
  | succ f ih =>
      intro cur w h
      have h0 := h
      unfold walkToSource at h
      by_cases hc : cur = src
      · rw [if_pos hc] at h
        rw [← Option.some.inj h]
        exact List.nodup_singleton _
      · rw [if_neg hc] at h
        cases hl : lookupA parent cur with
        | none =>
            rw [hl] at h
            exact absurd h (by simp)
        | some p =>
            rw [hl] at h
            rcases Option.map_eq_some'.mp h with ⟨w', hw', hweq⟩
            rw [← hweq]
            refine List.nodup_cons.mpr ⟨?_, ih hw'⟩
            intro hmem
            obtain ⟨s, t, hst⟩ := List.append_of_mem hmem
            obtain ⟨f2, hf2⟩ := walk_suffix hw' s cur t hst
            rw [← hweq] at h0
            have huq : cur :: w' = cur :: t := walk_unique h0 hf2
            have hwt : w' = t := (List.cons.injEq _ _ _ _).mp huq |>.2
            have hlen : w'.length = s.length + 1 + t.length := by
              rw [hst]
              simp only [List.length_append, List.length_cons]
              omega
            rw [hwt] at hlen
            omega

theorem cp_map_fst : ∀ vs : List Point,
    (consecutivePairs vs).map Prod.fst = vs.dropLast
  | [] => rfl
  | [_] => rfl
  | a :: b :: rest => by
      show a :: (consecutivePairs (b :: rest)).map Prod.fst =
        (a :: b :: rest).dropLast
      rw [cp_map_fst (b :: rest)]
      rfl

theorem cp_map_snd : ∀ vs : List Point,
    (consecutivePairs vs).map Prod.snd = vs.tail
  | [] => rfl
  | [_] => rfl
  | a :: b :: rest => by
      show b :: (consecutivePairs (b :: rest)).map Prod.snd = b :: rest
      rw [cp_map_snd (b :: rest)]
      rfl

theorem backHops_map_fst (w : List Point) :
    (backHops w).map Prod.fst = w.tail := by
  unfold backHops
  rw [List.map_map]
  exact cp_map_snd w

theorem backHops_map_snd (w : List Point) :
    (backHops w).map Prod.snd = w.dropLast := by
  unfold backHops
  rw [List.map_map]
  exact cp_map_fst w

theorem cp_nodup {vs : List Point} (h : vs.Nodup) :
    (consecutivePairs vs).Nodup := by
  have h1 : ((consecutivePairs vs).map Prod.fst).Nodup := by
    rw [cp_map_fst]
    exact h.sublist (List.dropLast_sublist vs)
  exact h1.of_map

theorem backHops_nodup {w : List Point} (h : w.Nodup) :
    (backHops w).Nodup := by
  have h1 : ((backHops w).map Prod.fst).Nodup := by
    rw [backHops_map_fst]
    exact h.sublist (List.tail_sublist w)
  exact h1.of_map

theorem mem_backHops {w : List Point} {q : Point × Point} :
    q ∈ backHops w ↔ (q.2, q.1) ∈ consecutivePairs w := by
  unfold backHops
  constructor
  · intro hm
    rcases List.mem_map.mp hm with ⟨a, ha, hae⟩
    have haq : a = (q.2, q.1) := by
      rw [← hae]
    exact haq ▸ ha
  · intro hm
    exact List.mem_map.mpr ⟨(q.2, q.1), hm, rfl⟩

end Net

end MomaSim

namespace MomaSim

namespace Net

/-- Every parent-map entry `v ↦ u` is backed by an edge `u → v` of the
graph. -/
def ParentProp (g : Graph) (pm : List (Point × Point)) : Prop :=
  ∀ v u, lookupA pm v = some u → (findEdge g u v).isSome

theorem findEdge_isSome_of_mem {g : Graph} {u : Point} {e : Edge}
    (he : e ∈ g.get_edges u) : (findEdge g u e.to').isSome := by
  unfold findEdge
  rw [List.find?_isSome]
  exact ⟨e, he, by simp⟩

theorem parentProp_relaxOne {g : Graph} {u : Point} {cost : ℚ} {st : DState}
    {e : Edge} (he : e ∈ g.get_edges u) (hp : ParentProp g st.parentMap) :
    ParentProp g (relaxOne u cost st e).parentMap := by
  unfold relaxOne
  by_cases h1 : e.capacity > e.flow
  · rw [if_pos h1]
    dsimp only
    by_cases h2 : (match lookupA st.distances e.to' with
        | some d => decide (cost + e.cost < d)
        | none => true) = true
    · rw [if_pos h2]
      intro v u' hv
      dsimp only at hv
      rw [lookupA_insertA] at hv
      by_cases hev : e.to' = v
      · rw [if_pos hev] at hv
        obtain rfl : u = u' := by simpa using hv
        rw [← hev]
        exact findEdge_isSome_of_mem he
      · rw [if_neg hev] at hv
        exact hp v u' hv
    · rw [if_neg h2]
      exact hp
  · rw [if_neg h1]
    exact hp

theorem parentProp_foldl {g : Graph} {u : Point} {cost : ℚ} :
    ∀ {es : List Edge} {st : DState}, (∀ e ∈ es, e ∈ g.get_edges u) →
      ParentProp g st.parentMap →
      ParentProp g (es.foldl (relaxOne u cost) st).parentMap := by
  intro es
  induction es with
  | nil =>
      intro st _ hp
      exact hp
  | cons e rest ih =>
      intro st hes hp
      exact ih (fun e' he' => hes e' (List.mem_cons_of_mem _ he'))
        (parentProp_relaxOne (hes e (List.mem_cons_self _ _)) hp)

theorem parentProp_dijkstraLoop (g : Graph) :
    ∀ (fuel : ℕ) (st : DState), ParentProp g st.parentMap →
      ParentProp g (dijkstraLoop g fuel st).1 := by
  intro fuel
  induction fuel with
  | zero =>
      intro st hp
      exact hp
  | succ f ih =>
      intro st hp
      unfold dijkstraLoop
      cases hpop : popMax st.pq with
      | none => exact hp
      | some pr =>
          obtain ⟨⟨negCost, u⟩, rest⟩ := pr
          dsimp only
          by_cases h1 : (match lookupA st.distances u with
              | some d => decide (d < -negCost)
              | none => false) = true
          · rw [if_pos h1]
            exact ih _ hp
          · rw [if_neg h1]
            by_cases h2 : u = g.sink
            · rw [if_pos h2]
              exact hp
            · rw [if_neg h2]
              exact ih _ (parentProp_foldl (fun e he => he) hp)

theorem parentProp_dijkstra (g : Graph) (fuel : ℕ) :
    ParentProp g (g.find_cheapest_path_dijkstra fuel).1 := by
  unfold Graph.find_cheapest_path_dijkstra
  refine parentProp_dijkstraLoop g fuel _ ?_
  intro v u hv
  simp [lookupA] at hv

theorem findEdge_mem {g : Graph} {u v : Point} {e : Edge}
    (h : findEdge g u v = some e) : e ∈ g.get_edges u ∧ e.to' = v := by
  unfold findEdge at h
  have h1 := List.find?_some h
  have h2 := List.mem_of_find?_eq_some h
  exact ⟨h2, by simpa using h1⟩

theorem flowLeCap_findEdge {g : Graph} (hcap : FlowLeCap g) {u v : Point}
    {e : Edge} (h : findEdge g u v = some e) : e.flow ≤ e.capacity := by
  have hmem := (findEdge_mem h).1
  unfold Graph.get_edges at hmem
  cases hl : lookupA g.adj u with
  | none =>
      rw [hl] at hmem
      simp at hmem
  | some es =>
      rw [hl] at hmem
      exact hcap (u, es) (lookupA_mem hl) e (by simpa using hmem)

theorem hops_isSome {g : Graph} {pm : List (Point × Point)} {src : Point}
    (hpp : ParentProp g pm) {fuel : ℕ} {cur : Point} {w : List Point}
    (hw : walkToSource pm src fuel cur = some w) :
    ∀ h ∈ backHops w, (findEdge g h.1 h.2).isSome := by
  intro h hm
  have hcp := mem_backHops.mp hm
  have hq := walk_cp hw _ hcp
  exact hpp h.2 h.1 hq.1

theorem flowLeCap_ekLoop : ∀ (fuel : ℕ) (g : Graph) (acc : ℕ),
    FlowLeCap g → FlowLeCap (edmondsKarpLoop fuel g acc).2 := by
  intro fuel
  induction fuel with
  | zero =>
      intro g acc h
      exact h
  | succ f ih =>
      intro g acc h
      unfold edmondsKarpLoop
      dsimp only
      by_cases hr : (g.find_cheapest_path_dijkstra (f + 1)).2 = true
      · rw [if_pos hr]
        cases hw : walkToSource (g.find_cheapest_path_dijkstra (f + 1)).1
            g.source (f + 1) g.sink with
        | none => exact h
        | some w =>
            dsimp only
            refine ih _ _ ?_
            refine flowLeCap_augmentH g (backHops w) _
              (backHops_nodup (walk_nodup hw)) ?_ h
            intro hp hm e he
            have hflow : e.flow ≤ e.capacity := flowLeCap_findEdge h he
            have hbot := bottleneckH_le g (backHops w) hp hm e he
            omega
      · rw [if_neg hr]
        exact h

end Net

end MomaSim

namespace MomaSim

namespace Net

theorem cp_append_last : ∀ (xs : List Point) (y a : Point),
    xs.getLast? = some y →
    consecutivePairs (xs ++ [a]) = consecutivePairs xs ++ [(y, a)]
  | [], y, a, h => by simp at h
  | [x], y, a, h => by
      obtain rfl : y = x := by simpa using h.symm
      rfl
  | x1 :: x2 :: rest, y, a, h => by
      rw [List.getLast?_cons_cons] at h
      have e1 : (x1 :: x2 :: rest) ++ [a] = x1 :: ((x2 :: rest) ++ [a]) := rfl
      rw [e1]
      have e2 : consecutivePairs (x1 :: ((x2 :: rest) ++ [a]))
          = (x1, x2) :: consecutivePairs ((x2 :: rest) ++ [a]) := rfl
      rw [e2, cp_append_last (x2 :: rest) y a h]
      rfl

theorem cp_reverse : ∀ w : List Point,
    consecutivePairs w.reverse = (backHops w).reverse
  | [] => rfl
  | [_] => rfl
  | a :: b :: rest => by
      have hrev : (a :: b :: rest).reverse = (b :: rest).reverse ++ [a] := by
        simp [List.reverse_cons]
      have hlast : (b :: rest).reverse.getLast? = some b := by
        rw [List.getLast?_reverse]
        rfl
      rw [hrev, cp_append_last _ _ _ hlast, cp_reverse (b :: rest)]
      have hbh : backHops (a :: b :: rest) = (b, a) :: backHops (b :: rest) :=
        rfl
      rw [hbh, List.reverse_cons]

theorem flowLeCap_route (g : Graph) (fuel : ℕ) (hcap : FlowLeCap g) :
    FlowLeCap (g.route_cheapest_path fuel).2 := by
  unfold Graph.route_cheapest_path
  dsimp only
  by_cases hr : (g.find_cheapest_path_dijkstra fuel).2 = true
  · rw [if_pos hr]
    cases hw : walkToSource (g.find_cheapest_path_dijkstra fuel).1 g.source
        fuel g.sink with
    | none => exact hcap
    | some w =>
        dsimp only
        refine flowLeCap_augmentH g _ _ ?_ ?_ hcap
        · rw [cp_reverse]
          exact List.nodup_reverse.mpr (backHops_nodup (walk_nodup hw))
        · intro hp hm e he
          have hflow := flowLeCap_findEdge hcap he
          have hbot := bottleneckH_le g _ hp hm e he
          omega
  · rw [if_neg hr]
    exact hcap

theorem flowLeCap_new (source sink : Point) :
    FlowLeCap (Graph.new source sink) := by
  intro pr hpr
  simp [Graph.new] at hpr

theorem flowLeCap_add_node (g : Graph) (node : Point) (h : FlowLeCap g) :
    FlowLeCap (g.add_node node) := by
  unfold Graph.add_node
  by_cases hs : (lookupA g.adj node).isSome = true
  · rw [if_pos hs]
    exact h
  · rw [if_neg hs]
    intro pr hpr e he
    rcases List.mem_append.mp hpr with h1 | h1
    · exact h pr h1 e he
    · obtain rfl : pr = (node, []) := by simpa using h1
      simp at he

theorem flowLeCap_add_edge (g : Graph) (fr to' : Point) (c : ℕ) (q : ℚ)
    (h : FlowLeCap g) : FlowLeCap (g.add_edge fr to' c q) := by
  unfold Graph.add_edge
  dsimp only
  intro pr hpr e he
  have h1 : FlowLeCap ((g.add_node fr).add_node to') :=
    flowLeCap_add_node _ _ (flowLeCap_add_node _ _ h)
  rcases mem_updateA hpr with h2 | ⟨es, h2, h3⟩
  · exact h1 pr h2 e he
  · rw [h3] at he
    rcases List.mem_append.mp he with h4 | h4
    · exact h1 (fr, es) h2 e h4
    · obtain rfl : e = Edge.mk to' c q 0 := by simpa using h4
      exact Nat.zero_le _

/-- Build a graph from `Graph::new` by a sequence of `add_edge` calls, as the
repository's callers do. -/
def buildGraph (source sink : Point)
    (ops : List ((Point × Point) × ℕ × ℚ)) : Graph :=
  ops.foldl (fun g op => g.add_edge op.1.1 op.1.2 op.2.1 op.2.2)
    (Graph.new source sink)

theorem flowLeCap_foldl_add_edge :
    ∀ (ops : List ((Point × Point) × ℕ × ℚ)) (g : Graph), FlowLeCap g →
      FlowLeCap (ops.foldl
        (fun g op => g.add_edge op.1.1 op.1.2 op.2.1 op.2.2) g) := by
  intro ops
  induction ops with
  | nil =>
      intro g h
      exact h
  | cons op rest ih =>
      intro g h
      exact ih _ (flowLeCap_add_edge _ _ _ _ _ h)

theorem flowLeCap_buildGraph (source sink : Point)
    (ops : List ((Point × Point) × ℕ × ℚ)) :
    FlowLeCap (buildGraph source sink ops) :=
  flowLeCap_foldl_add_edge ops _ (flowLeCap_new source sink)

end Net

end MomaSim

namespace MomaSim

open Net in
/-- **C3** (invariants): on every graph assembled through `Graph::new` and a
sequence of `add_edge` calls (each new edge starting with `flow = 0`), the
invariant `0 ≤ flow ≤ capacity` holds for every edge — the lower bound is
inherent since flows are naturals, and `flow ≤ capacity` holds after
construction and is preserved by `edmonds_karp` and by `route_cheapest_path`
run with any fuel. -/
theorem C3_capacity_invariant (source sink : Point)
    (ops : List ((Point × Point) × ℕ × ℚ)) :
    FlowLeCap (buildGraph source sink ops) ∧
    (∀ fuel : ℕ,
      FlowLeCap ((buildGraph source sink ops).edmonds_karp fuel).2) ∧
    (∀ fuel : ℕ,
      FlowLeCap ((buildGraph source sink ops).route_cheapest_path fuel).2) := by
  refine ⟨flowLeCap_buildGraph source sink ops, fun fuel => ?_, fun fuel => ?_⟩
  · exact flowLeCap_ekLoop fuel _ 0 (flowLeCap_buildGraph source sink ops)
  · exact flowLeCap_route _ fuel (flowLeCap_buildGraph source sink ops)

end MomaSim

namespace MomaSim

namespace Net

theorem count_tail_eq_count_dropLast (sink : Point) (t : List Point)
    (src p : Point) (hlast : (sink :: t).getLast? = some src)
    (hps : p ≠ src) (hpk : p ≠ sink) :
    ((sink :: t).tail).count p = ((sink :: t).dropLast).count p := by
  cases t with
  | nil => simp
  | cons b t' =>
      have ht : (b :: t') ≠ [] := by simp
      have hlast2 : (b :: t').getLast? = some src := by
        rw [← List.getLast?_cons_cons]
        exact hlast
      have hdrop : (sink :: b :: t').dropLast = sink :: (b :: t').dropLast :=
        rfl
      have htail : (sink :: b :: t').tail = b :: t' := rfl
      rw [hdrop, htail]
      have hsplit : (b :: t').dropLast ++ [src] = b :: t' := by
        have h1 := List.dropLast_append_getLast ht
        have h2 : (b :: t').getLast ht = src := by
          have h3 := List.getLast?_eq_getLast (b :: t') ht
          rw [hlast2] at h3
          exact (Option.some.inj h3).symm
        rw [h2] at h1
        exact h1
      have h1 : ¬ (src = p) := fun h => hps h.symm
      have h2 : ¬ (sink = p) := fun h => hpk h.symm
      conv_lhs => rw [← hsplit]
      simp [List.count_append, List.count_cons, h1, h2]

theorem augmentH_source : ∀ (hs : List (Point × Point)) (g : Graph) (pf : ℕ),
    (augmentH g hs pf).source = g.source := by
  intro hs
  induction hs with
  | nil =>
      intro g pf
      rfl
  | cons h rest ih =>
      intro g pf
      exact ih (augmentEdge g h.1 h.2 pf) pf

theorem augmentH_sink : ∀ (hs : List (Point × Point)) (g : Graph) (pf : ℕ),
    (augmentH g hs pf).sink = g.sink := by
  intro hs
  induction hs with
  | nil =>
      intro g pf
      rfl
  | cons h rest ih =>
      intro g pf
      exact ih (augmentEdge g h.1 h.2 pf) pf

theorem conserv_augmentH_walk {g : Graph} {pm : List (Point × Point)}
    {fuel : ℕ} {w : List Point} {pf : ℕ}
    (hpp : ParentProp g pm)
    (hw : walkToSource pm g.source fuel g.sink = some w)
    (hcons : Conserv g) : Conserv (augmentH g (backHops w) pf) := by
  intro p hp1 hp2
  rw [augmentH_source] at hp1
  rw [augmentH_sink] at hp2
  have hex := hops_isSome hpp hw
  rw [inflow_augmentH g _ pf p hex, outflow_augmentH g _ pf p hex]
  rw [backHops_map_fst, backHops_map_snd]
  rcases walk_head hw with ⟨t, rfl⟩
  have hlast := walk_last hw
  rw [count_tail_eq_count_dropLast g.sink t g.source p hlast hp1 hp2]
  rw [hcons p hp1 hp2]

theorem ekLoop_source_sink : ∀ (fuel : ℕ) (g : Graph) (acc : ℕ),
    (edmondsKarpLoop fuel g acc).2.source = g.source ∧
    (edmondsKarpLoop fuel g acc).2.sink = g.sink := by
  intro fuel
  induction fuel with
  | zero =>
      intro g acc
      exact ⟨rfl, rfl⟩
  | succ f ih =>
      intro g acc
      unfold edmondsKarpLoop
      dsimp only
      by_cases hr : (g.find_cheapest_path_dijkstra (f + 1)).2 = true
      · rw [if_pos hr]
        cases hw : walkToSource (g.find_cheapest_path_dijkstra (f + 1)).1
            g.source (f + 1) g.sink with
        | none => exact ⟨rfl, rfl⟩
        | some w =>
            dsimp only
            rcases ih (augmentH g (backHops w)
              (bottleneckH g (backHops w))) (acc + bottleneckH g (backHops w))
              with ⟨h1, h2⟩
            rw [h1, h2, augmentH_source, augmentH_sink]
            exact ⟨rfl, rfl⟩
      · rw [if_neg hr]
        exact ⟨rfl, rfl⟩

theorem conserv_ekLoop : ∀ (fuel : ℕ) (g : Graph) (acc : ℕ),
    Conserv g → Conserv (edmondsKarpLoop fuel g acc).2 := by
  intro fuel
  induction fuel with
  | zero =>
      intro g acc h
      exact h
  | succ f ih =>
      intro g acc h
      unfold edmondsKarpLoop
      dsimp only
      by_cases hr : (g.find_cheapest_path_dijkstra (f + 1)).2 = true
      · rw [if_pos hr]
        cases hw : walkToSource (g.find_cheapest_path_dijkstra (f + 1)).1
            g.source (f + 1) g.sink with
        | none => exact h
        | some w =>
            dsimp only
            refine ih _ _ ?_
            exact conserv_augmentH_walk (parentProp_dijkstra g (f + 1)) hw h
      · rw [if_neg hr]
        exact h

theorem inflow_zero {g : Graph}
    (hz : ∀ pr ∈ g.adj, ∀ e ∈ pr.2, e.flow = 0) (p : Point) :
    inflow g p = 0 := by
  unfold inflow
  apply List.sum_eq_zero
  intro x hx
  rcases List.mem_map.mp hx with ⟨pr, hpr, rfl⟩
  apply List.sum_eq_zero
  intro y hy
  rcases List.mem_map.mp hy with ⟨e, he, rfl⟩
  exact hz pr hpr e (List.mem_of_mem_filter he)

theorem outflow_zero {g : Graph}
    (hz : ∀ pr ∈ g.adj, ∀ e ∈ pr.2, e.flow = 0) (p : Point) :
    outflow g p = 0 := by
  unfold outflow Graph.get_edges
  cases hl : lookupA g.adj p with
  | none => simp
  | some es =>
      simp only [Option.getD_some]
      apply List.sum_eq_zero
      intro y hy
      rcases List.mem_map.mp hy with ⟨e, he, rfl⟩
      exact hz (p, es) (lookupA_mem hl) e he

theorem conserv_of_zero {g : Graph}
    (hz : ∀ pr ∈ g.adj, ∀ e ∈ pr.2, e.flow = 0) : Conserv g := by
  intro p _ _
  rw [inflow_zero hz p, outflow_zero hz p]

end Net

end MomaSim

namespace MomaSim

namespace Net

/-- A small concrete network (diamond from source `(0,0)` to sink `(3,0)`),
built exactly as the repository's callers do: `Graph::new` then `add_edge`. -/
def demoGraph : Graph :=
  ((((Graph.new ⟨0, 0⟩ ⟨3, 0⟩).add_edge ⟨0, 0⟩ ⟨1, 0⟩ 10 1).add_edge
      ⟨0, 0⟩ ⟨2, 0⟩ 5 4).add_edge ⟨1, 0⟩ ⟨3, 0⟩ 7 1).add_edge
      ⟨2, 0⟩ ⟨3, 0⟩ 9 1

end Net

open Net in
/-- **C4** (invariants): after `edmonds_karp` returns (run with any fuel), on
any graph whose edges all start with `flow = 0`, every node other than the
source and the sink satisfies flow conservation: the total flow on its
incoming edges equals the total flow on its outgoing edges. -/
theorem C4_conservation (g : Graph) (fuel : ℕ)
    (hzero : ∀ pr ∈ g.adj, ∀ e ∈ pr.2, e.flow = 0) :
    Conserv (g.edmonds_karp fuel).2 :=
  conserv_ekLoop fuel g 0 (conserv_of_zero hzero)

open Net in
/-- Witness for C4 on a concrete diamond network. -/
theorem C4_conservation_witness : Conserv ((demoGraph.edmonds_karp 5).2) :=
  C4_conservation demoGraph 5 (by decide)

end MomaSim

namespace MomaSim

namespace Net

theorem flowLeCap_of_zero {g : Graph}
    (hz : ∀ pr ∈ g.adj, ∀ e ∈ pr.2, e.flow = 0) : FlowLeCap g := by
  intro pr hpr e he
  rw [hz pr hpr e he]
  exact Nat.zero_le _

theorem count_source_tail_dropLast (sink : Point) (t : List Point)
    (src : Point) (ht : t ≠ []) (hlast : (sink :: t).getLast? = some src)
    (hne : src ≠ sink) :
    t.count src = ((sink :: t).dropLast).count src + 1 := by
  have hlast2 : t.getLast? = some src := by
    cases t with
    | nil => exact absurd rfl ht
    | cons b t' =>
        rw [← List.getLast?_cons_cons]
        exact hlast
  have hsplit : t.dropLast ++ [src] = t := by
    have h1 := List.dropLast_append_getLast ht
    have h2 : t.getLast ht = src := by
      have h3 := List.getLast?_eq_getLast t ht
      rw [hlast2] at h3
      exact (Option.some.inj h3).symm
    rw [h2] at h1
    exact h1
  have hdrop : (sink :: t).dropLast = sink :: t.dropLast :=
    List.dropLast_cons_of_ne_nil ht
  have hns : ¬ (sink = src) := fun h => hne h.symm
  conv_lhs => rw [← hsplit]
  rw [hdrop]
  simp [List.count_append, List.count_cons, hns]

theorem netOut_augmentH_walk {g : Graph} {pm : List (Point × Point)}
    {fuel : ℕ} {w : List Point} {pf : ℕ}
    (hpp : ParentProp g pm) (hss : g.source ≠ g.sink)
    (hw : walkToSource pm g.source fuel g.sink = some w) :
    netOut (augmentH g (backHops w) pf) = netOut g + (pf : ℤ) := by
  unfold netOut
  rw [augmentH_source]
  have hex := hops_isSome hpp hw
  rw [inflow_augmentH g _ pf _ hex, outflow_augmentH g _ pf _ hex,
    backHops_map_fst, backHops_map_snd]
  rcases walk_head hw with ⟨t, rfl⟩
  have hlast := walk_last hw
  have ht : t ≠ [] := by
    intro h
    subst h
    have h2 : g.sink = g.source := by simpa using hlast
    exact hss h2.symm
  rw [List.tail_cons,
    count_source_tail_dropLast g.sink t g.source ht hlast hss]
  push_cast
  ring

theorem eraseFlows_ekLoop : ∀ (fuel : ℕ) (g : Graph) (acc : ℕ),
    eraseFlows (edmondsKarpLoop fuel g acc).2 = eraseFlows g := by
  intro fuel
  induction fuel with
  | zero =>
      intro g acc
      rfl
  | succ f ih =>
      intro g acc
      unfold edmondsKarpLoop
      dsimp only
      by_cases hr : (g.find_cheapest_path_dijkstra (f + 1)).2 = true
      · rw [if_pos hr]
        cases hw : walkToSource (g.find_cheapest_path_dijkstra (f + 1)).1
            g.source (f + 1) g.sink with
        | none => rfl
        | some w =>
            dsimp only
            rw [ih, eraseFlows_augmentH]
      · rw [if_neg hr]

theorem netOut_ekLoop : ∀ (fuel : ℕ) (g : Graph) (acc : ℕ),
    g.source ≠ g.sink →
    netOut (edmondsKarpLoop fuel g acc).2
      = netOut g + ((edmondsKarpLoop fuel g acc).1 : ℤ) - (acc : ℤ) := by
  intro fuel
  induction fuel with
  | zero =>
      intro g acc _
      dsimp [edmondsKarpLoop]
      ring
  | succ f ih =>
      intro g acc hss
      unfold edmondsKarpLoop
      dsimp only
      by_cases hr : (g.find_cheapest_path_dijkstra (f + 1)).2 = true
      · rw [if_pos hr]
        cases hw : walkToSource (g.find_cheapest_path_dijkstra (f + 1)).1
            g.source (f + 1) g.sink with
        | none =>
            dsimp only
            ring
        | some w =>
            dsimp only
            have hss2 : (augmentH g (backHops w)
                (bottleneckH g (backHops w))).source
                ≠ (augmentH g (backHops w) (bottleneckH g (backHops w))).sink := by
              rw [augmentH_source, augmentH_sink]
              exact hss
            rw [ih _ _ hss2,
              netOut_augmentH_walk (parentProp_dijkstra g (f + 1)) hss hw]
            push_cast
            ring
      · rw [if_neg hr]
        dsimp only
        ring

theorem netOut_zero {g : Graph}
    (hz : ∀ pr ∈ g.adj, ∀ e ∈ pr.2, e.flow = 0) : netOut g = 0 := by
  unfold netOut
  rw [inflow_zero hz, outflow_zero hz]
  ring

theorem conserv_of_nodes {g : Graph} {ns : List Point}
    (hkeys : ∀ pr ∈ g.adj, pr.1 ∈ ns)
    (htgts : ∀ pr ∈ g.adj, ∀ e ∈ pr.2, e.to' ∈ ns)
    (hloc : ∀ p ∈ ns, p ≠ g.source → p ≠ g.sink →
      inflow g p = outflow g p) :
    Conserv g := by
  intro p hp1 hp2
  by_cases hmem : p ∈ ns
  · exact hloc p hmem hp1 hp2
  · have hin : inflow g p = 0 := by
      unfold inflow
      apply List.sum_eq_zero
      intro x hx
      rcases List.mem_map.mp hx with ⟨pr, hpr, rfl⟩
      have hfil : pr.2.filter (fun e => e.to' = p) = [] := by
        rw [List.filter_eq_nil_iff]
        intro e he
        simp only [decide_eq_true_eq]
        intro hc
        exact hmem (hc ▸ htgts pr hpr e he)
      rw [hfil]
      rfl
    have hout : outflow g p = 0 := by
      unfold outflow Graph.get_edges
      cases hl : lookupA g.adj p with
      | none => simp
      | some es => exact absurd (hkeys (p, es) (lookupA_mem hl)) hmem
    rw [hin, hout]

end Net

end MomaSim

namespace MomaSim

namespace Net

/-- A network on source `s = (0,0)`, sink `t = (2,0)`, `a = (1,0)`,
`b = (1,1)`: edges `s→a` (cap 1, cost 0), `a→t` (cap 1, cost 10),
`a→b` (cap 1, cost 0), `s→b` (cap 1, cost 10), `b→t` (cap 1, cost 0).
Its true maximum flow is 2 (`s→a→t` and `s→b→t`), but the cost-greedy
augmentation first saturates `s→a→b→t` and then finds no second path
(there are no residual edges). -/
def cexGraph : Graph :=
  (((((Graph.new ⟨0, 0⟩ ⟨2, 0⟩).add_edge ⟨0, 0⟩ ⟨1, 0⟩ 1 0).add_edge
      ⟨1, 0⟩ ⟨2, 0⟩ 1 10).add_edge ⟨1, 0⟩ ⟨1, 1⟩ 1 0).add_edge
      ⟨0, 0⟩ ⟨1, 1⟩ 1 10).add_edge ⟨1, 1⟩ ⟨2, 0⟩ 1 0

/-- A feasible flow of value 2 on the skeleton of `cexGraph`: one unit along
`s→a→t` and one along `s→b→t`. -/
def cexFlow : Graph :=
  ⟨[(⟨0, 0⟩, [Edge.mk ⟨1, 0⟩ 1 0 1, Edge.mk ⟨1, 1⟩ 1 10 1]),
    (⟨1, 0⟩, [Edge.mk ⟨2, 0⟩ 1 10 1, Edge.mk ⟨1, 1⟩ 1 0 0]),
    (⟨2, 0⟩, []),
    (⟨1, 1⟩, [Edge.mk ⟨2, 0⟩ 1 0 1])],
    ⟨0, 0⟩, ⟨2, 0⟩⟩

end Net

open Net in
/-- **C2** counterexample: on `cexGraph`, `edmonds_karp` (with ample fuel)
returns 1, yet `cexFlow` is a feasible flow on the same capacity/cost
skeleton — it respects capacities and conserves flow at internal nodes — with
net outflow 2 from the source.  So the returned value is not the maximum over
all feasible flows of the net flow out of the source: the search has no
residual (reverse) edges, and its cost-guided choice of augmenting path makes
it under-deliver. -/
theorem C2_counterexample :
    (cexGraph.edmonds_karp 6).1 = 1 ∧
    eraseFlows cexFlow = eraseFlows cexGraph ∧
    FlowLeCap cexFlow ∧ Conserv cexFlow ∧ netOut cexFlow = 2 := by
  refine ⟨?_, by decide, ?_, ?_, by decide⟩
  · norm_num [Graph.edmonds_karp, edmondsKarpLoop,
      Graph.find_cheapest_path_dijkstra, dijkstraLoop, popMax, maxEntry,
      pairLtb, relaxOne, Graph.get_edges, lookupA, insertA, updateA,
      walkToSource, bottleneckH, backHops, consecutivePairs, findEdge,
      updateFirst, augmentEdge, augmentH, cexGraph, Graph.new, Graph.add_edge,
      Graph.add_node, pointLtb]
  · exact show ∀ pr ∈ cexFlow.adj, ∀ e ∈ pr.2, e.flow ≤ e.capacity by decide
  · exact @conserv_of_nodes cexFlow [⟨0, 0⟩, ⟨1, 0⟩, ⟨1, 1⟩, ⟨2, 0⟩]
      (by decide) (by decide) (by decide)

open Net in
/-- **C2** (amended): on any graph whose edges all start with `flow = 0` and
whose source and sink differ, `edmonds_karp` (any fuel) leaves a feasible
flow on the unchanged capacity/cost skeleton — capacities respected, flow
conserved at internal nodes — whose net outflow from the source equals the
returned value; consequently the returned value is at most the true maximum
flow (any upper bound on all feasible flows bounds it).  It can be strictly
below the maximum, as `C2_counterexample` shows. -/
theorem C2_flow_value_amended (g : Graph) (fuel : ℕ)
    (hzero : ∀ pr ∈ g.adj, ∀ e ∈ pr.2, e.flow = 0)
    (hss : g.source ≠ g.sink) :
    eraseFlows (g.edmonds_karp fuel).2 = eraseFlows g ∧
    FlowLeCap (g.edmonds_karp fuel).2 ∧
    Conserv (g.edmonds_karp fuel).2 ∧
    netOut (g.edmonds_karp fuel).2 = ((g.edmonds_karp fuel).1 : ℤ) ∧
    (∀ M : ℤ, IsFlowUB g M → ((g.edmonds_karp fuel).1 : ℤ) ≤ M) := by
  have h1 : eraseFlows (g.edmonds_karp fuel).2 = eraseFlows g :=
    eraseFlows_ekLoop fuel g 0
  have h2 : FlowLeCap (g.edmonds_karp fuel).2 :=
    flowLeCap_ekLoop fuel g 0 (flowLeCap_of_zero hzero)
  have h3 : Conserv (g.edmonds_karp fuel).2 :=
    conserv_ekLoop fuel g 0 (conserv_of_zero hzero)
  have h4 : netOut (g.edmonds_karp fuel).2 = ((g.edmonds_karp fuel).1 : ℤ) := by
    have h5 := netOut_ekLoop fuel g 0 hss
    rw [netOut_zero hzero] at h5
    simpa using h5
  refine ⟨h1, h2, h3, h4, fun M hub => ?_⟩
  rw [← h4]
  exact hub _ h1 h2 h3

open Net in
/-- Witness for the amended C2 on the concrete diamond network. -/
theorem C2_flow_value_amended_witness :
    eraseFlows (demoGraph.edmonds_karp 8).2 = eraseFlows demoGraph ∧
    FlowLeCap (demoGraph.edmonds_karp 8).2 ∧
    Conserv (demoGraph.edmonds_karp 8).2 ∧
    netOut (demoGraph.edmonds_karp 8).2 = ((demoGraph.edmonds_karp 8).1 : ℤ) ∧
    (∀ M : ℤ, IsFlowUB demoGraph M →
      ((demoGraph.edmonds_karp 8).1 : ℤ) ≤ M) :=
  C2_flow_value_amended demoGraph 8 (by decide) (by decide)

end MomaSim

namespace MomaSim

namespace AStar

/-! ## A* on the grid

Embedding of `src/grid.rs` and `src/pathfinding.rs`.  `usize` coordinates are
naturals, the `u32` costs are naturals, the `i32`/`isize` casts in
`manhattan_distance` and `neighbors` are integers.  The two `HashMap`s are
association lists as in the network embedding; the `BinaryHeap<Node>` (whose
`Ord` reverses the comparison of `cost + heuristic`) pops some node of
minimal `cost + heuristic` — modelled as the first such node in insertion
order.  The unbounded `while let Some(current) = frontier.pop()` loop and the
path-reconstruction loop carry fuel; the correctness theorem computes a fuel
that provably suffices. -/

/-- `grid::Cell`. -/
inductive Cell
  | Blocked
  | Free
  | Path
deriving DecidableEq, Repr

/-- `grid::Grid` (row-major cells). -/
structure Grid where
  width : ℕ
  height : ℕ
  cells : List Cell
deriving DecidableEq, Repr

/-- `grid[point]`: `cells[point.y * width + point.x]` (the Rust index panics
out of range; all in-algorithm accesses are bounds-checked by `neighbors`). -/
def Grid.cellAt (g : Grid) (p : Point) : Cell :=
  g.cells.getD (p.y * g.width + p.x) Cell.Blocked

/-- `Grid::neighbors`: the four offsets, bounds-checked, non-`Blocked`. -/
def Grid.neighbors (g : Grid) (p : Point) : List Point :=
  ([(-1, 0), (1, 0), (0, -1), (0, 1)] : List (ℤ × ℤ)).filterMap fun d =>
    if 0 ≤ (p.x : ℤ) + d.1 ∧ (p.x : ℤ) + d.1 < (g.width : ℤ) ∧
        0 ≤ (p.y : ℤ) + d.2 ∧ (p.y : ℤ) + d.2 < (g.height : ℤ) then
      if g.cellAt ⟨((p.x : ℤ) + d.1).toNat, ((p.y : ℤ) + d.2).toNat⟩
          ≠ Cell.Blocked then
        some ⟨((p.x : ℤ) + d.1).toNat, ((p.y : ℤ) + d.2).toNat⟩
      else none
    else none

/-- `pathfinding::manhattan_distance`. -/
def manhattan_distance (a b : Point) : ℕ :=
  ((a.x : ℤ) - b.x).natAbs + ((a.y : ℤ) - b.y).natAbs

/-- `pathfinding::Node`. -/
structure Node where
  point : Point
  cost : ℕ
  heuristic : ℕ
deriving DecidableEq, Repr

/-- `Node`'s reversed `Ord`: `a < b` iff `b.cost + b.heuristic <
a.cost + a.heuristic`. -/
def nodeLtb (a b : Node) : Bool :=
  decide (b.cost + b.heuristic < a.cost + a.heuristic)

/-- A maximal node of the heap contents (first among equals), i.e. one of
minimal `cost + heuristic`. -/
def maxNode : List Node → Option Node
  | [] => none
  | e :: rest =>
      match maxNode rest with
      | none => some e
      | some m => if nodeLtb e m then some m else some e

/-- `BinaryHeap::pop`. -/
def popNode (l : List Node) : Option (Node × List Node) :=
  (maxNode l).map fun m => (m, l.erase m)

/-- The mutable state of `a_star`. -/
structure AState where
  frontier : List Node
  came_from : List (Point × Point)
  cost_so_far : List (Point × ℕ)
deriving Repr

/-- The body of `a_star`'s inner `for next_point in grid.neighbors(..)` loop:
`new_cost = cost_so_far[&current.point] + 1`; on a missing or improved entry,
record the cost, push a frontier node with the Manhattan priority, and record
the parent. -/
def relaxNeighbor (goal cur : Point) (st : AState) (next : Point) : AState :=
  let new_cost := (Net.lookupA st.cost_so_far cur).getD 0 + 1
  match Net.lookupA st.cost_so_far next with
  | none =>
      { frontier :=
          st.frontier ++ [⟨next, new_cost, manhattan_distance next goal⟩],
        came_from := Net.insertA st.came_from next cur,
        cost_so_far := Net.insertA st.cost_so_far next new_cost }
  | some c =>
      if new_cost < c then
        { frontier :=
            st.frontier ++ [⟨next, new_cost, manhattan_distance next goal⟩],
          came_from := Net.insertA st.came_from next cur,
          cost_so_far := Net.insertA st.cost_so_far next new_cost }
      else st

/-- The `while let Some(current) = frontier.pop()` loop of `a_star`, fuelled.
On popping the goal it reconstructs the path by following `came_from` back to
`start` (the `while curr != start` loop — `Net.walkToSource` — yields
`[goal, …, start]`) and reverses it. -/
def aStarLoop (g : Grid) (start goal : Point) :
    ℕ → AState → Option (List Point)
  | 0, _ => none
  | fuel + 1, st =>
      match popNode st.frontier with
      | none => none
      | some (current, rest) =>
          if current.point = goal then
            (Net.walkToSource st.came_from start (fuel + 1) goal).map List.reverse
          else
            aStarLoop g start goal fuel
              ((g.neighbors current.point).foldl
                (relaxNeighbor goal current.point)
                { st with frontier := rest })

/-- `pathfinding::a_star`, fuelled. -/
def a_star (g : Grid) (start goal : Point) (fuel : ℕ) :
    Option (List Point) :=
  aStarLoop g start goal fuel
    { frontier := [⟨start, 0, manhattan_distance start goal⟩],
      came_from := [],
      cost_so_far := [(start, 0)] }

/-- Walks of the search graph: `Reach g start p n` holds when there is a walk
of exactly `n` unit moves from `start` to `p` through `neighbors` (in-bounds,
non-`Blocked` targets). -/
inductive Reach (g : Grid) (start : Point) : Point → ℕ → Prop
  | refl : Reach g start start 0
  | step {p q : Point} {n : ℕ} : Reach g start p n → q ∈ g.neighbors p →
      Reach g start q (n + 1)

/-- The goal is reachable from the start. -/
def Reachable (g : Grid) (start goal : Point) : Prop :=
  ∃ n, Reach g start goal n

/-- The true shortest-path cost (number of unit moves). -/
noncomputable def dist (g : Grid) (start goal : Point) : ℕ :=
  sInf {n | Reach g start goal n}

/-- One more than the number of grid cells: bounds the number of distinct
`cost_so_far` keys (in-grid points plus possibly an out-of-grid start). -/
def nBound (g : Grid) : ℕ := g.width * g.height + 1

/-- Termination potential of a search state. -/
def phi (N : ℕ) (st : AState) : ℕ :=
  st.frontier.length + 2 * ((st.cost_so_far.map Prod.snd).sum)
    + 2 * N * (N - st.cost_so_far.length)

/-- A provably sufficient fuel for `a_star`'s loop. -/
def astarFuel (g : Grid) : ℕ :=
  2 * nBound g * nBound g + nBound g + 2

/-- All invariants of the `a_star` loop state. -/
structure Inv (g : Grid) (start goal : Point) (st : AState) : Prop where
  hS : ∀ nd ∈ st.frontier, ∃ c ≤ nd.cost,
    Net.lookupA st.cost_so_far nd.point = some c
  hH : ∀ nd ∈ st.frontier, nd.heuristic = manhattan_distance nd.point goal
  hGS : ∀ z c, Net.lookupA st.cost_so_far z = some c →
    (∃ nd ∈ st.frontier, nd.point = z ∧ nd.cost ≤ c) ∨
    (∀ q ∈ g.neighbors z, ∃ cq ≤ c + 1, Net.lookupA st.cost_so_far q = some cq)
  hA1 : Net.lookupA st.cost_so_far start = some 0
  hA2 : ∀ z c, Net.lookupA st.cost_so_far z = some c → Reach g start z c
  hA3 : ∀ z p, Net.lookupA st.came_from z = some p → z ∈ g.neighbors p ∧
    ∃ cz cp, Net.lookupA st.cost_so_far z = some cz ∧
      Net.lookupA st.cost_so_far p = some cp ∧ cp < cz
  hA5 : ∀ z c, Net.lookupA st.cost_so_far z = some c → z ≠ start →
    (Net.lookupA st.came_from z).isSome
  hKsub : ∀ z ∈ st.cost_so_far.map Prod.fst, z = start ∨
    (z.x < g.width ∧ z.y < g.height)
  hKnd : (st.cost_so_far.map Prod.fst).Nodup
  hV : ∀ z c, Net.lookupA st.cost_so_far z = some c →
    c + 1 ≤ st.cost_so_far.length
  hGW : ∀ c, Net.lookupA st.cost_so_far goal = some c →
    ∃ nd ∈ st.frontier, nd.point = goal

end AStar

end MomaSim

namespace MomaSim

namespace AStar

theorem mem_neighbors_elim {g : Grid} {p q : Point} (h : q ∈ g.neighbors p) :
    ∃ d ∈ ([(-1, 0), (1, 0), (0, -1), (0, 1)] : List (ℤ × ℤ)),
      0 ≤ (p.x : ℤ) + d.1 ∧ (p.x : ℤ) + d.1 < g.width ∧
      0 ≤ (p.y : ℤ) + d.2 ∧ (p.y : ℤ) + d.2 < g.height ∧
      (q.x : ℤ) = (p.x : ℤ) + d.1 ∧ (q.y : ℤ) = (p.y : ℤ) + d.2 := by
  rcases List.mem_filterMap.mp h with ⟨d, hd, hfd⟩
  refine ⟨d, hd, ?_⟩
  by_cases h1 : 0 ≤ (p.x : ℤ) + d.1 ∧ (p.x : ℤ) + d.1 < (g.width : ℤ) ∧
      0 ≤ (p.y : ℤ) + d.2 ∧ (p.y : ℤ) + d.2 < (g.height : ℤ)
  · rw [if_pos h1] at hfd
    by_cases h2 : g.cellAt
        ⟨((p.x : ℤ) + d.1).toNat, ((p.y : ℤ) + d.2).toNat⟩ ≠ Cell.Blocked
    · rw [if_pos h2] at hfd
      obtain rfl :
          (⟨((p.x : ℤ) + d.1).toNat, ((p.y : ℤ) + d.2).toNat⟩ : Point) = q :=
        Option.some.inj hfd
      obtain ⟨ha, hb, hc, hd2⟩ := h1
      exact ⟨ha, hb, hc, hd2, by simp [Int.toNat_of_nonneg ha],
        by simp [Int.toNat_of_nonneg hc]⟩
    · rw [if_neg h2] at hfd
      exact absurd hfd (by simp)
  · rw [if_neg h1] at hfd
    exact absurd hfd (by simp)

theorem mem_neighbors_bounds {g : Grid} {p q : Point}
    (h : q ∈ g.neighbors p) : q.x < g.width ∧ q.y < g.height := by
  rcases mem_neighbors_elim h with ⟨d, _, _, hb, _, hd2, hx, hy⟩
  constructor <;> omega

theorem mem_neighbors_ne {g : Grid} {p q : Point}
    (h : q ∈ g.neighbors p) : q ≠ p := by
  rcases mem_neighbors_elim h with ⟨d, hd, ha, _, hc, _, hx, hy⟩
  intro heq
  subst heq
  simp only [List.mem_cons, List.not_mem_nil, or_false] at hd
  rcases hd with rfl | rfl | rfl | rfl <;> dsimp only at hx hy <;> omega

theorem manhattan_lipschitz {g : Grid} {p q : Point}
    (h : q ∈ g.neighbors p) (b : Point) :
    manhattan_distance p b ≤ manhattan_distance q b + 1 := by
  rcases mem_neighbors_elim h with ⟨d, hd, ha, _, hc, _, hx, hy⟩
  unfold manhattan_distance
  simp only [List.mem_cons, List.not_mem_nil, or_false] at hd
  rcases hd with rfl | rfl | rfl | rfl <;> dsimp only at hx hy <;> omega

/-- The in-grid points, enumerated row-major. -/
def gridPts (g : Grid) : List Point :=
  (List.range (g.width * g.height)).map fun i => ⟨i % g.width, i / g.width⟩

theorem mem_gridPts {g : Grid} {z : Point} (hx : z.x < g.width)
    (hy : z.y < g.height) : z ∈ gridPts g := by
  unfold gridPts
  refine List.mem_map.mpr ⟨z.y * g.width + z.x, ?_, ?_⟩
  · rw [List.mem_range]
    calc z.y * g.width + z.x < z.y * g.width + g.width := by omega
      _ = (z.y + 1) * g.width := by ring
      _ ≤ g.height * g.width := Nat.mul_le_mul_right _ hy
      _ = g.width * g.height := Nat.mul_comm _ _
  · have h1 : (z.y * g.width + z.x) % g.width = z.x := by
      rw [Nat.add_comm, Nat.add_mul_mod_self_right, Nat.mod_eq_of_lt hx]
    have h2 : (z.y * g.width + z.x) / g.width = z.y := by
      rw [Nat.add_comm, Nat.add_mul_div_right _ _ (by omega : 0 < g.width),
        Nat.div_eq_of_lt hx, Nat.zero_add]
    obtain ⟨zx, zy⟩ := z
    simp only at h1 h2 hx hy
    rw [h1, h2]

theorem keys_length_le {g : Grid} {start : Point} {keys : List Point}
    (hnd : keys.Nodup)
    (hsub : ∀ z ∈ keys, z = start ∨ (z.x < g.width ∧ z.y < g.height)) :
    keys.length ≤ nBound g := by
  have hsub2 : keys ⊆ start :: gridPts g := by
    intro z hz
    rcases hsub z hz with rfl | ⟨hx, hy⟩
    · exact List.mem_cons_self _ _
    · exact List.mem_cons_of_mem _ (mem_gridPts hx hy)
  have hlen2 : (start :: gridPts g).length = nBound g := by
    simp [gridPts, nBound, Nat.add_comm]
  calc keys.length ≤ (start :: gridPts g).length :=
        (List.subperm_of_subset hnd hsub2).length_le
    _ = nBound g := hlen2

end AStar

end MomaSim


namespace MomaSim

namespace AStar

theorem maxNode_cons_isSome (e : Node) (rest : List Node) :
    (maxNode (e :: rest)).isSome := by
  unfold maxNode
  cases hr : maxNode rest with
  | none => rfl
  | some m =>
      dsimp only
      by_cases h : nodeLtb e m = true
      · rw [if_pos h]
        rfl
      · rw [if_neg h]
        rfl

theorem maxNode_mem : ∀ {l : List Node} {m : Node},
    maxNode l = some m → m ∈ l := by
  intro l
  induction l with
  | nil =>
      intro m h
      exact absurd h (by simp [maxNode])
  | cons e rest ih =>
      intro m h
      unfold maxNode at h
      cases hr : maxNode rest with
      | none =>
          rw [hr] at h
          exact (Option.some.inj h) ▸ List.mem_cons_self _ _
      | some m' =>
          rw [hr] at h
          dsimp only at h
          by_cases hlt : nodeLtb e m' = true
          · rw [if_pos hlt] at h
            exact List.mem_cons_of_mem _ ((Option.some.inj h) ▸ ih hr)
          · rw [if_neg hlt] at h
            exact (Option.some.inj h) ▸ List.mem_cons_self _ _

theorem maxNode_min : ∀ {l : List Node} {m : Node}, maxNode l = some m →
    ∀ nd ∈ l, m.cost + m.heuristic ≤ nd.cost + nd.heuristic := by
  intro l
  induction l with
  | nil =>
      intro m h
      exact absurd h (by simp [maxNode])
  | cons e rest ih =>
      intro m h nd hnd
      unfold maxNode at h
      cases hr : maxNode rest with
      | none =>
          rw [hr] at h
          obtain rfl : e = m := Option.some.inj h
          have hrest : rest = [] := by
            cases rest with
            | nil => rfl
            | cons a t =>
                have h2 := maxNode_cons_isSome a t
                rw [hr] at h2
                exact absurd h2 (by simp)
          rw [hrest] at hnd
          obtain rfl : nd = e := by simpa using hnd
          exact le_refl _
      | some m' =>
          rw [hr] at h
          dsimp only at h
          by_cases hlt : nodeLtb e m' = true
          · rw [if_pos hlt] at h
            have heq : m' = m := Option.some.inj h
            have h0 : m'.cost + m'.heuristic < e.cost + e.heuristic := by
              unfold nodeLtb at hlt
              exact of_decide_eq_true hlt
            rw [← heq]
            rcases List.mem_cons.mp hnd with heq2 | hnd'
            · rw [heq2]
              omega
            · exact ih hr nd hnd'
          · rw [if_neg hlt] at h
            have heq : e = m := Option.some.inj h
            have h0 : ¬ (m'.cost + m'.heuristic < e.cost + e.heuristic) := by
              intro hc
              unfold nodeLtb at hlt
              exact hlt (decide_eq_true hc)
            rw [← heq]
            rcases List.mem_cons.mp hnd with heq2 | hnd'
            · rw [heq2]
            · have h1 := ih hr nd hnd'
              omega

theorem popNode_elim {l : List Node} {m : Node} {rest : List Node}
    (h : popNode l = some (m, rest)) :
    maxNode l = some m ∧ rest = l.erase m := by
  unfold popNode at h
  rcases Option.map_eq_some'.mp h with ⟨m', hm', heq⟩
  have h1 : m' = m := congrArg Prod.fst heq
  have h2 : l.erase m' = rest := congrArg Prod.snd heq
  subst h1
  exact ⟨hm', h2.symm⟩

theorem popNode_none {l : List Node} (h : popNode l = none) : l = [] := by
  unfold popNode at h
  cases l with
  | nil => rfl
  | cons e rest =>
      rw [Option.map_eq_none'] at h
      have h2 := maxNode_cons_isSome e rest
      rw [h] at h2
      exact absurd h2 (by simp)

theorem lookupA_none_iff {α : Type*} {m : List (Point × α)} {k : Point} :
    Net.lookupA m k = none ↔ k ∉ m.map Prod.fst := by
  induction m with
  | nil => simp [Net.lookupA]
  | cons pr rest ih =>
      obtain ⟨q, w⟩ := pr
      rw [Net.lookupA]
      by_cases hq : q = k
      · subst hq
        simp
      · rw [if_neg hq]
        simp only [List.map_cons, List.mem_cons]
        rw [ih]
        constructor
        · intro h1 h2
          rcases h2 with h2 | h2
          · exact hq h2.symm
          · exact h1 h2
        · intro h1 h2
          exact h1 (Or.inr h2)

theorem insertA_map_fst {α : Type*} (m : List (Point × α)) (k : Point)
    (v : α) :
    (Net.insertA m k v).map Prod.fst =
      if (Net.lookupA m k).isSome then m.map Prod.fst
      else m.map Prod.fst ++ [k] := by
  induction m with
  | nil => simp [Net.insertA, Net.lookupA]
  | cons pr rest ih =>
      obtain ⟨q, w⟩ := pr
      rw [Net.insertA, Net.lookupA]
      by_cases hq : q = k
      · subst hq
        rw [if_pos rfl, if_pos rfl]
        simp
      · rw [if_neg hq, if_neg hq]
        simp only [List.map_cons, ih]
        by_cases hs : (Net.lookupA rest k).isSome = true
        · rw [if_pos hs, if_pos hs]
        · rw [if_neg hs, if_neg hs]
          rfl

theorem insertA_length {α : Type*} (m : List (Point × α)) (k : Point)
    (v : α) :
    (Net.insertA m k v).length =
      if (Net.lookupA m k).isSome then m.length else m.length + 1 := by
  by_cases hs : (Net.lookupA m k).isSome = true
  · rw [if_pos hs]
    have h1 := congrArg List.length (insertA_map_fst m k v)
    rw [if_pos hs] at h1
    simpa using h1
  · rw [if_neg hs]
    have h1 := congrArg List.length (insertA_map_fst m k v)
    rw [if_neg hs] at h1
    simpa using h1

theorem insertA_snd_sum {m : List (Point × ℕ)} {k : Point} {c : ℕ} (v : ℕ)
    (hk : Net.lookupA m k = some c) :
    ((Net.insertA m k v).map Prod.snd).sum + c
      = (m.map Prod.snd).sum + v := by
  induction m with
  | nil => simp [Net.lookupA] at hk
  | cons pr rest ih =>
      obtain ⟨q, w⟩ := pr
      rw [Net.lookupA] at hk
      rw [Net.insertA]
      by_cases hq : q = k
      · rw [if_pos hq] at hk
        obtain rfl : w = c := Option.some.inj hk
        rw [if_pos hq]
        simp only [List.map_cons, List.sum_cons]
        omega
      · rw [if_neg hq] at hk
        rw [if_neg hq]
        simp only [List.map_cons, List.sum_cons]
        have h2 := ih hk
        omega

theorem insertA_snd_sum_none {m : List (Point × ℕ)} {k : Point} (v : ℕ)
    (hk : Net.lookupA m k = none) :
    ((Net.insertA m k v).map Prod.snd).sum = (m.map Prod.snd).sum + v := by
  induction m with
  | nil => simp [Net.insertA]
  | cons pr rest ih =>
      obtain ⟨q, w⟩ := pr
      rw [Net.lookupA] at hk
      rw [Net.insertA]
      by_cases hq : q = k
      · rw [if_pos hq] at hk
        exact absurd hk (by simp)
      · rw [if_neg hq] at hk
        rw [if_neg hq]
        simp only [List.map_cons, List.sum_cons]
        rw [ih hk]
        omega

end AStar

end MomaSim

namespace MomaSim

namespace AStar

theorem relaxNeighbor_cases (goal cur : Point) (st : AState) (next : Point) :
    (relaxNeighbor goal cur st next = st ∧
      ∃ c, Net.lookupA st.cost_so_far next = some c ∧
        ¬ ((Net.lookupA st.cost_so_far cur).getD 0 + 1 < c)) ∨
    (relaxNeighbor goal cur st next =
      { frontier := st.frontier ++
          [⟨next, (Net.lookupA st.cost_so_far cur).getD 0 + 1,
            manhattan_distance next goal⟩],
        came_from := Net.insertA st.came_from next cur,
        cost_so_far := Net.insertA st.cost_so_far next
          ((Net.lookupA st.cost_so_far cur).getD 0 + 1) } ∧
      (∀ c, Net.lookupA st.cost_so_far next = some c →
        (Net.lookupA st.cost_so_far cur).getD 0 + 1 < c)) := by
  unfold relaxNeighbor
  dsimp only
  cases hl : Net.lookupA st.cost_so_far next with
  | none =>
      right
      refine ⟨rfl, fun c hc => ?_⟩
      exact absurd hc (by simp)
  | some c =>
      dsimp only
      by_cases hlt : (Net.lookupA st.cost_so_far cur).getD 0 + 1 < c
      · rw [if_pos hlt]
        right
        refine ⟨rfl, fun c' hc' => ?_⟩
        exact (Option.some.inj hc') ▸ hlt
      · rw [if_neg hlt]
        left
        exact ⟨rfl, c, rfl, hlt⟩

theorem relaxStep_untouched (goal cur : Point) (st : AState) (next z : Point)
    (hz : z ≠ next) :
    Net.lookupA (relaxNeighbor goal cur st next).cost_so_far z
      = Net.lookupA st.cost_so_far z ∧
    Net.lookupA (relaxNeighbor goal cur st next).came_from z
      = Net.lookupA st.came_from z := by
  rcases relaxNeighbor_cases goal cur st next with ⟨heq, _⟩ | ⟨heq, _⟩
  · rw [heq]
    exact ⟨rfl, rfl⟩
  · rw [heq]
    dsimp only
    rw [Net.lookupA_insertA, Net.lookupA_insertA,
      if_neg (fun h => hz h.symm), if_neg (fun h => hz h.symm)]
    exact ⟨rfl, rfl⟩

theorem relaxStep_mono (goal cur : Point) (st : AState) (next : Point) :
    ∀ z c, Net.lookupA st.cost_so_far z = some c →
      ∃ c' ≤ c,
        Net.lookupA (relaxNeighbor goal cur st next).cost_so_far z
          = some c' := by
  intro z c hc
  by_cases hz : z = next
  · subst hz
    rcases relaxNeighbor_cases goal cur st z with ⟨heq, _⟩ | ⟨heq, himp⟩
    · rw [heq]
      exact ⟨c, le_refl _, hc⟩
    · rw [heq]
      dsimp only
      rw [Net.lookupA_insertA, if_pos rfl]
      exact ⟨_, le_of_lt (himp c hc), rfl⟩
  · rw [(relaxStep_untouched goal cur st next z hz).1]
    exact ⟨c, le_refl _, hc⟩

theorem relaxFold_mono (goal cur : Point) :
    ∀ (l : List Point) (st : AState) (z : Point) (c : ℕ),
      Net.lookupA st.cost_so_far z = some c →
      ∃ c' ≤ c,
        Net.lookupA (l.foldl (relaxNeighbor goal cur) st).cost_so_far z
          = some c' := by
  intro l
  induction l with
  | nil =>
      intro st z c hc
      exact ⟨c, le_refl _, hc⟩
  | cons q rest ih =>
      intro st z c hc
      rcases relaxStep_mono goal cur st q z c hc with ⟨c1, hc1, hl1⟩
      rcases ih (relaxNeighbor goal cur st q) z c1 hl1 with ⟨c2, hc2, hl2⟩
      exact ⟨c2, le_trans hc2 hc1, hl2⟩

theorem relaxFold_untouched (goal cur : Point) :
    ∀ (l : List Point) (st : AState) (z : Point), z ∉ l →
      Net.lookupA (l.foldl (relaxNeighbor goal cur) st).cost_so_far z
        = Net.lookupA st.cost_so_far z ∧
      Net.lookupA (l.foldl (relaxNeighbor goal cur) st).came_from z
        = Net.lookupA st.came_from z := by
  intro l
  induction l with
  | nil =>
      intro st z _
      exact ⟨rfl, rfl⟩
  | cons q rest ih =>
      intro st z hz
      have hzq : z ≠ q := fun h => hz (h ▸ List.mem_cons_self _ _)
      have hzr : z ∉ rest := fun h => hz (List.mem_cons_of_mem _ h)
      obtain ⟨h1, h2⟩ := relaxStep_untouched goal cur st q z hzq
      obtain ⟨h3, h4⟩ := ih (relaxNeighbor goal cur st q) z hzr
      exact ⟨h3.trans h1, h4.trans h2⟩

theorem relaxFold_frontier (goal cur : Point) :
    ∀ (l : List Point) (st : AState),
      ∃ tl, (l.foldl (relaxNeighbor goal cur) st).frontier
        = st.frontier ++ tl := by
  intro l
  induction l with
  | nil =>
      intro st
      exact ⟨[], (List.append_nil _).symm⟩
  | cons q rest ih =>
      intro st
      show ∃ tl, (rest.foldl (relaxNeighbor goal cur)
          (relaxNeighbor goal cur st q)).frontier = st.frontier ++ tl
      rcases ih (relaxNeighbor goal cur st q) with ⟨tl, htl⟩
      rcases relaxNeighbor_cases goal cur st q with ⟨heq, _⟩ | ⟨heq, _⟩
      · rw [heq] at htl ⊢
        exact ⟨tl, htl⟩
      · rw [heq] at htl ⊢
        dsimp only at htl
        rw [List.append_assoc] at htl
        exact ⟨_, htl⟩

theorem relaxFold_relax (goal cur : Point) :
    ∀ (l : List Point) (st : AState), cur ∉ l →
      ∀ q ∈ l, ∃ c ≤ (Net.lookupA st.cost_so_far cur).getD 0 + 1,
        Net.lookupA (l.foldl (relaxNeighbor goal cur) st).cost_so_far q
          = some c := by
  intro l
  induction l with
  | nil =>
      intro st _ q hq
      exact absurd hq (by simp)
  | cons q0 rest ih =>
      intro st hcur q hq
      have hc0 : cur ≠ q0 := fun h => hcur (h ▸ List.mem_cons_self _ _)
      have hcr : cur ∉ rest := fun h => hcur (List.mem_cons_of_mem _ h)
      have hstable : Net.lookupA
          (relaxNeighbor goal cur st q0).cost_so_far cur
          = Net.lookupA st.cost_so_far cur :=
        (relaxStep_untouched goal cur st q0 cur hc0).1
      rcases List.mem_cons.mp hq with rfl | hq'
      · have hstep : ∃ c ≤ (Net.lookupA st.cost_so_far cur).getD 0 + 1,
            Net.lookupA (relaxNeighbor goal cur st q).cost_so_far q
              = some c := by
          rcases relaxNeighbor_cases goal cur st q with
            ⟨heq, c, hc, hnlt⟩ | ⟨heq, _⟩
          · rw [heq]
            exact ⟨c, by omega, hc⟩
          · rw [heq]
            dsimp only
            rw [Net.lookupA_insertA, if_pos rfl]
            exact ⟨_, le_refl _, rfl⟩
        rcases hstep with ⟨c, hcle, hc⟩
        rcases relaxFold_mono goal cur rest _ q c hc with ⟨c', hc'le, hc'⟩
        exact ⟨c', le_trans hc'le hcle, hc'⟩
      · have h2 := ih (relaxNeighbor goal cur st q0) hcr q hq'
        rw [hstable] at h2
        exact h2

end AStar

end MomaSim

namespace MomaSim

namespace AStar

theorem relaxFold_changed (goal cur : Point) :
    ∀ (l : List Point) (st : AState), cur ∉ l → ∀ z : Point,
      (Net.lookupA (l.foldl (relaxNeighbor goal cur) st).cost_so_far z
          = Net.lookupA st.cost_so_far z ∧
       Net.lookupA (l.foldl (relaxNeighbor goal cur) st).came_from z
          = Net.lookupA st.came_from z) ∨
      (z ∈ l ∧
       Net.lookupA (l.foldl (relaxNeighbor goal cur) st).cost_so_far z
          = some ((Net.lookupA st.cost_so_far cur).getD 0 + 1) ∧
       Net.lookupA (l.foldl (relaxNeighbor goal cur) st).came_from z
          = some cur ∧
       (⟨z, (Net.lookupA st.cost_so_far cur).getD 0 + 1,
          manhattan_distance z goal⟩ : Node)
         ∈ (l.foldl (relaxNeighbor goal cur) st).frontier ∧
       (∀ c0, Net.lookupA st.cost_so_far z = some c0 →
          (Net.lookupA st.cost_so_far cur).getD 0 + 1 < c0)) := by
  intro l
  induction l with
  | nil =>
      intro st _ z
      exact Or.inl ⟨rfl, rfl⟩
  | cons q0 rest ih =>
      intro st hcur z
      have hc0 : cur ≠ q0 := fun h => hcur (h ▸ List.mem_cons_self _ _)
      have hcr : cur ∉ rest := fun h => hcur (List.mem_cons_of_mem _ h)
      have hstable := (relaxStep_untouched goal cur st q0 cur hc0).1
      have hfold : (q0 :: rest).foldl (relaxNeighbor goal cur) st
          = rest.foldl (relaxNeighbor goal cur)
            (relaxNeighbor goal cur st q0) := rfl
      rw [hfold]
      rcases ih (relaxNeighbor goal cur st q0) hcr z with
        ⟨hm, hcf⟩ | ⟨hzin, hm, hcf, hnode, himp⟩
      · rcases relaxNeighbor_cases goal cur st q0 with ⟨heq, _⟩ | ⟨heq, himp0⟩
        · left
          rw [heq] at hm hcf
          rw [heq]
          exact ⟨hm, hcf⟩
        · by_cases hzq : z = q0
          · subst hzq
            right
            refine ⟨List.mem_cons_self _ _, ?_, ?_, ?_, ?_⟩
            · rw [hm, heq]
              dsimp only
              rw [Net.lookupA_insertA, if_pos rfl]
            · rw [hcf, heq]
              dsimp only
              rw [Net.lookupA_insertA, if_pos rfl]
            · rcases relaxFold_frontier goal cur rest
                (relaxNeighbor goal cur st z) with ⟨tl, htl⟩
              rw [htl, heq]
              dsimp only
              rw [List.append_assoc]
              refine List.mem_append.mpr (Or.inr ?_)
              exact List.mem_append.mpr (Or.inl (List.mem_singleton.mpr rfl))
            · exact himp0
          · left
            obtain ⟨h1, h2⟩ := relaxStep_untouched goal cur st q0 z hzq
            exact ⟨hm.trans h1, hcf.trans h2⟩
      · right
        rw [hstable] at hm hnode
        refine ⟨List.mem_cons_of_mem _ hzin, hm, hcf, hnode, ?_⟩
        intro c0 hc0'
        by_cases hzq : z = q0
        · subst hzq
          rcases relaxNeighbor_cases goal cur st z with
            ⟨heq, c, hcs, hnlt⟩ | ⟨heq, himp0⟩
          · have h3 := himp c0 (by rw [heq]; exact hc0')
            rw [hstable] at h3
            exact h3
          · exact himp0 c0 hc0'
        · have h1 := (relaxStep_untouched goal cur st q0 z hzq).1
          have h3 := himp c0 (by rw [h1]; exact hc0')
          rw [hstable] at h3
          exact h3

end AStar

end MomaSim

namespace MomaSim

namespace AStar

/-- Bookkeeping facts about the `cost_so_far` map: every stored cost is below
the map size, keys are distinct, and keys are the start or in-grid points. -/
def MapOk (g : Grid) (start : Point) (st : AState) : Prop :=
  (∀ z c, Net.lookupA st.cost_so_far z = some c →
    c + 1 ≤ st.cost_so_far.length) ∧
  (st.cost_so_far.map Prod.fst).Nodup ∧
  (∀ z ∈ st.cost_so_far.map Prod.fst, z = start ∨
    (z.x < g.width ∧ z.y < g.height))

theorem relaxStep_mapOk (g : Grid) (start goal cur : Point) (st : AState)
    (next : Point) (hcur : (Net.lookupA st.cost_so_far cur).isSome)
    (hnext : next.x < g.width ∧ next.y < g.height)
    (hok : MapOk g start st) :
    MapOk g start (relaxNeighbor goal cur st next) ∧
    phi (nBound g) (relaxNeighbor goal cur st next) ≤ phi (nBound g) st := by
  obtain ⟨hV, hnd, hsub⟩ := hok
  obtain ⟨ccur, hccur⟩ := Option.isSome_iff_exists.mp hcur
  have hgd : (Net.lookupA st.cost_so_far cur).getD 0 = ccur := by
    rw [hccur]
    rfl
  have hcv := hV cur ccur hccur
  rcases relaxNeighbor_cases goal cur st next with ⟨heq, _⟩ | ⟨heq, himp⟩
  · rw [heq]
    exact ⟨⟨hV, hnd, hsub⟩, le_refl _⟩
  · rw [heq]
    by_cases hs : (Net.lookupA st.cost_so_far next).isSome = true
    · obtain ⟨c0, hc0⟩ := Option.isSome_iff_exists.mp hs
      have h1 := himp c0 hc0
      have h2 := hV next c0 hc0
      have hmf : (Net.insertA st.cost_so_far next
            ((Net.lookupA st.cost_so_far cur).getD 0 + 1)).map Prod.fst
          = st.cost_so_far.map Prod.fst := by
        rw [insertA_map_fst, if_pos hs]
      have hlen : (Net.insertA st.cost_so_far next
            ((Net.lookupA st.cost_so_far cur).getD 0 + 1)).length
          = st.cost_so_far.length := by
        rw [insertA_length, if_pos hs]
      refine ⟨⟨?_, ?_, ?_⟩, ?_⟩
      · intro z c hz
        dsimp only at hz ⊢
        rw [hlen]
        rw [Net.lookupA_insertA] at hz
        by_cases hzn : next = z
        · rw [if_pos hzn] at hz
          obtain rfl := Option.some.inj hz
          omega
        · rw [if_neg hzn] at hz
          exact hV z c hz
      · dsimp only
        rw [hmf]
        exact hnd
      · dsimp only
        rw [hmf]
        exact hsub
      · unfold phi
        dsimp only
        have hsum := insertA_snd_sum
          ((Net.lookupA st.cost_so_far cur).getD 0 + 1) hc0
        rw [List.length_append, List.length_singleton, hlen]
        omega
    · have hnone : Net.lookupA st.cost_so_far next = none :=
        Option.not_isSome_iff_eq_none.mp hs
      have hnm : next ∉ st.cost_so_far.map Prod.fst :=
        lookupA_none_iff.mp hnone
      have hmf : (Net.insertA st.cost_so_far next
            ((Net.lookupA st.cost_so_far cur).getD 0 + 1)).map Prod.fst
          = st.cost_so_far.map Prod.fst ++ [next] := by
        rw [insertA_map_fst, if_neg hs]
      have hlen : (Net.insertA st.cost_so_far next
            ((Net.lookupA st.cost_so_far cur).getD 0 + 1)).length
          = st.cost_so_far.length + 1 := by
        rw [insertA_length, if_neg hs]
      have hnd2 : (st.cost_so_far.map Prod.fst ++ [next]).Nodup := by
        rw [List.nodup_append]
        refine ⟨hnd, List.nodup_singleton _, ?_⟩
        intro a ha hb
        rw [List.mem_singleton] at hb
        exact hnm (hb ▸ ha)
      have hsub2 : ∀ z ∈ st.cost_so_far.map Prod.fst ++ [next],
          z = start ∨ (z.x < g.width ∧ z.y < g.height) := by
        intro z hz
        rcases List.mem_append.mp hz with h | h
        · exact hsub z h
        · rw [List.mem_singleton] at h
          subst h
          exact Or.inr hnext
      have hlenN : st.cost_so_far.length + 1 ≤ nBound g := by
        have h4 := keys_length_le hnd2 hsub2
        rw [List.length_append, List.length_map] at h4
        simpa using h4
      refine ⟨⟨?_, ?_, ?_⟩, ?_⟩
      · intro z c hz
        dsimp only at hz ⊢
        rw [hlen]
        rw [Net.lookupA_insertA] at hz
        by_cases hzn : next = z
        · rw [if_pos hzn] at hz
          obtain rfl := Option.some.inj hz
          omega
        · rw [if_neg hzn] at hz
          have := hV z c hz
          omega
      · dsimp only
        rw [hmf]
        exact hnd2
      · dsimp only
        rw [hmf]
        exact hsub2
      · unfold phi
        dsimp only
        have hsum := insertA_snd_sum_none
          ((Net.lookupA st.cost_so_far cur).getD 0 + 1) hnone
        rw [List.length_append, List.length_singleton, hlen]
        have hNsplit : 2 * nBound g * (nBound g - st.cost_so_far.length)
            = 2 * nBound g
              * (nBound g - (st.cost_so_far.length + 1)) + 2 * nBound g := by
          have h3 : nBound g - st.cost_so_far.length
              = (nBound g - (st.cost_so_far.length + 1)) + 1 := by omega
          rw [h3, Nat.mul_add, Nat.mul_one]
        omega

theorem relaxFold_mapOk (g : Grid) (start goal cur : Point) :
    ∀ (l : List Point) (st : AState), cur ∉ l →
      (∀ q ∈ l, q.x < g.width ∧ q.y < g.height) →
      (Net.lookupA st.cost_so_far cur).isSome →
      MapOk g start st →
      MapOk g start (l.foldl (relaxNeighbor goal cur) st) ∧
      phi (nBound g) (l.foldl (relaxNeighbor goal cur) st)
        ≤ phi (nBound g) st := by
  intro l
  induction l with
  | nil =>
      intro st _ _ _ hok
      exact ⟨hok, le_refl _⟩
  | cons q0 rest ih =>
      intro st hcur hbnd hcs hok
      have hc0 : cur ≠ q0 := fun h => hcur (h ▸ List.mem_cons_self _ _)
      have hcr : cur ∉ rest := fun h => hcur (List.mem_cons_of_mem _ h)
      obtain ⟨hok1, hphi1⟩ := relaxStep_mapOk g start goal cur st q0
        hcs (hbnd q0 (List.mem_cons_self _ _)) hok
      have hcs1 : (Net.lookupA
          (relaxNeighbor goal cur st q0).cost_so_far cur).isSome := by
        rw [(relaxStep_untouched goal cur st q0 cur hc0).1]
        exact hcs
      obtain ⟨hok2, hphi2⟩ := ih (relaxNeighbor goal cur st q0) hcr
        (fun q hq => hbnd q (List.mem_cons_of_mem _ hq)) hcs1 hok1
      exact ⟨hok2, le_trans hphi2 hphi1⟩

theorem relaxFold_newNodes (goal cur : Point) :
    ∀ (l : List Point) (st : AState), cur ∉ l →
      ∀ nd ∈ (l.foldl (relaxNeighbor goal cur) st).frontier,
        nd ∈ st.frontier ∨
        (nd.point ∈ l ∧ nd.heuristic = manhattan_distance nd.point goal ∧
          ∃ c ≤ nd.cost,
            Net.lookupA (l.foldl (relaxNeighbor goal cur) st).cost_so_far
              nd.point = some c) := by
  intro l
  induction l with
  | nil =>
      intro st _ nd hnd
      exact Or.inl hnd
  | cons q0 rest ih =>
      intro st hcur nd hnd
      have hc0 : cur ≠ q0 := fun h => hcur (h ▸ List.mem_cons_self _ _)
      have hcr : cur ∉ rest := fun h => hcur (List.mem_cons_of_mem _ h)
      have hfold : (q0 :: rest).foldl (relaxNeighbor goal cur) st
          = rest.foldl (relaxNeighbor goal cur)
            (relaxNeighbor goal cur st q0) := rfl
      rw [hfold] at hnd ⊢
      rcases ih (relaxNeighbor goal cur st q0) hcr nd hnd with
        h | ⟨hp, hh, c, hc, hlk⟩
      · rcases relaxNeighbor_cases goal cur st q0 with ⟨heq, _⟩ | ⟨heq, _⟩
        · rw [heq] at h
          exact Or.inl h
        · rw [heq] at h
          dsimp only at h
          rcases List.mem_append.mp h with h2 | h2
          · exact Or.inl h2
          · rw [List.mem_singleton] at h2
            right
            subst h2
            refine ⟨List.mem_cons_self _ _, rfl, ?_⟩
            have hstep : Net.lookupA
                (relaxNeighbor goal cur st q0).cost_so_far q0
                = some ((Net.lookupA st.cost_so_far cur).getD 0 + 1) := by
              rw [heq]
              dsimp only
              rw [Net.lookupA_insertA, if_pos rfl]
            rcases relaxFold_mono goal cur rest _ _ _ hstep with
              ⟨c', hc'le, hc'⟩
            exact ⟨c', hc'le, hc'⟩
      · exact Or.inr ⟨List.mem_cons_of_mem _ hp, hh, c, hc, hlk⟩

end AStar

end MomaSim

namespace MomaSim

namespace AStar

theorem inv_init (g : Grid) (start goal : Point) :
    Inv g start goal
      { frontier := [⟨start, 0, manhattan_distance start goal⟩],
        came_from := [],
        cost_so_far := [(start, 0)] } := by
  have hlk : ∀ z c, Net.lookupA [(start, 0)] z = some c → start = z ∧ c = 0 := by
    intro z c h
    rw [Net.lookupA] at h
    by_cases hz : start = z
    · rw [if_pos hz] at h
      exact ⟨hz, (Option.some.inj h).symm⟩
    · rw [if_neg hz] at h
      simp [Net.lookupA] at h
  refine ⟨?_, ?_, ?_, ?_, ?_, ?_, ?_, ?_, ?_, ?_, ?_⟩
  · intro nd hnd
    obtain rfl : nd = ⟨start, 0, manhattan_distance start goal⟩ := by
      simpa using hnd
    exact ⟨0, le_refl _, by rw [Net.lookupA, if_pos rfl]⟩
  · intro nd hnd
    obtain rfl : nd = ⟨start, 0, manhattan_distance start goal⟩ := by
      simpa using hnd
    rfl
  · intro z c h
    obtain ⟨hz, hc⟩ := hlk z c h
    left
    subst hc
    exact ⟨⟨start, 0, manhattan_distance start goal⟩,
      List.mem_singleton.mpr rfl, hz, Nat.le_refl 0⟩
  · rw [Net.lookupA, if_pos rfl]
  · intro z c h
    obtain ⟨hz, hc⟩ := hlk z c h
    subst hz
    subst hc
    exact Reach.refl
  · intro z p h
    simp [Net.lookupA] at h
  · intro z c h hz
    exact absurd (hlk z c h).1 (fun h2 => hz h2.symm)
  · intro z hz
    left
    simpa using hz
  · simp
  · intro z c h
    obtain ⟨_, hc⟩ := hlk z c h
    subst hc
    simp
  · intro c h
    obtain ⟨hz, _⟩ := hlk goal c h
    exact ⟨⟨start, 0, manhattan_distance start goal⟩,
      List.mem_singleton.mpr rfl, hz⟩

theorem iter_preserve {g : Grid} {start goal : Point} {st : AState}
    {current : Node} {rest : List Node}
    (hpop : popNode st.frontier = some (current, rest))
    (hng : current.point ≠ goal)
    (hinv : Inv g start goal st) :
    Inv g start goal
      ((g.neighbors current.point).foldl
        (relaxNeighbor goal current.point) { st with frontier := rest }) ∧
    phi (nBound g)
      ((g.neighbors current.point).foldl
        (relaxNeighbor goal current.point) { st with frontier := rest }) + 1
      ≤ phi (nBound g) st := by
  obtain ⟨hmax, hrest⟩ := popNode_elim hpop
  have hcm : current ∈ st.frontier := maxNode_mem hmax
  obtain ⟨ccur, hccurle, hccur⟩ := hinv.hS current hcm
  have hcurl : current.point ∉ g.neighbors current.point :=
    fun h => mem_neighbors_ne h rfl
  have hbnd : ∀ q ∈ g.neighbors current.point,
      q.x < g.width ∧ q.y < g.height :=
    fun q hq => mem_neighbors_bounds hq
  have hsm : ({ st with frontier := rest } : AState).cost_so_far
      = st.cost_so_far := rfl
  have hcs : (Net.lookupA
      ({ st with frontier := rest } : AState).cost_so_far
      current.point).isSome := by
    rw [hsm, hccur]
    rfl
  have hok : MapOk g start { st with frontier := rest } :=
    ⟨hinv.hV, hinv.hKnd, hinv.hKsub⟩
  obtain ⟨hok', hphi'⟩ := relaxFold_mapOk g start goal current.point
    (g.neighbors current.point) { st with frontier := rest } hcurl hbnd
    hcs hok
  have hgd : (Net.lookupA
      ({ st with frontier := rest } : AState).cost_so_far
      current.point).getD 0 = ccur := by
    rw [hsm, hccur]
    rfl
  have hchg := relaxFold_changed goal current.point
    (g.neighbors current.point) { st with frontier := rest } hcurl
  have hmono := relaxFold_mono goal current.point
    (g.neighbors current.point) { st with frontier := rest }
  have hrelax := relaxFold_relax goal current.point
    (g.neighbors current.point) { st with frontier := rest } hcurl
  obtain ⟨ftl, hftl⟩ := relaxFold_frontier goal current.point
    (g.neighbors current.point) { st with frontier := rest }
  have hfr_of_rest : ∀ nd ∈ rest,
      nd ∈ ((g.neighbors current.point).foldl
        (relaxNeighbor goal current.point)
        { st with frontier := rest }).frontier := by
    intro nd hnd
    rw [hftl]
    exact List.mem_append.mpr (Or.inl hnd)
  have hmem_rest : ∀ nd ∈ st.frontier, nd ≠ current → nd ∈ rest := by
    intro nd hnd hne
    rw [hrest]
    exact (List.mem_erase_of_ne hne).mpr hnd
  constructor
  · refine ⟨?_, ?_, ?_, ?_, ?_, ?_, ?_, hok'.2.2, hok'.2.1, hok'.1, ?_⟩
    · -- hS
      intro nd hnd
      rcases relaxFold_newNodes goal current.point _ _ hcurl nd hnd with
        h | ⟨_, _, c, hcle, hlk⟩
      · have hnd' : nd ∈ st.frontier := by
          rw [hrest] at h
          exact List.mem_of_mem_erase h
        obtain ⟨c, hcle, hc⟩ := hinv.hS nd hnd'
        rcases hmono nd.point c (by rw [hsm]; exact hc) with ⟨c', hc'le, hc'⟩
        exact ⟨c', le_trans hc'le hcle, hc'⟩
      · exact ⟨c, hcle, hlk⟩
    · -- hH
      intro nd hnd
      rcases relaxFold_newNodes goal current.point _ _ hcurl nd hnd with
        h | ⟨_, hh, _⟩
      · have hnd' : nd ∈ st.frontier := by
          rw [hrest] at h
          exact List.mem_of_mem_erase h
        exact hinv.hH nd hnd'
      · exact hh
    · -- hGS
      intro z c hz
      rcases hchg z with ⟨hm, _⟩ | ⟨hzin, hm, _, hnode, _⟩
      · rw [hm, hsm] at hz
        rcases hinv.hGS z c hz with ⟨nd, hnd, hp, hcle⟩ | hrel
        · by_cases hne : nd = current
          · right
            intro q hq
            have hzcur : current.point = z := by
              rw [← hp, hne]
            rw [← hzcur] at hq
            rcases hrelax q hq with ⟨cq, hcqle, hcq⟩
            rw [hsm] at hcqle
            rw [hzcur] at hcqle
            rw [hz] at hcqle
            exact ⟨cq, by simpa using hcqle, hcq⟩
          · left
            exact ⟨nd, hfr_of_rest nd (hmem_rest nd hnd hne), hp, hcle⟩
        · right
          intro q hq
          obtain ⟨cq, hcqle, hcq⟩ := hrel q hq
          rcases hmono q cq (by rw [hsm]; exact hcq) with ⟨cq', h1, h2⟩
          exact ⟨cq', le_trans h1 hcqle, h2⟩
      · left
        refine ⟨⟨z, (Net.lookupA
            ({ st with frontier := rest } : AState).cost_so_far
            current.point).getD 0 + 1, manhattan_distance z goal⟩,
          hnode, rfl, ?_⟩
        rw [hm] at hz
        exact le_of_eq (Option.some.inj hz)
    · -- hA1
      rcases hchg start with ⟨hm, _⟩ | ⟨_, _, _, _, himp⟩
      · rw [hm, hsm]
        exact hinv.hA1
      · have := himp 0 (by rw [hsm]; exact hinv.hA1)
        omega
    · -- hA2
      intro z c hz
      rcases hchg z with ⟨hm, _⟩ | ⟨hzin, hm, _, _, _⟩
      · rw [hm, hsm] at hz
        exact hinv.hA2 z c hz
      · rw [hm] at hz
        obtain rfl := (Option.some.inj hz).symm
        rw [hgd]
        exact Reach.step (hinv.hA2 current.point ccur hccur) hzin
    · -- hA3
      intro z p hz
      rcases hchg z with ⟨hm, hcf⟩ | ⟨hzin, hm, hcf, _, _⟩
      · rw [hcf, hsm] at hz
        obtain ⟨hnb, cz, cp, hcz, hcp, hlt⟩ := hinv.hA3 z p hz
        rcases hmono p cp (by rw [hsm]; exact hcp) with ⟨cp', h1, h2⟩
        refine ⟨hnb, cz, cp', ?_, h2, by omega⟩
        rw [hm, hsm]
        exact hcz
      · obtain rfl : p = current.point :=
          Option.some.inj (hz.symm.trans hcf)
        refine ⟨hzin, _, ccur, hm, ?_, ?_⟩
        · rw [(relaxFold_untouched goal current.point _ _ current.point
            hcurl).1, hsm]
          exact hccur
        · rw [hgd]
          omega
    · -- hA5
      intro z c hz hzs
      rcases hchg z with ⟨hm, hcf⟩ | ⟨_, _, hcf, _, _⟩
      · rw [hm, hsm] at hz
        rw [hcf, hsm]
        exact hinv.hA5 z c hz hzs
      · rw [hcf]
        rfl
    · -- hGW
      intro c hz
      rcases hchg goal with ⟨hm, _⟩ | ⟨hzin, hm, _, hnode, _⟩
      · rw [hm, hsm] at hz
        obtain ⟨nd, hnd, hp⟩ := hinv.hGW c hz
        have hne : nd ≠ current := by
          intro h
          exact hng (by rw [← h, hp])
        exact ⟨nd, hfr_of_rest nd (hmem_rest nd hnd hne), hp⟩
      · exact ⟨_, hnode, rfl⟩
  · -- phi decrease
    have hlen : st.frontier.length = rest.length + 1 := by
      rw [hrest, List.length_erase_of_mem hcm]
      have : 1 ≤ st.frontier.length := by
        cases hsf : st.frontier with
        | nil =>
            rw [hsf] at hcm
            exact absurd hcm (by simp)
        | cons a t => simp
      omega
    have hphim : phi (nBound g) ({ st with frontier := rest } : AState) + 1
        = phi (nBound g) st := by
      unfold phi
      dsimp only
      omega
    omega

end AStar

end MomaSim

namespace MomaSim

namespace AStar

theorem manhattan_self (a : Point) : manhattan_distance a a = 0 := by
  unfold manhattan_distance
  omega

theorem walk_invariant {g : Grid} {start goal : Point} {st : AState}
    (hinv : Inv g start goal st) :
    ∀ {z : Point} {k : ℕ}, Reach g start z k →
      (∃ c ≤ k, Net.lookupA st.cost_so_far z = some c) ∨
      (∃ nd ∈ st.frontier,
        nd.cost + manhattan_distance nd.point goal
          ≤ k + manhattan_distance z goal) := by
  intro z k hr
  induction hr with
  | refl => exact Or.inl ⟨0, Nat.zero_le _, hinv.hA1⟩
  | step hp hq ih =>
      rcases ih with ⟨c, hcle, hc⟩ | ⟨nd, hnd, hkey⟩
      · rcases hinv.hGS _ c hc with ⟨nd, hnd, hpt, hcost⟩ | hrel
        · right
          refine ⟨nd, hnd, ?_⟩
          have hlip := manhattan_lipschitz hq goal
          rw [hpt]
          omega
        · rcases hrel _ hq with ⟨cq, hcqle, hcq⟩
          exact Or.inl ⟨cq, by omega, hcq⟩
      · right
        refine ⟨nd, hnd, ?_⟩
        have hlip := manhattan_lipschitz hq goal
        omega

theorem chain_reconstruct {g : Grid} {start goal : Point} {st : AState}
    (hinv : Inv g start goal st) :
    ∀ (c : ℕ) (z : Point), Net.lookupA st.cost_so_far z = some c →
      ∀ f : ℕ, c < f →
        ∃ w, Net.walkToSource st.came_from start f z = some w ∧
          w.length ≤ c + 1 ∧ w.getLast? = some start ∧ w.head? = some z ∧
          Reach g start z (w.length - 1) ∧
          List.Chain' (fun a b => a ∈ g.neighbors b) w := by
  intro c
  induction c using Nat.strong_induction_on with
  | _ c ih =>
      intro z hz f hf
      by_cases hzs : z = start
      · subst hzs
        refine ⟨[z], Net.walk_src_eq _ _ _, by simp, by simp, by simp, ?_,
          by simp⟩
        simpa using Reach.refl
      · have hcf := hinv.hA5 z c hz hzs
        obtain ⟨p, hp⟩ := Option.isSome_iff_exists.mp hcf
        obtain ⟨hnb, cz, cp, hcz, hcp, hlt⟩ := hinv.hA3 z p hp
        obtain rfl : cz = c := by
          rw [hz] at hcz
          exact (Option.some.inj hcz).symm
        obtain ⟨w, hw, hwlen, hwlast, hwhead, hwreach, hwchain⟩ :=
          ih cp hlt p hcp (f - 1) (by omega)
        cases f with
        | zero => omega
        | succ f' =>
            have hw' : Net.walkToSource st.came_from start f' p = some w := by
              simpa using hw
            refine ⟨z :: w, ?_, ?_, ?_, rfl, ?_, ?_⟩
            · show Net.walkToSource st.came_from start (f' + 1) z
                = some (z :: w)
              unfold Net.walkToSource
              rw [if_neg hzs, hp]
              dsimp only
              rw [hw']
              rfl
            · simp only [List.length_cons]
              omega
            · cases w with
              | nil => exact absurd hwhead (by simp)
              | cons a t =>
                  rw [List.getLast?_cons_cons]
                  exact hwlast
            · have hwne : w.length - 1 + 1 = w.length := by
                cases w with
                | nil => exact absurd hwhead (by simp)
                | cons a t => simp
              have h2 := Reach.step hwreach hnb
              rw [hwne] at h2
              simpa using h2
            · cases w with
              | nil => exact absurd hwhead (by simp)
              | cons a t =>
                  obtain rfl : a = p := by simpa using hwhead
                  exact List.chain'_cons.mpr ⟨hnb, hwchain⟩

theorem goal_pop {g : Grid} {start goal : Point} {st : AState}
    {current : Node} {rest : List Node} (hinv : Inv g start goal st)
    (hpop : popNode st.frontier = some (current, rest))
    (hcp : current.point = goal) :
    ∃ c, Net.lookupA st.cost_so_far goal = some c ∧
      Reachable g start goal ∧ c = dist g start goal ∧
      c ≤ current.cost := by
  obtain ⟨hmax, _⟩ := popNode_elim hpop
  have hcm := maxNode_mem hmax
  obtain ⟨cg, hcgle, hcg⟩ := hinv.hS current hcm
  rw [hcp] at hcg
  have hreach : Reachable g start goal := ⟨cg, hinv.hA2 goal cg hcg⟩
  have hdle : dist g start goal ≤ cg := Nat.sInf_le (hinv.hA2 goal cg hcg)
  have hdr : Reach g start goal (dist g start goal) := Nat.sInf_mem hreach
  rcases walk_invariant hinv hdr with ⟨c, hcle, hc⟩ | ⟨nd, hnd, hkey⟩
  · have hceq : c = cg := by
      rw [hc] at hcg
      exact Option.some.inj hcg
    exact ⟨cg, hcg, hreach, le_antisymm (by omega) hdle, hcgle⟩
  · have hmin := maxNode_min hmax nd hnd
    have hh := hinv.hH current hcm
    have hhnd := hinv.hH nd hnd
    have hmg : manhattan_distance goal goal = 0 := manhattan_self goal
    have hcd : cg ≤ dist g start goal := by
      rw [hh, hcp, hmg] at hmin
      rw [hhnd] at hmin
      rw [hmg] at hkey
      omega
    exact ⟨cg, hcg, hreach, le_antisymm hcd hdle, hcgle⟩

end AStar

end MomaSim

namespace MomaSim

namespace AStar

theorem frontier_nonempty_of_reachable {g : Grid} {start goal : Point}
    {st : AState} (hinv : Inv g start goal st)
    (hr : Reachable g start goal) (hemp : st.frontier = []) : False := by
  obtain ⟨n, hn⟩ := hr
  rcases walk_invariant hinv hn with ⟨c, _, hc⟩ | ⟨nd, hnd, _⟩
  · obtain ⟨nd, hnd, _⟩ := hinv.hGW c hc
    rw [hemp] at hnd
    exact absurd hnd (by simp)
  · rw [hemp] at hnd
    exact absurd hnd (by simp)

theorem aStarLoop_reachable {g : Grid} {start goal : Point} :
    ∀ (fuel : ℕ) (st : AState), Inv g start goal st →
      phi (nBound g) st + nBound g + 1 ≤ fuel →
      Reachable g start goal →
      ∃ path, aStarLoop g start goal fuel st = some path ∧
        path.head? = some start ∧ path.getLast? = some goal ∧
        List.Chain' (fun a b => b ∈ g.neighbors a) path ∧
        path.length = dist g start goal + 1 := by
  intro fuel
  induction fuel with
  | zero =>
      intro st hinv hfuel hr
      have hN : 1 ≤ nBound g := by
        unfold nBound
        omega
      omega
  | succ f ih =>
      intro st hinv hfuel hr
      unfold aStarLoop
      cases hpop : popNode st.frontier with
      | none =>
          exact (frontier_nonempty_of_reachable hinv hr
            (popNode_none hpop)).elim
      | some pr =>
          obtain ⟨current, rest⟩ := pr
          dsimp only
          by_cases hcp : current.point = goal
          · rw [if_pos hcp]
            obtain ⟨c, hcg, hre, hcd, _⟩ := goal_pop hinv hpop hcp
            have hlenN : st.cost_so_far.length ≤ nBound g := by
              have h1 := keys_length_le hinv.hKnd hinv.hKsub
              rw [List.length_map] at h1
              exact h1
            have hcN := hinv.hV goal c hcg
            obtain ⟨w, hw, hwlen, hwlast, hwhead, hwreach, hwchain⟩ :=
              chain_reconstruct hinv c goal hcg (f + 1) (by omega)
            refine ⟨w.reverse, ?_, ?_, ?_, ?_, ?_⟩
            · rw [hw]
              rfl
            · rw [List.head?_reverse]
              exact hwlast
            · rw [List.getLast?_reverse]
              exact hwhead
            · rw [List.chain'_reverse]
              exact hwchain
            · rw [List.length_reverse]
              have hd2 : dist g start goal ≤ w.length - 1 :=
                Nat.sInf_le hwreach
              have hne : w ≠ [] := by
                intro h
                rw [h] at hwhead
                simp at hwhead
              have hl1 : 1 ≤ w.length := List.length_pos.mpr hne
              omega
          · rw [if_neg hcp]
            obtain ⟨hinv', hphi'⟩ := iter_preserve hpop hcp hinv
            exact ih _ hinv' (by omega) hr

theorem aStarLoop_unreachable {g : Grid} {start goal : Point} :
    ∀ (fuel : ℕ) (st : AState), Inv g start goal st →
      ¬ Reachable g start goal →
      aStarLoop g start goal fuel st = none := by
  intro fuel
  induction fuel with
  | zero =>
      intro st _ _
      rfl
  | succ f ih =>
      intro st hinv hnr
      unfold aStarLoop
      cases hpop : popNode st.frontier with
      | none => rfl
      | some pr =>
          obtain ⟨current, rest⟩ := pr
          dsimp only
          by_cases hcp : current.point = goal
          · obtain ⟨hmax, _⟩ := popNode_elim hpop
            obtain ⟨c, _, hc⟩ := hinv.hS current (maxNode_mem hmax)
            rw [hcp] at hc
            exact absurd ⟨c, hinv.hA2 goal c hc⟩ hnr
          · rw [if_neg hcp]
            exact ih _ (iter_preserve hpop hcp hinv).1 hnr

theorem a_star_phi_init (g : Grid) (start goal : Point) (fuel : ℕ)
    (hfuel : astarFuel g ≤ fuel) :
    phi (nBound g)
      { frontier := [⟨start, 0, manhattan_distance start goal⟩],
        came_from := [], cost_so_far := [(start, 0)] }
      + nBound g + 1 ≤ fuel := by
  have hN : 1 ≤ nBound g := by
    unfold nBound
    omega
  have hphi0 : phi (nBound g)
      { frontier := [⟨start, 0, manhattan_distance start goal⟩],
        came_from := [], cost_so_far := [(start, 0)] }
      = 1 + 2 * nBound g * (nBound g - 1) := by
    unfold phi
    norm_num
  have hsplit : 2 * nBound g * nBound g
      = 2 * nBound g * (nBound g - 1) + 2 * nBound g := by
    obtain ⟨a, ha⟩ : ∃ a, nBound g = a + 1 := ⟨nBound g - 1, by omega⟩
    rw [ha]
    have h4 : a + 1 - 1 = a := rfl
    rw [h4]
    ring
  unfold astarFuel at hfuel
  omega

theorem a_star_reachable (g : Grid) (start goal : Point) (fuel : ℕ)
    (hfuel : astarFuel g ≤ fuel) (hr : Reachable g start goal) :
    ∃ path, a_star g start goal fuel = some path ∧
      path.head? = some start ∧ path.getLast? = some goal ∧
      List.Chain' (fun a b => b ∈ g.neighbors a) path ∧
      path.length = dist g start goal + 1 :=
  aStarLoop_reachable fuel _ (inv_init g start goal)
    (a_star_phi_init g start goal fuel hfuel) hr

theorem a_star_unreachable (g : Grid) (start goal : Point) (fuel : ℕ)
    (hnr : ¬ Reachable g start goal) :
    a_star g start goal fuel = none :=
  aStarLoop_unreachable fuel _ (inv_init g start goal) hnr

end AStar

end MomaSim

namespace MomaSim

namespace AStar

/-- A concrete 2×1 grid of free cells. -/
def demoGrid : Grid := ⟨2, 1, [Cell.Free, Cell.Free]⟩

end AStar

open AStar in
/-- **C1** (functional correctness): for every grid and every start/goal pair,
run with any sufficient fuel (the Rust loop is unbounded; `astarFuel g`
provably suffices), `a_star` returns `some path` exactly when the goal is
reachable from the start through non-`Blocked` cells; every returned path
starts at `start`, ends at `goal`, moves one unit per step through
`neighbors`, and its total cost (`length - 1` unit moves) equals the true
shortest-path cost `dist`; when `start = goal` it returns the single-node
path `[start]`; when the goal is unreachable it returns `none` (for every
fuel), a normal outcome rather than an error. -/
theorem C1_astar_correct (g : Grid) (start goal : Point) (fuel : ℕ)
    (hfuel : astarFuel g ≤ fuel) :
    (Reachable g start goal ↔
      ∃ path, a_star g start goal fuel = some path) ∧
    (∀ path, a_star g start goal fuel = some path →
      path.head? = some start ∧ path.getLast? = some goal ∧
      List.Chain' (fun a b => b ∈ g.neighbors a) path ∧
      path.length - 1 = dist g start goal) ∧
    (¬ Reachable g start goal →
      ∀ fuel2 : ℕ, a_star g start goal fuel2 = none) ∧
    (start = goal → a_star g start goal fuel = some [start]) := by
  have hmain : Reachable g start goal →
      ∃ path, a_star g start goal fuel = some path ∧
        path.head? = some start ∧ path.getLast? = some goal ∧
        List.Chain' (fun a b => b ∈ g.neighbors a) path ∧
        path.length = dist g start goal + 1 :=
    a_star_reachable g start goal fuel hfuel
  have hiff : Reachable g start goal ↔
      ∃ path, a_star g start goal fuel = some path := by
    constructor
    · intro hr
      obtain ⟨path, hp, _⟩ := hmain hr
      exact ⟨path, hp⟩
    · intro ⟨path, hp⟩
      by_contra hnr
      rw [a_star_unreachable g start goal fuel hnr] at hp
      exact absurd hp (by simp)
  refine ⟨hiff, ?_, ?_, ?_⟩
  · intro path hp
    have hr : Reachable g start goal := hiff.mpr ⟨path, hp⟩
    obtain ⟨path2, hp2, hh, hl, hc, hlen⟩ := hmain hr
    obtain rfl : path2 = path := by
      rw [hp] at hp2
      exact (Option.some.inj hp2).symm
    refine ⟨hh, hl, hc, ?_⟩
    omega
  · intro hnr fuel2
    exact a_star_unreachable g start goal fuel2 hnr
  · intro hsg
    subst hsg
    have hr : Reachable g start start := ⟨0, Reach.refl⟩
    obtain ⟨path, hp, hh, hl, hc, hlen⟩ := hmain hr
    have hd0 : dist g start start = 0 :=
      Nat.le_zero.mp (Nat.sInf_le Reach.refl)
    rw [hd0] at hlen
    cases path with
    | nil => exact absurd hlen (by simp)
    | cons a t =>
        cases t with
        | nil =>
            obtain rfl : a = start := by simpa using hh
            exact hp
        | cons b t2 => exact absurd hlen (by simp)

open AStar in
/-- Witness for C1 on a concrete free 2×1 grid with sufficient fuel. -/
theorem C1_astar_correct_witness :
    (Reachable demoGrid ⟨0, 0⟩ ⟨1, 0⟩ ↔
      ∃ path, a_star demoGrid ⟨0, 0⟩ ⟨1, 0⟩ 23 = some path) ∧
    (∀ path, a_star demoGrid ⟨0, 0⟩ ⟨1, 0⟩ 23 = some path →
      path.head? = some ⟨0, 0⟩ ∧ path.getLast? = some ⟨1, 0⟩ ∧
      List.Chain' (fun a b => b ∈ demoGrid.neighbors a) path ∧
      path.length - 1 = dist demoGrid ⟨0, 0⟩ ⟨1, 0⟩) ∧
    (¬ Reachable demoGrid ⟨0, 0⟩ ⟨1, 0⟩ →
      ∀ fuel2 : ℕ, a_star demoGrid ⟨0, 0⟩ ⟨1, 0⟩ fuel2 = none) ∧
    ((⟨0, 0⟩ : Point) = ⟨1, 0⟩ →
      a_star demoGrid ⟨0, 0⟩ ⟨1, 0⟩ 23 = some [⟨0, 0⟩]) :=
  C1_astar_correct demoGrid ⟨0, 0⟩ ⟨1, 0⟩ 23 (by decide)

end MomaSim
